import Mathlib

/-!
# fleet: unit names, machine ledger and event filter

A shallow embedding of `unit/unit.go` and `registry/machine.go`.

Go strings are finite sequences of bytes; here a string is a `List Char`, one
`Char` per element of the Go string.  Every comparison the code makes is
against a fixed ASCII text (`/`, `.`, `object`, `machines`, `create`, ...), and
slicing is by position, so the two readings agree.

The parts of the Go standard library that the sources call (`strings.HasSuffix`,
`strings.TrimSuffix`, `path.Split`, `path.Base`, `path.Dir`, `path.Clean`,
`path.Join`, `sha1.Sum`) are embedded from the library's own code.  Machine
integers are natural numbers reduced modulo `2^32` or `2^64` where the Go code
wraps.
-/

set_option autoImplicit false

/-! ## Go standard library: package `strings` -/

namespace strings

/-- Go `strings.HasSuffix`:
`len(s) >= len(suffix) && s[len(s)-len(suffix):] == suffix`. -/
def HasSuffix (s suffix : List Char) : Bool :=
  decide (s.length ≥ suffix.length) && (s.drop (s.length - suffix.length) == suffix)

/-- Go `strings.TrimSuffix`: `s` without the trailing `suffix`, or `s` itself
when it does not end in `suffix`. -/
def TrimSuffix (s suffix : List Char) : List Char :=
  if HasSuffix s suffix then s.take (s.length - suffix.length) else s

/-- Go `strings.LastIndex(s, string(c))` for a one-byte separator: the index of
the last `c` in `s`, or `-1` when there is none. -/
def LastIndexByte : List Char → Char → Int
  | [], _ => -1
  | x :: xs, c =>
    let i := LastIndexByte xs c
    if i ≥ 0 then i + 1 else if x == c then 0 else -1

end strings

/-! ## Go standard library: package `path` -/

namespace path

/-- Go `path.Split`: `i := LastIndex(path, "/"); return path[:i+1], path[i+1:]`. -/
def Split (path : List Char) : List Char × List Char :=
  let i := strings.LastIndexByte path '/'
  (path.take (i + 1).toNat, path.drop (i + 1).toNat)

/-- The loop `for len(path) > 0 && path[len(path)-1] == '/'` of `path.Base`,
run on the reversed string. -/
def stripTrailingSlashes (path : List Char) : List Char :=
  (path.reverse.dropWhile (fun c => c == '/')).reverse

/-- Go `path.Base`. -/
def Base (path : List Char) : List Char :=
  if path.isEmpty then ['.'] else
  let path := stripTrailingSlashes path
  let i := strings.LastIndexByte path '/'
  let path := if i ≥ 0 then path.drop (i + 1).toNat else path
  if path.isEmpty then ['/'] else path

/-- The inner loop of the `..` case of `path.Clean`, after `out.w--`:
`for out.w > dotdot && out.index(out.w) != '/' { out.w-- }`.  `buf` is the
buffer as written before the backtrack, the last argument is `out.w`. -/
def backtrack (buf : List Char) (dotdot : Nat) : Nat → Nat
  | 0 => 0
  | w + 1 =>
    if decide (w + 1 > dotdot) && (buf.getD (w + 1) '/' != '/') then backtrack buf dotdot w
    else w + 1

/-- The start of the default case of `path.Clean`, "add slash if needed":
`if rooted && out.w != 1 || !rooted && out.w != 0 { out.append('/') }`. -/
def addSlash (rooted : Bool) (out : List Char) : List Char :=
  if (rooted && out.length != 1) || (!rooted && out.length != 0) then out ++ ['/'] else out

/-- The main loop `for r < n` of `path.Clean`.  `rest` is `path[r:]`, `out` is
the written part `buf[:w]` of the lazy buffer, and the first argument bounds the
number of iterations (every iteration consumes at least one byte). -/
def cleanLoop (rooted : Bool) : Nat → List Char → List Char → Nat → List Char
  | 0, _, out, _ => out
  | _ + 1, [], out, _ => out
  | fuel + 1, c :: t, out, dotdot =>
    if c == '/' then
      -- empty path element
      cleanLoop rooted fuel t out dotdot
    else if c == '.' && (t.isEmpty || t.head? == some '/') then
      -- . element
      cleanLoop rooted fuel t out dotdot
    else if c == '.' && t.head? == some '.' && (t.tail.isEmpty || t.tail.head? == some '/') then
      -- .. element: remove to last /
      if out.length > dotdot then
        cleanLoop rooted fuel t.tail (out.take (backtrack out dotdot (out.length - 1))) dotdot
      else if !rooted then
        let out1 := (if out.length > 0 then out ++ ['/'] else out) ++ ['.', '.']
        cleanLoop rooted fuel t.tail out1 out1.length
      else
        cleanLoop rooted fuel t.tail out dotdot
    else
      -- real path element: add slash if needed, copy element
      cleanLoop rooted fuel ((c :: t).dropWhile (fun b => b != '/'))
        (addSlash rooted out ++ (c :: t).takeWhile (fun b => b != '/')) dotdot

/-- Go `path.Clean`. -/
def Clean (path : List Char) : List Char :=
  if path.isEmpty then ['.'] else
  let rooted := path.head? == some '/'
  let out :=
    if rooted then cleanLoop rooted path.length path.tail ['/'] 1
    else cleanLoop rooted path.length path [] 0
  if out.length == 0 then ['.'] else out

/-- Go `path.Dir`: `dir, _ := Split(path); return Clean(dir)`. -/
def Dir (path : List Char) : List Char :=
  Clean (Split path).1

/-- Go `path.Join`: leading empty elements are skipped, the rest is joined with
`/` and cleaned; all elements empty gives the empty string. -/
def Join (elem : List (List Char)) : List Char :=
  if (elem.map List.length).sum == 0 then [] else
  Clean (elem.foldl (fun buf e =>
    if buf.length > 0 || e != [] then (if buf.length > 0 then buf ++ ['/'] else buf) ++ e
    else buf) [])

end path

/-! ## Go standard library: package `crypto/sha1` -/

namespace sha1

/-- The size of a SHA-1 checksum in bytes. -/
def Size : Nat := 20

/-- The block size of SHA-1 in bytes. -/
def chunk : Nat := 64

/-- The initial value of `h[0]`. -/
def init0 : Nat := 0x67452301

/-- The initial value of `h[1]`. -/
def init1 : Nat := 0xEFCDAB89

/-- The initial value of `h[2]`. -/
def init2 : Nat := 0x98BADCFE

/-- The initial value of `h[3]`. -/
def init3 : Nat := 0x10325476

/-- The initial value of `h[4]`. -/
def init4 : Nat := 0xC3D2E1F0

/-- The round constant of rounds 0 to 19. -/
def K0 : Nat := 0x5A827999

/-- The round constant of rounds 20 to 39. -/
def K1 : Nat := 0x6ED9EBA1

/-- The round constant of rounds 40 to 59. -/
def K2 : Nat := 0x8F1BBCDC

/-- The round constant of rounds 60 to 79. -/
def K3 : Nat := 0xCA62C1D6

/-- Go `bits.RotateLeft32(x, k)` on a `uint32`, for `0 < k < 32`. -/
def rotateLeft32 (x k : Nat) : Nat :=
  ((x <<< k) ||| (x >>> (32 - k))) % 4294967296

/-- The five words `h[0..4]` of the digest, or the working variables
`a, b, c, d, e`. -/
structure Words where
  h0 : Nat
  h1 : Nat
  h2 : Nat
  h3 : Nat
  h4 : Nat
  deriving DecidableEq, Repr

/-- Round `i` of the 80 rounds of `blockGeneric`, on the 16-word window `w` and
the working variables.  The five loops of the Go code have this body and differ
in the function `f` and the constant, chosen here by `i`; from round 16 on the
window is updated first. -/
def round (st : List Nat × Words) (i : Nat) : List Nat × Words :=
  let w :=
    if i < 16 then st.1
    else
      let tmp := st.1.getD ((i - 3) &&& 0xf) 0 ^^^ st.1.getD ((i - 8) &&& 0xf) 0 ^^^
        st.1.getD ((i - 14) &&& 0xf) 0 ^^^ st.1.getD (i &&& 0xf) 0
      st.1.set (i &&& 0xf) (rotateLeft32 tmp 1)
  let a := st.2.h0
  let b := st.2.h1
  let c := st.2.h2
  let d := st.2.h3
  let e := st.2.h4
  let f :=
    if i < 20 then (b &&& c) ||| ((b ^^^ 0xFFFFFFFF) &&& d)
    else if i < 40 then b ^^^ c ^^^ d
    else if i < 60 then ((b ||| c) &&& d) ||| (b &&& c)
    else b ^^^ c ^^^ d
  let k := if i < 20 then K0 else if i < 40 then K1 else if i < 60 then K2 else K3
  let t := (rotateLeft32 a 5 + f + e + w.getD (i &&& 0xf) 0 + k) % 4294967296
  (w, ⟨t, a, rotateLeft32 b 30, c, d⟩)

/-- The body of the loop of `blockGeneric` for one chunk `p` of 64 bytes: the
16 big-endian words of the chunk, the 80 rounds, and the sums into `h`. -/
def blockStep (h : Words) (p : List Nat) : Words :=
  let w := (List.range 16).map (fun i =>
    (p.getD (4 * i) 0 <<< 24) ||| (p.getD (4 * i + 1) 0 <<< 16) |||
      (p.getD (4 * i + 2) 0 <<< 8) ||| p.getD (4 * i + 3) 0)
  let out := ((List.range 80).foldl round (w, h)).2
  ⟨(h.h0 + out.h0) % 4294967296, (h.h1 + out.h1) % 4294967296, (h.h2 + out.h2) % 4294967296,
    (h.h3 + out.h3) % 4294967296, (h.h4 + out.h4) % 4294967296⟩

/-- The loop `for len(p) >= chunk` of `blockGeneric`; the first argument bounds
the number of iterations. -/
def blockLoop : Nat → Words → List Nat → Words
  | 0, h, _ => h
  | fuel + 1, h, p =>
    if p.length ≥ chunk then blockLoop fuel (blockStep h p) (p.drop chunk) else h

/-- Go `block(dig, p)`: all whole chunks of `p` are folded into the digest. -/
def block (h : Words) (p : List Nat) : Words :=
  blockLoop p.length h p

/-- The Go `digest`: the words `h`, the buffered bytes `x[:nx]`, and the
`uint64` count `len` of the bytes written. -/
structure digest where
  h : Words
  x : List Nat
  len : Nat
  deriving DecidableEq, Repr

/-- Go `(*digest).Reset`. -/
def digest.Reset : digest :=
  ⟨⟨init0, init1, init2, init3, init4⟩, [], 0⟩

/-- The first step of `(*digest).Write`, `if d.nx > 0`: the buffer is filled
from `p` and folded into `h` when it is full.  Gives `h`, the buffer and the
rest of `p`. -/
def digest.fill (d : digest) (p : List Nat) : Words × List Nat × List Nat :=
  if d.x.length > 0 then
    let n := min (chunk - d.x.length) p.length
    let x := d.x ++ p.take n
    if x.length == chunk then (block d.h x, [], p.drop n) else (d.h, x, p.drop n)
  else (d.h, d.x, p)

/-- Go `(*digest).Write`: count the bytes, fill the buffer, fold the whole
chunks of what is left (`n := len(p) &^ (chunk - 1)`), and buffer the rest. -/
def digest.Write (d : digest) (p : List Nat) : digest :=
  let len := (d.len + p.length) % 18446744073709551616
  let s1 := d.fill p
  let n := s1.2.2.length - s1.2.2.length % chunk
  let h := if s1.2.2.length ≥ chunk then block s1.1 (s1.2.2.take n) else s1.1
  let p2 := if s1.2.2.length ≥ chunk then s1.2.2.drop n else s1.2.2
  let x := if p2.length > 0 then p2 else s1.2.1
  ⟨h, x, len⟩

/-- Go `binary.BigEndian.PutUint32`: the four bytes of a `uint32`. -/
def putUint32 (v : Nat) : List Nat :=
  [(v >>> 24) % 256, (v >>> 16) % 256, (v >>> 8) % 256, v % 256]

/-- Go `binary.BigEndian.PutUint64`: the eight bytes of a `uint64`. -/
def putUint64 (v : Nat) : List Nat :=
  [(v >>> 56) % 256, (v >>> 48) % 256, (v >>> 40) % 256, (v >>> 32) % 256,
    (v >>> 24) % 256, (v >>> 16) % 256, (v >>> 8) % 256, v % 256]

/-- Go `(*digest).checkSum`: the padding (a one bit, zeros up to 56 bytes mod
64), the length in bits, and the digest bytes; `none` stands for
`panic("d.nx != 0")`. -/
def digest.checkSum (d : digest) : Option (List Nat) :=
  let len := d.len
  let tmp : List Nat := 0x80 :: List.replicate 71 0
  let d1 :=
    if len % 64 < 56 then d.Write (tmp.take (56 - len % 64))
    else d.Write (tmp.take (64 + 56 - len % 64))
  let d2 := d1.Write (putUint64 ((len <<< 3) % 18446744073709551616))
  if d2.x.length != 0 then none
  else some (putUint32 d2.h.h0 ++ putUint32 d2.h.h1 ++ putUint32 d2.h.h2 ++
    putUint32 d2.h.h3 ++ putUint32 d2.h.h4)

/-- Go `sha1.Sum`: reset, write the data, check sum. -/
def Sum (data : List Nat) : Option (List Nat) :=
  (digest.Reset.Write data).checkSum

end sha1

/-! ## SHA-1 as the standard defines it -/

namespace sha1.fips

/-- Modelled from the standard (FIPS 180-4, 2.2.2): the circular left shift
`ROTL^n(x) = (x << n) or (x >> 32 - n)` of a 32-bit word. -/
def ROTL (n x : Nat) : Nat :=
  ((x <<< n) ||| (x >>> (32 - n))) % 4294967296

/-- Modelled from the standard (4.1.1): `Ch(x, y, z) = (x and y) xor (not x and
z)`. -/
def Ch (x y z : Nat) : Nat :=
  (x &&& y) ^^^ ((x ^^^ 0xFFFFFFFF) &&& z)

/-- Modelled from the standard (4.1.1): `Parity(x, y, z) = x xor y xor z`. -/
def Parity (x y z : Nat) : Nat :=
  x ^^^ y ^^^ z

/-- Modelled from the standard (4.1.1): `Maj(x, y, z) = (x and y) xor (x and z)
xor (y and z)`. -/
def Maj (x y z : Nat) : Nat :=
  (x &&& y) ^^^ (x &&& z) ^^^ (y &&& z)

/-- Modelled from the standard (4.1.1): the function `f_t`. -/
def f (t x y z : Nat) : Nat :=
  if t < 20 then Ch x y z else if t < 40 then Parity x y z
  else if t < 60 then Maj x y z else Parity x y z

/-- Modelled from the standard (4.2.1): the constant `K_t`. -/
def K (t : Nat) : Nat :=
  if t < 20 then 0x5a827999 else if t < 40 then 0x6ed9eba1
  else if t < 60 then 0x8f1bbcdc else 0xca62c1d6

/-- Modelled from the standard (5.1.1): the message followed by the bit 1, by
the least number of zero bits that brings the length to 448 mod 512, and by the
length of the message in bits as a 64-bit number.  In bytes: `0x80`, zero bytes
up to 56 mod 64, eight bytes of length. -/
def pad (m : List Nat) : List Nat :=
  m ++ 0x80 :: (List.replicate ((119 - m.length % 64) % 64) 0 ++
    sha1.putUint64 ((m.length * 8) % 18446744073709551616))

/-- Modelled from the standard (5.2.1): word `i` of a block, big-endian. -/
def word (block : List Nat) (i : Nat) : Nat :=
  (block.getD (4 * i) 0 <<< 24) ||| (block.getD (4 * i + 1) 0 <<< 16) |||
    (block.getD (4 * i + 2) 0 <<< 8) ||| block.getD (4 * i + 3) 0

/-- Modelled from the standard (6.1.2, step 1): the message schedule is
extended by `n` words, each `W_t = ROTL^1(W_(t-3) xor W_(t-8) xor W_(t-14) xor
W_(t-16))`. -/
def extend (W : List Nat) : Nat → List Nat
  | 0 => W
  | n + 1 =>
    extend (W ++ [ROTL 1 (W.getD (W.length - 3) 0 ^^^ W.getD (W.length - 8) 0 ^^^
      W.getD (W.length - 14) 0 ^^^ W.getD (W.length - 16) 0)]) n

/-- Modelled from the standard (6.1.2, step 1): the message schedule `W_0` to
`W_79` of a block. -/
def schedule (block : List Nat) : List Nat :=
  extend ((List.range 16).map (word block)) 64

/-- Modelled from the standard (6.1.2, step 3): round `t` on the working
variables `a, b, c, d, e`. -/
def step (W : List Nat) (v : sha1.Words) (t : Nat) : sha1.Words :=
  ⟨(ROTL 5 v.h0 + f t v.h1 v.h2 v.h3 + v.h4 + K t + W.getD t 0) % 4294967296,
    v.h0, ROTL 30 v.h1, v.h2, v.h3⟩

/-- Modelled from the standard (6.1.2): the hash value after one more block. -/
def compress (H : sha1.Words) (block : List Nat) : sha1.Words :=
  let v := (List.range 80).foldl (step (schedule block)) H
  ⟨(v.h0 + H.h0) % 4294967296, (v.h1 + H.h1) % 4294967296, (v.h2 + H.h2) % 4294967296,
    (v.h3 + H.h3) % 4294967296, (v.h4 + H.h4) % 4294967296⟩

/-- Modelled from the standard (6.1.2): the hash value after the first `n`
blocks of the padded message. -/
def blocks : Nat → sha1.Words → List Nat → sha1.Words
  | 0, H, _ => H
  | n + 1, H, M => blocks n (compress H (M.take 64)) (M.drop 64)

/-- Modelled from the standard (6.1): the SHA-1 message digest of a message of
bytes, as 20 bytes. -/
def hash (m : List Nat) : List Nat :=
  let H := blocks ((pad m).length / 64) ⟨0x67452301, 0xefcdab89, 0x98badcfe, 0x10325476,
    0xc3d2e1f0⟩ (pad m)
  sha1.putUint32 H.h0 ++ sha1.putUint32 H.h1 ++ sha1.putUint32 H.h2 ++ sha1.putUint32 H.h3 ++
    sha1.putUint32 H.h4

end sha1.fips

namespace sha1

/-- The digest `d` has folded the `k` whole blocks `S` into its words, as the
standard does, and holds less than a block in its buffer. -/
def absorbed (d : digest) (S : List Nat) (k : Nat) : Prop :=
  S.length = 64 * k ∧ d.h = fips.blocks k digest.Reset.h S ∧ d.x.length < 64

end sha1

/-! ## `unit/unit.go` -/

namespace unit

/-- Go `unit.RecognizedUnitType`: the loop over the seven types returns `true`
at the first type `t` for which `name` has the suffix `"." + t`. -/
def RecognizedUnitType (name : List Char) : Bool :=
  ["service", "socket", "timer", "path", "device", "mount", "automount"].any
    (fun t => strings.HasSuffix name ("." ++ t).toList)

/-- Go `unit.DefaultUnitType`: `fmt.Sprintf("%s.service", name)`. -/
def DefaultUnitType (name : List Char) : List Char :=
  name ++ ".service".toList

end unit

namespace unit

/-- The byte that a character of a Go string stands for. -/
def byte (c : Char) : Nat :=
  c.toNat % 256

/-- Go `unit.Unit`: the parsed unit file (section to option to values) and the
entire raw contents of the unit file. -/
structure Unit where
  Contents : List (List Char × List (List Char × List (List Char)))
  Raw : List Char
  deriving DecidableEq, Repr

/-- Go `(*Unit).Hash`: `Hash(sha1.Sum([]byte(u.Raw)))`, a `[20]byte`; `none` if
`sha1.Sum` panics. -/
def Unit.Hash (u : Unit) : Option (List Nat) :=
  sha1.Sum (u.Raw.map byte)

end unit

/-- The seven unit types that `RecognizedUnitType` accepts, in the order of the
Go slice literal. -/
def unit.recognizedTypes : List (List Char) :=
  ["service".toList, "socket".toList, "timer".toList, "path".toList, "device".toList,
   "mount".toList, "automount".toList]

/-! ## Collaborators of `registry/machine.go` -/

namespace machine

/-- Modelled from the spec: the type `machine.MachineState` is declared outside
the sources; the spec gives its attributes `id`, `public_ip`, `metadata`
(string to string) and `version`. -/
structure MachineState where
  ID : List Char
  PublicIP : List Char
  Metadata : List (List Char × List Char)
  Version : List Char
  deriving DecidableEq, Repr

/-- The Go zero value of `MachineState` (`var m machine.MachineState`). -/
def MachineState.zero : MachineState := ⟨[], [], [], []⟩

end machine

namespace event

/-- The payload of an event: a machine state for `EventMachineCreated`, a
machine id for `EventMachineRemoved` (Go `interface{}`). -/
inductive Payload where
  | machineState (m : machine.MachineState)
  | machineID (id : List Char)
  deriving DecidableEq, Repr

/-- Modelled from the spec: the type `event.Event` is declared outside the
sources; the spec gives it as `{ kind, payload, cause }`.  The filters build it
positionally as `event.Event{type, payload, nil}`; the field `Type` is written
`Type_` here. -/
structure Event where
  Type_ : List Char
  Payload : Payload
  Context : Option (List Char)
  deriving DecidableEq, Repr

end event

namespace etcd

/-- Modelled from the spec: the error types are declared outside the sources.
A Go `error` value as the registry sees it is a store error (`*etcd.EtcdError`)
with its error code, of which the spec names not-found, already-exists and
store-unavailable, or any other error (such as a codec error). -/
inductive Error where
  | etcdError (errorCode : Nat) (message : List Char)
  | other (message : List Char)
  deriving DecidableEq, Repr

/-- The etcd error code for a missing key (`EcodeKeyNotFound`). -/
def EcodeKeyNotFound : Nat := 100

/-- The etcd error code for a key that already exists (`EcodeNodeExist`). -/
def EcodeNodeExist : Nat := 105

/-- Modelled from the spec: the type `etcd.Node` is declared outside the
sources; the spec gives a node as `node{key,value,modifiedIndex,...}` in a node
tree.  The code reads `Key`, `Value`, `ModifiedIndex` and the children
`Nodes`. -/
inductive Node where
  | mk (Key : List Char) (Value : List Char) (ModifiedIndex : Nat) (Nodes : List Node)

/-- Field `Key` of a node. -/
def Node.Key : Node → List Char
  | .mk k _ _ _ => k

/-- Field `Value` of a node. -/
def Node.Value : Node → List Char
  | .mk _ v _ _ => v

/-- Field `ModifiedIndex` of a node. -/
def Node.ModifiedIndex : Node → Nat
  | .mk _ _ i _ => i

/-- Field `Nodes` of a node. -/
def Node.Nodes : Node → List Node
  | .mk _ _ _ ns => ns

/-- Modelled from the spec: the type `etcd.Response` is declared outside the
sources; the spec gives a notification as `{ action, node{...}, prevNode? }`.
The code reads `Action` and `Node`. -/
structure Response where
  Action : List Char
  Node : Node

/-- A request sent to the store. -/
inductive Call where
  | get (key : List Char) (sort recursive : Bool)
  | update (key value : List Char) (ttl : Nat)
  | create (key value : List Char) (ttl : Nat)
  | delete (key : List Char) (recursive : Bool)
  deriving DecidableEq, Repr

/-- The etcd client (`*etcd.Client`) as the registry uses it: `Get(key, sort,
recursive)`, `Update(key, value, ttl)`, `Create(key, value, ttl)` and
`Delete(key, recursive)`.  The store is outside the program: every request is a
function of the store's state `σ` that gives a response or an error and the
store's next state. -/
structure Client (σ : Type) where
  Get : σ → List Char → Bool → Bool → Except Error Response × σ
  Update : σ → List Char → List Char → Nat → Except Error Response × σ
  Create : σ → List Char → List Char → Nat → Except Error Response × σ
  Delete : σ → List Char → Bool → Except Error Response × σ

end etcd

namespace registry

open machine event etcd

/-- `machinePrefix = "machines"`. -/
def machinePrefix : List Char := "machines".toList

/-- Modelled from the spec: `isKeyNotFound` is declared outside the sources;
the spec names the error kind not-found, "store reports key absent".  A nil
error is not a not-found error. -/
def isKeyNotFound : Option Error → Bool
  | some (.etcdError code _) => code == EcodeKeyNotFound
  | _ => false

/-- The codec helpers `marshal` and `unmarshal` of the registry package, which
are declared outside the sources.  `marshal obj` gives the text and an error;
`unmarshal val m` gives the contents of `m` after the call and an error. -/
structure Codec where
  marshal : MachineState → List Char × Option Error
  unmarshal : List Char → MachineState → MachineState × Option Error

/-- The registry (`EtcdRegistry`): the etcd client and the key prefix. -/
structure EtcdRegistry (σ : Type) where
  etcd : Client σ
  keyPrefix : List Char

/-- The store and the requests the registry has sent to it, oldest first. -/
structure World (σ : Type) where
  store : σ
  trace : List Call

/-- `r.etcd.Get(key, sort, recursive)`, recorded in the trace. -/
def EtcdRegistry.Get {σ : Type} (r : EtcdRegistry σ) (w : World σ) (key : List Char)
    (sort recursive : Bool) : Except Error Response × World σ :=
  let res := r.etcd.Get w.store key sort recursive
  (res.1, ⟨res.2, w.trace ++ [Call.get key sort recursive]⟩)

/-- `r.etcd.Update(key, value, ttl)`, recorded in the trace. -/
def EtcdRegistry.Update {σ : Type} (r : EtcdRegistry σ) (w : World σ) (key value : List Char)
    (ttl : Nat) : Except Error Response × World σ :=
  let res := r.etcd.Update w.store key value ttl
  (res.1, ⟨res.2, w.trace ++ [Call.update key value ttl]⟩)

/-- `r.etcd.Create(key, value, ttl)`, recorded in the trace. -/
def EtcdRegistry.Create {σ : Type} (r : EtcdRegistry σ) (w : World σ) (key value : List Char)
    (ttl : Nat) : Except Error Response × World σ :=
  let res := r.etcd.Create w.store key value ttl
  (res.1, ⟨res.2, w.trace ++ [Call.create key value ttl]⟩)

/-- `r.etcd.Delete(key, recursive)`, recorded in the trace. -/
def EtcdRegistry.Delete {σ : Type} (r : EtcdRegistry σ) (w : World σ) (key : List Char)
    (recursive : Bool) : Except Error Response × World σ :=
  let res := r.etcd.Delete w.store key recursive
  (res.1, ⟨res.2, w.trace ++ [Call.delete key recursive]⟩)

/-- `uint64(ttl.Seconds())` for a `time.Duration` of `ttl` nanoseconds, as the
whole seconds in `ttl`, the fraction dropped.  Go computes `Seconds()` in
`float64` and converts the float: for `0 <= ttl < 2^24` seconds
(16777216000000000 ns) the float sum is below the next whole second and the
conversion gives exactly the whole seconds, as here.  From `2^24` seconds on the
float sum can round up to the next second, and the conversion of a negative
float to `uint64` depends on the platform, so outside that range the number
here need not be the one the code sends; the theorems of the claims that name
the TTL of a request keep `ttl` inside the range, the others leave the TTL of
the request open. -/
def ttlSeconds (ttl : Int) : Nat :=
  (Int.tdiv ttl 1000000000).toNat

/-! ## `registry/machine.go` -/

/-- Go `(*EtcdRegistry).GetMachineState`. -/
def GetMachineState {σ : Type} (cd : Codec) (r : EtcdRegistry σ) (w : World σ)
    (machID : List Char) : (Option MachineState × Option Error) × World σ :=
  let key := path.Join [r.keyPrefix, machinePrefix, machID, "object".toList]
  let res := r.Get w key false true
  match res.1 with
  | .error err =>
    if isKeyNotFound (some err) then ((none, none), res.2) else ((none, some err), res.2)
  | .ok resp =>
    let dec := cd.unmarshal resp.Node.Value MachineState.zero
    match dec.2 with
    | some err => ((none, some err), res.2)
    | none => ((some dec.1, none), res.2)

/-- The loop `for _, kv := range resp.Node.Nodes` of `GetActiveMachines`. -/
def GetActiveMachines.loop {σ : Type} (cd : Codec) (r : EtcdRegistry σ) :
    List Node → List MachineState → World σ → List MachineState × World σ
  | [], machines, w => (machines, w)
  | kv :: rest, machines, w =>
    let machID := (path.Split kv.Key).2
    let res := GetMachineState cd r w machID
    match res.1.1 with
    | some mach => GetActiveMachines.loop cd r rest (machines ++ [mach]) res.2
    | none => GetActiveMachines.loop cd r rest machines res.2

/-- Go `(*EtcdRegistry).GetActiveMachines`. -/
def GetActiveMachines {σ : Type} (cd : Codec) (r : EtcdRegistry σ) (w : World σ) :
    (List MachineState × Option Error) × World σ :=
  let key := path.Join [r.keyPrefix, machinePrefix]
  let res := r.Get w key false true
  match res.1 with
  | .error err =>
    if isKeyNotFound (some err) then (([], none), res.2) else (([], some err), res.2)
  | .ok resp =>
    let out := GetActiveMachines.loop cd r resp.Node.Nodes [] res.2
    ((out.1, none), out.2)

/-- Go `(*EtcdRegistry).SetMachineState`; `ttl` is the `time.Duration` in
nanoseconds. -/
def SetMachineState {σ : Type} (cd : Codec) (r : EtcdRegistry σ) (w : World σ)
    (ms : MachineState) (ttl : Int) : (Nat × Option Error) × World σ :=
  let enc := cd.marshal ms
  match enc.2 with
  | some err => ((0, some err), w)
  | none =>
    let json := enc.1
    let key := path.Join [r.keyPrefix, machinePrefix, ms.ID, "object".toList]
    -- Assume state is already present, returning on success
    let upd := r.Update w key json (ttlSeconds ttl)
    match upd.1 with
    | .ok resp => ((resp.Node.ModifiedIndex, none), upd.2)
    | .error _ =>
      -- If state was not present, explicitly create it
      let cre := r.Create upd.2 key json (ttlSeconds ttl)
      match cre.1 with
      | .error err => ((0, some err), cre.2)
      | .ok resp => ((resp.Node.ModifiedIndex, none), cre.2)

/-- Go `(*EtcdRegistry).RemoveMachineState`. -/
def RemoveMachineState {σ : Type} (r : EtcdRegistry σ) (w : World σ) (machID : List Char) :
    Option Error × World σ :=
  let key := path.Join [r.keyPrefix, machinePrefix, machID, "object".toList]
  let res := r.Delete w key false
  match res.1 with
  | .error err => if isKeyNotFound (some err) then (none, res.2) else (some err, res.2)
  | .ok _ => (none, res.2)

/-- Go `filterEventMachineCreated`. -/
def filterEventMachineCreated (cd : Codec) (resp : Response) : Option Event :=
  let split := path.Split resp.Node.Key
  let dir := split.1
  let baseName := split.2
  if baseName != "object".toList then none else
  let dir := strings.TrimSuffix dir ['/']
  let dir := path.Dir dir
  let prefixName := path.Base dir
  if prefixName != machinePrefix then none else
  if resp.Action != "create".toList then none else
  let m := (cd.unmarshal resp.Node.Value MachineState.zero).1
  some ⟨"EventMachineCreated".toList, Payload.machineState m, none⟩

/-- Go `filterEventMachineRemoved`. -/
def filterEventMachineRemoved (resp : Response) : Option Event :=
  let split := path.Split resp.Node.Key
  let dir := split.1
  let baseName := split.2
  if baseName != "object".toList then none else
  let dir := strings.TrimSuffix dir ['/']
  let dir := path.Dir dir
  let prefixName := path.Base dir
  if prefixName != machinePrefix then none else
  if resp.Action != "expire".toList && resp.Action != "delete".toList then none else
  let machID := path.Base (path.Dir resp.Node.Key)
  some ⟨"EventMachineRemoved".toList, Payload.machineID machID, none⟩

end registry

/-! ## Vocabulary for the statements -/

namespace path

/-- A path segment as a clean path has it: not empty, without `/`, and neither
`.` nor `..`. -/
def isSegment (s : List Char) : Bool :=
  s != [] && !s.contains '/' && s != ['.'] && s != ['.', '.']

/-- The segments joined by single slashes. -/
def joinSegments : List (List Char) → List Char
  | [] => []
  | [s] => s
  | s :: t :: ts => s ++ '/' :: joinSegments (t :: ts)

/-- The clean slash-separated path with the given segments, with a leading
slash when `rooted`. -/
def cleanPath (rooted : Bool) (segs : List (List Char)) : List Char :=
  (if rooted then ['/'] else []) ++ joinSegments segs

end path

namespace path

/-- A string that is empty or ends in a slash: what stands in a path before the
start of an element. -/
def closed (d : List Char) : Prop :=
  d = [] ∨ ∃ p, d = p ++ ['/']

/-- The invariant of the loop of `Clean` on a rooted path: the output keeps its
leading slash, and `..` never backs up over it. -/
def cleanInv (rooted : Bool) (out : List Char) (dotdot : Nat) : Prop :=
  rooted = true → out.head? = some '/' ∧ 1 ≤ dotdot

end path

namespace path

/-- The part of a clean path that stands before the segments after `pre`: the
path of `pre` and a slash, or only the root when `pre` is empty. -/
def dirPrefix (rooted : Bool) (pre : List (List Char)) : List Char :=
  if pre.isEmpty then (if rooted then ['/'] else []) else cleanPath rooted pre ++ ['/']

end path

namespace registry

/-- The value both filters give their local `prefixName` for a key: the base
name of the directory two levels above the leaf. -/
def prefixName (key : List Char) : List Char :=
  path.Base (path.Dir (strings.TrimSuffix (path.Split key).1 ['/']))

end registry

namespace registry

open machine etcd

/-- The text of `lineCodec` for a machine state: id, public IP and version,
separated by commas. -/
def lineCodec.encode (ms : MachineState) : List Char :=
  ms.ID ++ ',' :: (ms.PublicIP ++ ',' :: ms.Version)

/-- The decoder of `lineCodec`: three comma-separated fields, or an error that
leaves the target as it was. -/
def lineCodec.decode (val : List Char) (m : MachineState) : MachineState × Option Error :=
  let f1 := val.takeWhile (fun c => c != ',')
  match val.dropWhile (fun c => c != ',') with
  | [] => (m, some (Error.other "Unable to JSON-deserialize object".toList))
  | _ :: r1 =>
    let f2 := r1.takeWhile (fun c => c != ',')
    match r1.dropWhile (fun c => c != ',') with
    | [] => (m, some (Error.other "Unable to JSON-deserialize object".toList))
    | _ :: r2 => (⟨f1, f2, [], r2⟩, none)

/-- A small codec for worked examples, standing in for the JSON codec of the
registry package: it writes the id, public IP and version on one line. -/
def lineCodec : Codec where
  marshal := fun ms => (lineCodec.encode ms, none)
  unmarshal := lineCodec.decode

end registry

/-! ## The store: what the claims assume of it, and a store to run examples on -/

namespace etcd

/-- The key under which the store files a request: store keys are rooted, a key
sent without the leading slash names the same node. -/
def nodeKey (key : List Char) : List Char :=
  if key.head? == some '/' then key else '/' :: key

/-- What the claims that speak of a lawful store assume of its writes.
`present s key` says that the store in state `s` holds `key`, `index s` is the
last modified index the store has given out.  A successful write answers with
the node written and a strictly larger modified index; `Update` of an absent key
fails with not-found and leaves it absent; `Create` of an absent key
succeeds. -/
structure Lawful {σ : Type} (c : Client σ) (present : σ → List Char → Bool)
    (index : σ → Nat) : Prop where
  update_present : ∀ (s : σ) (key value : List Char) (ttl : Nat), present s key = true →
    ∃ n s1, c.Update s key value ttl = (.ok ⟨"update".toList, n⟩, s1) ∧
      n.Key = nodeKey key ∧ n.Value = value ∧ index s < n.ModifiedIndex ∧
      index s1 = n.ModifiedIndex ∧ present s1 key = true
  update_absent : ∀ (s : σ) (key value : List Char) (ttl : Nat), present s key = false →
    ∃ msg s1, c.Update s key value ttl = (.error (.etcdError EcodeKeyNotFound msg), s1) ∧
      present s1 key = false ∧ index s ≤ index s1
  create_absent : ∀ (s : σ) (key value : List Char) (ttl : Nat), present s key = false →
    ∃ n s1, c.Create s key value ttl = (.ok ⟨"create".toList, n⟩, s1) ∧
      n.Key = nodeKey key ∧ n.Value = value ∧ index s < n.ModifiedIndex ∧
      index s1 = n.ModifiedIndex ∧ present s1 key = true

/-- A store in memory for worked examples: the last modified index given out
and the leaves as key, value and modified index.  Leases are not modelled. -/
structure MemStore where
  index : Nat
  leaves : List (List Char × List Char × Nat)
  deriving DecidableEq, Repr

/-- The leaf the store holds under a request key. -/
def MemStore.lookup (s : MemStore) (key : List Char) : Option (List Char × List Char × Nat) :=
  s.leaves.find? (fun e => e.1 == nodeKey key)

/-- The names of the children of directory `dir`: for every leaf below
`dir ++ "/"` the first segment after it, each name once, in the order of the
leaves. -/
def MemStore.children (s : MemStore) (dir : List Char) : List (List Char) :=
  (s.leaves.filterMap (fun e =>
    if (dir ++ ['/']).isPrefixOf e.1 then
      some ((e.1.drop (dir.length + 1)).takeWhile (fun c => c != '/'))
    else none)).eraseDups

/-- The in-memory store as an etcd client. -/
def memClient : Client MemStore where
  Get := fun s key _ _ =>
    match s.lookup key with
    | some e => (.ok ⟨"get".toList, Node.mk e.1 e.2.1 e.2.2 []⟩, s)
    | none =>
      match s.children (nodeKey key) with
      | [] => (.error (.etcdError EcodeKeyNotFound "Key not found".toList), s)
      | kids =>
        (.ok ⟨"get".toList, Node.mk (nodeKey key) [] 0
          (kids.map (fun id => Node.mk (nodeKey key ++ '/' :: id) [] 0 []))⟩, s)
  Update := fun s key value _ =>
    match s.lookup key with
    | none => (.error (.etcdError EcodeKeyNotFound "Key not found".toList), s)
    | some _ =>
      (.ok ⟨"update".toList, Node.mk (nodeKey key) value (s.index + 1) []⟩,
        ⟨s.index + 1, s.leaves.map (fun e =>
          if e.1 == nodeKey key then (e.1, value, s.index + 1) else e)⟩)
  Create := fun s key value _ =>
    match s.lookup key with
    | some _ => (.error (.etcdError EcodeNodeExist "Key already exists".toList), s)
    | none =>
      (.ok ⟨"create".toList, Node.mk (nodeKey key) value (s.index + 1) []⟩,
        ⟨s.index + 1, s.leaves ++ [(nodeKey key, value, s.index + 1)]⟩)
  Delete := fun s key _ =>
    match s.lookup key with
    | none => (.error (.etcdError EcodeKeyNotFound "Key not found".toList), s)
    | some _ =>
      (.ok ⟨"delete".toList, Node.mk (nodeKey key) [] (s.index + 1) []⟩,
        ⟨s.index + 1, s.leaves.filter (fun e => e.1 != nodeKey key)⟩)

/-- The error of a request that does not reach the store. -/
def unreachable : Error :=
  .etcdError 501 "All the given peers are not reachable".toList

/-- One request to a store that may be out of reach: the first component of
the state lists, for the requests to come, whether each fails to reach the
store. -/
def faulty {α : Type} (op : MemStore → Except Error α × MemStore)
    (s : List Bool × MemStore) : Except Error α × (List Bool × MemStore) :=
  match s.1 with
  | true :: rest => (.error unreachable, (rest, s.2))
  | false :: rest => ((op s.2).1, (rest, (op s.2).2))
  | [] => ((op s.2).1, ([], (op s.2).2))

/-- The in-memory store behind a connection that fails as scripted. -/
def faultyClient : Client (List Bool × MemStore) where
  Get := fun s key sort recursive => faulty (fun m => memClient.Get m key sort recursive) s
  Update := fun s key value ttl => faulty (fun m => memClient.Update m key value ttl) s
  Create := fun s key value ttl => faulty (fun m => memClient.Create m key value ttl) s
  Delete := fun s key recursive => faulty (fun m => memClient.Delete m key recursive) s

end etcd

/-! ## Worked examples -/

namespace registry

open machine etcd

/-- A registry over the in-memory store, with key prefix `/fleet`. -/
def fleetRegistry : EtcdRegistry MemStore := ⟨memClient, "/fleet".toList⟩

/-- Machine `m1` of the examples. -/
def machineM1 : MachineState := ⟨"m1".toList, "10.0.0.1".toList, [], "1.0".toList⟩

/-- A machine state whose id is empty. -/
def machineNoID : MachineState := ⟨[], "10.0.0.1".toList, [], "1.0".toList⟩

/-- The empty store. -/
def emptyStore : MemStore := ⟨0, []⟩

/-- A store that holds the record of `m1`, written at index 1. -/
def storeM1 : MemStore :=
  ⟨1, [("/fleet/machines/m1/object".toList, "m1,10.0.0.1,1.0".toList, 1)]⟩

/-- The registry over the in-memory store behind a connection that can fail. -/
def faultyRegistry : EtcdRegistry (List Bool × MemStore) := ⟨faultyClient, "/fleet".toList⟩

end registry

namespace path

/-- The last segment of a path: what stands after its last slash. -/
def lastSegment (p : List Char) : List Char :=
  (p.reverse.takeWhile (fun c => c != '/')).reverse

end path

namespace registry

open machine etcd

/-- The machine state that the object leaf of machine `machID` holds in store
state `s`: the decoded value of the node at `<prefix>/machines/<machID>/object`
when the store has that node and its value decodes, nothing otherwise. -/
def decodedLeaf {σ : Type} (cd : Codec) (r : EtcdRegistry σ) (s : σ) (machID : List Char) :
    Option MachineState :=
  match (r.etcd.Get s (path.Join [r.keyPrefix, "machines".toList, machID, "object".toList])
      false true).1 with
  | .error _ => none
  | .ok resp =>
    match cd.unmarshal resp.Node.Value MachineState.zero with
    | (m, none) => some m
    | (_, some _) => none

/-- A store with four children below `/fleet/machines`: `m1` and `m3` with
well-formed records, `m2` with a record that does not decode, and `m4` without
an object leaf. -/
def storeFour : MemStore :=
  ⟨5, [("/fleet/machines/m1/object".toList, "m1,10.0.0.1,1.0".toList, 1),
    ("/fleet/machines/m2/object".toList, "garbage".toList, 2),
    ("/fleet/machines/m3/object".toList, "m3,10.0.0.3,1.0".toList, 3),
    ("/fleet/machines/m4/lock".toList, "x".toList, 5)]⟩

end registry

namespace registry

/-- Machine `m3` of the examples. -/
def machineM3 : machine.MachineState := ⟨"m3".toList, "10.0.0.3".toList, [], "1.0".toList⟩

end registry

namespace etcd

/-- What the claims on `RemoveMachineState` assume of the store's deletes:
`Delete` of a key the store holds succeeds and removes it, `Delete` of a key the
store does not hold fails with not-found and leaves it absent. -/
structure LawfulDelete {σ : Type} (c : Client σ) (present : σ → List Char → Bool) : Prop where
  delete_present : ∀ (s : σ) (key : List Char) (recursive : Bool), present s key = true →
    ∃ resp s1, c.Delete s key recursive = (.ok resp, s1) ∧ present s1 key = false
  delete_absent : ∀ (s : σ) (key : List Char) (recursive : Bool), present s key = false →
    ∃ msg s1, c.Delete s key recursive = (.error (.etcdError EcodeKeyNotFound msg), s1) ∧
      present s1 key = false

end etcd

namespace etcd

/-- The key that a request to the store names. -/
def Call.key : Call → List Char
  | .get key _ _ => key
  | .update key _ _ => key
  | .create key _ _ => key
  | .delete key _ => key

end etcd

namespace registry

/-- A machine state whose id climbs out of the machines directory. -/
def machineDotDot : machine.MachineState :=
  ⟨"../../etc".toList, "10.0.0.1".toList, [], "1.0".toList⟩

end registry

namespace etcd

/-- What the round trip of publish and lookup assumes of the store: a read of a
key right after a successful write of it succeeds and returns the value
written. -/
structure ReadsOwnWrites {σ : Type} (c : Client σ) : Prop where
  update_then_get : ∀ (s s1 : σ) (key value : List Char) (ttl : Nat) (resp : Response),
    c.Update s key value ttl = (.ok resp, s1) →
    ∃ g s2, c.Get s1 key false true = (.ok g, s2) ∧ g.Node.Value = value
  create_then_get : ∀ (s s1 : σ) (key value : List Char) (ttl : Nat) (resp : Response),
    c.Create s key value ttl = (.ok resp, s1) →
    ∃ g s2, c.Get s1 key false true = (.ok g, s2) ∧ g.Node.Value = value

end etcd

namespace etcd

/-- What the claim on refreshing a record assumes of the store.  `present s key`
says that the store in state `s` holds `key`, `index s` is the last modified
index the store has given out.  Every successful write answers with a modified
index strictly larger than any given out before, which becomes the last index
given out, and leaves the key it wrote present; the `Update` of a present key
succeeds. -/
structure Refreshes {σ : Type} (c : Client σ) (present : σ → List Char → Bool)
    (index : σ → Nat) : Prop where
  update_ok : ∀ (s s1 : σ) (key value : List Char) (ttl : Nat) (resp : Response),
    c.Update s key value ttl = (.ok resp, s1) →
    index s < resp.Node.ModifiedIndex ∧ index s1 = resp.Node.ModifiedIndex ∧
      present s1 key = true
  create_ok : ∀ (s s1 : σ) (key value : List Char) (ttl : Nat) (resp : Response),
    c.Create s key value ttl = (.ok resp, s1) →
    index s < resp.Node.ModifiedIndex ∧ index s1 = resp.Node.ModifiedIndex ∧
      present s1 key = true
  update_present : ∀ (s : σ) (key value : List Char) (ttl : Nat), present s key = true →
    ∃ resp s1, c.Update s key value ttl = (.ok resp, s1)

/-- What the claim on creating a record assumes of the store: the `Update` of a
key the store does not hold fails and leaves the key absent, and the `Create`
of a key the store does not hold succeeds and is notified as a `create` whose
node carries the key, rooted, and the value written. -/
structure CreatesAbsent {σ : Type} (c : Client σ) (present : σ → List Char → Bool) :
    Prop where
  update_absent : ∀ (s : σ) (key value : List Char) (ttl : Nat), present s key = false →
    ∃ e s1, c.Update s key value ttl = (.error e, s1) ∧ present s1 key = false
  create_absent : ∀ (s : σ) (key value : List Char) (ttl : Nat), present s key = false →
    ∃ n s1, c.Create s key value ttl = (.ok ⟨"create".toList, n⟩, s1) ∧
      n.Key = nodeKey key ∧ n.Value = value

/-- What mutual exclusion of locks assumes of the store: `Create` is atomic.  It
succeeds only for a key the store does not hold, after which the store holds the
key, and a `Create` that fails leaves the key held or not held as it was.
Nothing deletes the key and no lease runs out between the requests. -/
structure AtomicCreate {σ : Type} (c : Client σ) (present : σ → List Char → Bool) :
    Prop where
  create_ok : ∀ (s s1 : σ) (key value : List Char) (ttl : Nat) (resp : Response),
    c.Create s key value ttl = (.ok resp, s1) →
    present s key = false ∧ present s1 key = true
  create_error : ∀ (s s1 : σ) (key value : List Char) (ttl : Nat) (e : Error),
    c.Create s key value ttl = (.error e, s1) → present s1 key = present s key

end etcd

/-! ## Locks -/

namespace registry

open etcd

/-- Modelled from the spec: the type `TimedResourceMutex` is declared outside the
sources.  The spec gives a timed resource mutex its `kind`, `resource_id`,
`holder_context`, `lease_expires_at` and `modified_index`; the lease is kept as
the fixed number of seconds asked of the store, there being no clock. -/
structure TimedResourceMutex where
  kind : List Char
  resourceID : List Char
  holderContext : List Char
  lease : Nat
  modifiedIndex : Nat
  deriving DecidableEq, Repr

/-- Modelled from the spec: `lockResource` is declared outside the sources.  The
spec has `lock(kind, id, context) -> handle | none`, which "attempts to create
`<prefix>/locks/<kind>/<id>` with `context` as value and a fixed lease" and
"returns a handle on success; `none` on already-exists (do not block)".  The
fixed lease is the parameter `lease`; the call is one `Create`, and as its
result is a handle or none, a `Create` that fails for any reason gives none.
`nil` is `none`. -/
def lockResource {σ : Type} (lease : Nat) (r : EtcdRegistry σ) (w : World σ)
    (kind id context : List Char) : Option TimedResourceMutex × World σ :=
  let key := path.Join [r.keyPrefix, "locks".toList, kind, id]
  let res := r.Create w key context lease
  match res.1 with
  | .ok resp => (some ⟨kind, id, context, lease, resp.Node.ModifiedIndex⟩, res.2)
  | .error _ => (none, res.2)

/-- Go `(*EtcdRegistry).LockMachine`. -/
def LockMachine {σ : Type} (lease : Nat) (r : EtcdRegistry σ) (w : World σ)
    (machID context : List Char) : Option TimedResourceMutex × World σ :=
  lockResource lease r w "machine".toList machID context

/-- The calls `LockMachine machID context` for the contexts of a list, in the
order in which the store serves them: what each call returns, and the world
after the last. -/
def LockMachine.each {σ : Type} (lease : Nat) (r : EtcdRegistry σ) (machID : List Char) :
    List (List Char) → World σ → List (Option TimedResourceMutex) × World σ
  | [], w => ([], w)
  | context :: rest, w =>
    let res := LockMachine lease r w machID context
    let out := LockMachine.each lease r machID rest res.2
    (res.1 :: out.1, out.2)

end registry

/-! # Theorems -/

/-! ## Package `strings` -/

theorem strings.HasSuffix_iff (s suffix : List Char) :
    strings.HasSuffix s suffix = true ↔ ∃ pre, s = pre ++ suffix := by
  unfold strings.HasSuffix
  constructor
  · intro h
    simp only [Bool.and_eq_true, decide_eq_true_eq, beq_iff_eq] at h
    refine ⟨s.take (s.length - suffix.length), ?_⟩
    conv_lhs => rw [← List.take_append_drop (s.length - suffix.length) s]
    rw [h.2]
  · rintro ⟨pre, rfl⟩
    simp

theorem strings.TrimSuffix_append (a suffix : List Char) :
    strings.TrimSuffix (a ++ suffix) suffix = a := by
  unfold strings.TrimSuffix
  rw [if_pos ((strings.HasSuffix_iff _ _).2 ⟨a, rfl⟩)]
  simp

theorem strings.LastIndexByte_not_mem (s : List Char) (c : Char) (h : c ∉ s) :
    strings.LastIndexByte s c = -1 := by
  induction s with
  | nil => simp [strings.LastIndexByte]
  | cons x xs ih =>
    simp only [List.mem_cons, not_or] at h
    simp only [strings.LastIndexByte, ih h.2]
    have : (x == c) = false := by
      simp only [beq_eq_false_iff_ne, ne_eq]
      exact fun e => h.1 e.symm
    simp [this]

theorem strings.LastIndexByte_append (a s : List Char) (c : Char) (h : c ∉ s) :
    strings.LastIndexByte (a ++ c :: s) c = a.length := by
  induction a with
  | nil =>
    simp [strings.LastIndexByte, strings.LastIndexByte_not_mem s c h]
  | cons x xs ih =>
    have : (0 : Int) ≤ (xs.length : Int) := Int.natCast_nonneg _
    show (if strings.LastIndexByte (xs ++ c :: s) c ≥ 0 then
        strings.LastIndexByte (xs ++ c :: s) c + 1
      else if (x == c) = true then 0 else -1) = ((xs.length + 1 : Nat) : Int)
    rw [ih, if_pos this]
    push_cast
    rfl

/-! ## Package `crypto/sha1` -/

theorem sha1.fill_length (d : sha1.digest) (p : List Nat) (hx : d.x.length < 64) :
    (d.fill p).2.1.length < 64 ∧
      ((d.fill p).2.1.length + (d.fill p).2.2.length) % 64 = (d.x.length + p.length) % 64 ∧
      (0 < (d.fill p).2.2.length → (d.fill p).2.1.length = 0) := by
  unfold sha1.digest.fill sha1.chunk
  by_cases h0 : d.x.length > 0
  · simp only [h0, if_true]
    by_cases hfull : ((d.x ++ p.take (min (64 - d.x.length) p.length)).length == 64) = true
    · simp only [hfull, if_true]
      simp only [beq_iff_eq, List.length_append, List.length_take] at hfull
      simp only [List.length_nil, List.length_drop]
      exact ⟨by omega, by omega, fun _ => trivial⟩
    · simp only [hfull, Bool.false_eq_true, if_false]
      simp only [beq_iff_eq, List.length_append, List.length_take] at hfull
      simp only [List.length_drop, List.length_append, List.length_take]
      exact ⟨by omega, by omega, by omega⟩
  · simp only [h0, if_false]
    exact ⟨hx, trivial, fun _ => by omega⟩

/-- After `Write` the buffer holds the bytes written so far that do not fill a
chunk. -/
theorem sha1.Write_length (d : sha1.digest) (p : List Nat) (hx : d.x.length < 64) :
    (d.Write p).x.length = (d.x.length + p.length) % 64 := by
  obtain ⟨h1, h2, h3⟩ := sha1.fill_length d p hx
  unfold sha1.digest.Write sha1.chunk
  simp only
  by_cases hge : (d.fill p).2.2.length ≥ 64
  · simp only [hge, if_true, List.length_drop]
    have hz := h3 (by omega)
    split_ifs with hpos
    · simp only [List.length_drop]; omega
    · omega
  · simp only [hge, if_false]
    split_ifs with hpos
    · have hz := h3 hpos
      omega
    · omega

theorem sha1.Write_len (d : sha1.digest) (p : List Nat) :
    (d.Write p).len = (d.len + p.length) % 18446744073709551616 := rfl

theorem sha1.putUint32_length (v : Nat) : (sha1.putUint32 v).length = 4 := rfl

theorem sha1.putUint32_byte (v b : Nat) (h : b ∈ sha1.putUint32 v) : b < 256 := by
  simp only [sha1.putUint32, List.mem_cons, List.mem_singleton, List.not_mem_nil, or_false] at h
  rcases h with rfl | rfl | rfl | rfl <;> exact Nat.mod_lt _ (by decide)

/-- `sha1.Sum` never reaches the panic of `checkSum`: it returns the five words
of the digest as 20 bytes. -/
theorem sha1.Sum_eq (data : List Nat) :
    ∃ h : sha1.Words, sha1.Sum data =
      some (sha1.putUint32 h.h0 ++ sha1.putUint32 h.h1 ++ sha1.putUint32 h.h2 ++
        sha1.putUint32 h.h3 ++ sha1.putUint32 h.h4) := by
  have hx0 : (sha1.digest.Reset.Write data).x.length = data.length % 64 := by
    rw [sha1.Write_length _ _ (by decide)]
    simp [sha1.digest.Reset]
  have hl0 : (sha1.digest.Reset.Write data).len = data.length % 18446744073709551616 := by
    rw [sha1.Write_len]
    simp [sha1.digest.Reset]
  have hlt : (sha1.digest.Reset.Write data).x.length < 64 := by
    rw [hx0]; exact Nat.mod_lt _ (by decide)
  unfold sha1.Sum sha1.digest.checkSum
  simp only
  by_cases hpad : (sha1.digest.Reset.Write data).len % 64 < 56
  · simp only [hpad, if_true]
    have h1 : ((sha1.digest.Reset.Write data).Write
        ((0x80 :: List.replicate 71 0).take
          (56 - (sha1.digest.Reset.Write data).len % 64))).x.length = 56 := by
      rw [sha1.Write_length _ _ hlt, hx0]
      simp only [List.length_take, List.length_cons, List.length_replicate]
      rw [hl0] at hpad ⊢
      omega
    have h2 := sha1.Write_length
      ((sha1.digest.Reset.Write data).Write ((0x80 :: List.replicate 71 0).take
        (56 - (sha1.digest.Reset.Write data).len % 64)))
      (sha1.putUint64 (((sha1.digest.Reset.Write data).len <<< 3) % 18446744073709551616))
      (by rw [h1]; decide)
    rw [h1] at h2
    have h3 : (sha1.putUint64
        (((sha1.digest.Reset.Write data).len <<< 3) % 18446744073709551616)).length = 8 := rfl
    rw [h3] at h2
    have h4 : (56 + 8) % 64 = 0 := by decide
    rw [h4] at h2
    simp only [h2, bne_self_eq_false, Bool.false_eq_true, if_false]
    exact ⟨_, rfl⟩
  · simp only [hpad, if_false]
    have h1 : ((sha1.digest.Reset.Write data).Write
        ((0x80 :: List.replicate 71 0).take
          (64 + 56 - (sha1.digest.Reset.Write data).len % 64))).x.length = 56 := by
      rw [sha1.Write_length _ _ hlt, hx0]
      simp only [List.length_take, List.length_cons, List.length_replicate]
      rw [hl0] at hpad ⊢
      omega
    have h2 := sha1.Write_length
      ((sha1.digest.Reset.Write data).Write ((0x80 :: List.replicate 71 0).take
        (64 + 56 - (sha1.digest.Reset.Write data).len % 64)))
      (sha1.putUint64 (((sha1.digest.Reset.Write data).len <<< 3) % 18446744073709551616))
      (by rw [h1]; decide)
    rw [h1] at h2
    have h3 : (sha1.putUint64
        (((sha1.digest.Reset.Write data).len <<< 3) % 18446744073709551616)).length = 8 := rfl
    rw [h3] at h2
    have h4 : (56 + 8) % 64 = 0 := by decide
    rw [h4] at h2
    simp only [h2, bne_self_eq_false, Bool.false_eq_true, if_false]
    exact ⟨_, rfl⟩

set_option maxRecDepth 1000000 in
/-- The digest of `abc`, the first example of the SHA-1 standard:
`a9993e36 4706816a ba3e2571 7850c26c 9cd0d89d`. -/
theorem sha1.Sum_abc :
    sha1.Sum [0x61, 0x62, 0x63] =
      some [0xa9, 0x99, 0x3e, 0x36, 0x47, 0x06, 0x81, 0x6a, 0xba, 0x3e, 0x25, 0x71, 0x78, 0x50,
        0xc2, 0x6c, 0x9c, 0xd0, 0xd8, 0x9d] := by
  decide

/-- The bound on the iterations of the loop of `blockGeneric` is never reached:
any two bounds of at least the length of the input give the same result. -/
theorem sha1.blockLoop_fuel :
    ∀ (f1 f2 : Nat) (h : sha1.Words) (p : List Nat), p.length ≤ f1 → p.length ≤ f2 →
      sha1.blockLoop f1 h p = sha1.blockLoop f2 h p := by
  intro f1
  induction f1 with
  | zero =>
    intro f2 h p h1 _
    have : p = [] := List.length_eq_zero.1 (Nat.le_zero.1 h1)
    subst this
    cases f2 <;> rfl
  | succ f1 ih =>
    intro f2 h p h1 h2
    cases f2 with
    | zero =>
      have : p = [] := List.length_eq_zero.1 (Nat.le_zero.1 h2)
      subst this
      rfl
    | succ f2 =>
      simp only [sha1.blockLoop, sha1.chunk]
      split_ifs with hge
      · exact ih f2 _ _ (by simp only [List.length_drop]; omega)
          (by simp only [List.length_drop]; omega)
      · rfl

/-! ## The Go code of SHA-1 and the standard -/

theorem sha1.getD_set_eq (w : List Nat) (i v : Nat) (h : i < w.length) :
    (w.set i v).getD i 0 = v := by
  simp [List.getD_eq_getElem?_getD, List.getElem?_set, h]

theorem sha1.getD_set_ne (w : List Nat) (i j v : Nat) (h : i ≠ j) :
    (w.set i v).getD j 0 = w.getD j 0 := by
  simp [List.getD_eq_getElem?_getD, List.getElem?_set, h]

theorem sha1.fips.extend_length (W : List Nat) (n : Nat) :
    (sha1.fips.extend W n).length = W.length + n := by
  induction n generalizing W with
  | zero => rfl
  | succ n ih =>
    simp only [sha1.fips.extend]
    rw [ih]
    simp only [List.length_append, List.length_singleton]
    omega

theorem sha1.fips.extend_getD_lt (W : List Nat) (n j : Nat) (h : j < W.length) :
    (sha1.fips.extend W n).getD j 0 = W.getD j 0 := by
  induction n generalizing W with
  | zero => rfl
  | succ n ih =>
    simp only [sha1.fips.extend]
    rw [ih _ (by simp only [List.length_append, List.length_singleton]; omega)]
    exact List.getD_append _ _ _ _ h

/-- Every word of the extended schedule past the first ones is made from the
four earlier words that the standard names. -/
theorem sha1.fips.extend_getD_ge (W : List Nat) (n t : Nat) (hW : 16 ≤ W.length)
    (h1 : W.length ≤ t) (h2 : t < W.length + n) :
    (sha1.fips.extend W n).getD t 0 =
      sha1.fips.ROTL 1 ((sha1.fips.extend W n).getD (t - 3) 0 ^^^
        (sha1.fips.extend W n).getD (t - 8) 0 ^^^ (sha1.fips.extend W n).getD (t - 14) 0 ^^^
        (sha1.fips.extend W n).getD (t - 16) 0) := by
  induction n generalizing W with
  | zero => omega
  | succ n ih =>
    by_cases ht : t = W.length
    · have hl : (W ++ [sha1.fips.ROTL 1 (W.getD (W.length - 3) 0 ^^^ W.getD (W.length - 8) 0 ^^^
          W.getD (W.length - 14) 0 ^^^ W.getD (W.length - 16) 0)]).length = W.length + 1 := by
        simp
      have hpre : ∀ j, j < W.length →
          (sha1.fips.extend W (n + 1)).getD j 0 = W.getD j 0 :=
        fun j hj => sha1.fips.extend_getD_lt W (n + 1) j hj
      rw [hpre (t - 3) (by omega), hpre (t - 8) (by omega), hpre (t - 14) (by omega),
        hpre (t - 16) (by omega)]
      have hnew : (sha1.fips.extend W (n + 1)).getD t 0 =
          sha1.fips.ROTL 1 (W.getD (W.length - 3) 0 ^^^ W.getD (W.length - 8) 0 ^^^
            W.getD (W.length - 14) 0 ^^^ W.getD (W.length - 16) 0) := by
        show (sha1.fips.extend (W ++ [sha1.fips.ROTL 1 (W.getD (W.length - 3) 0 ^^^
          W.getD (W.length - 8) 0 ^^^ W.getD (W.length - 14) 0 ^^^
          W.getD (W.length - 16) 0)]) n).getD t 0 = _
        rw [sha1.fips.extend_getD_lt _ n t (by rw [hl]; omega), ht,
          List.getD_append_right _ _ _ _ (le_refl _)]
        simp
      rw [hnew, ht]
    · simp only [sha1.fips.extend]
      exact ih _ (by simp only [List.length_append, List.length_singleton]; omega)
        (by simp only [List.length_append, List.length_singleton]; omega)
        (by simp only [List.length_append, List.length_singleton]; omega)

theorem sha1.Ch_eq (b c d : Nat) (hb : b < 4294967296) :
    (b &&& c) ||| ((b ^^^ 0xFFFFFFFF) &&& d) = sha1.fips.Ch b c d := by
  unfold sha1.fips.Ch
  apply Nat.eq_of_testBit_eq
  intro i
  have hm : (0xFFFFFFFF : Nat) = 2 ^ 32 - 1 := by decide
  simp only [Nat.testBit_or, Nat.testBit_and, Nat.testBit_xor, hm, Nat.testBit_two_pow_sub_one]
  by_cases hi : i < 32
  · simp only [hi, decide_True]
    cases b.testBit i <;> cases c.testBit i <;> cases d.testBit i <;> rfl
  · have hbi : b.testBit i = false := by
      apply Nat.testBit_lt_two_pow
      calc b < 2 ^ 32 := hb
        _ ≤ 2 ^ i := Nat.pow_le_pow_right (by decide) (by omega)
    simp only [hi, decide_False, hbi]
    cases c.testBit i <;> cases d.testBit i <;> rfl

theorem sha1.Maj_eq (b c d : Nat) :
    ((b ||| c) &&& d) ||| (b &&& c) = sha1.fips.Maj b c d := by
  unfold sha1.fips.Maj
  apply Nat.eq_of_testBit_eq
  intro i
  simp only [Nat.testBit_or, Nat.testBit_and, Nat.testBit_xor]
  cases b.testBit i <;> cases c.testBit i <;> cases d.testBit i <;> rfl

theorem sha1.and_15 (i : Nat) : i &&& 0xf = i % 16 := by
  have := Nat.and_pow_two_sub_one_eq_mod i 4
  simpa using this

theorem sha1.rotateLeft32_eq (x k : Nat) : sha1.rotateLeft32 x k = sha1.fips.ROTL k x := rfl

/-- One round of the Go code, on a 16-word window that holds the last 16 words
of the schedule, is one round of the standard. -/
theorem sha1.round_step (W w : List Nat) (v : sha1.Words) (n : Nat)
    (hlen : w.length = 16)
    (hw : ∀ s, s < max n 16 → max n 16 ≤ s + 16 → w.getD (s % 16) 0 = W.getD s 0)
    (hW : 16 ≤ n → W.getD n 0 = sha1.fips.ROTL 1 (W.getD (n - 3) 0 ^^^ W.getD (n - 8) 0 ^^^
      W.getD (n - 14) 0 ^^^ W.getD (n - 16) 0))
    (hb : v.h0 < 4294967296 ∧ v.h1 < 4294967296) :
    (sha1.round (w, v) n).2 = sha1.fips.step W v n ∧
      (sha1.round (w, v) n).1.length = 16 ∧
      (∀ s, s < max (n + 1) 16 → max (n + 1) 16 ≤ s + 16 →
        (sha1.round (w, v) n).1.getD (s % 16) 0 = W.getD s 0) ∧
      ((sha1.round (w, v) n).2.h0 < 4294967296 ∧ (sha1.round (w, v) n).2.h1 < 4294967296) := by
  have hf : (if n < 20 then (v.h1 &&& v.h2) ||| ((v.h1 ^^^ 0xFFFFFFFF) &&& v.h3)
      else if n < 40 then v.h1 ^^^ v.h2 ^^^ v.h3
      else if n < 60 then ((v.h1 ||| v.h2) &&& v.h3) ||| (v.h1 &&& v.h2)
      else v.h1 ^^^ v.h2 ^^^ v.h3) = sha1.fips.f n v.h1 v.h2 v.h3 := by
    unfold sha1.fips.f
    rw [sha1.Ch_eq _ _ _ hb.2, sha1.Maj_eq]
    rfl
  have hk : (if n < 20 then sha1.K0 else if n < 40 then sha1.K1
      else if n < 60 then sha1.K2 else sha1.K3) = sha1.fips.K n := rfl
  by_cases h16 : n < 16
  · have hwn : w.getD (n % 16) 0 = W.getD n 0 := hw n (by omega) (by omega)
    have e : sha1.round (w, v) n =
        (w, ⟨(sha1.fips.ROTL 5 v.h0 + sha1.fips.f n v.h1 v.h2 v.h3 + v.h4 + W.getD n 0 +
          sha1.fips.K n) % 4294967296, v.h0, sha1.fips.ROTL 30 v.h1, v.h2, v.h3⟩) := by
      unfold sha1.round
      simp only [h16, if_true, hf, hk, sha1.and_15, hwn, sha1.rotateLeft32_eq]
    rw [e]
    refine ⟨?_, hlen, ?_, Nat.mod_lt _ (by decide), hb.1⟩
    · unfold sha1.fips.step
      simp only [Nat.add_right_comm _ (W.getD n 0) (sha1.fips.K n)]
    · intro s hs1 hs2
      exact hw s (by omega) (by omega)
  · have h16' : 16 ≤ n := by omega
    have e : sha1.round (w, v) n =
        (w.set (n % 16) (W.getD n 0),
          ⟨(sha1.fips.ROTL 5 v.h0 + sha1.fips.f n v.h1 v.h2 v.h3 + v.h4 + W.getD n 0 +
            sha1.fips.K n) % 4294967296, v.h0, sha1.fips.ROTL 30 v.h1, v.h2, v.h3⟩) := by
      have e3 : w.getD ((n - 3) % 16) 0 = W.getD (n - 3) 0 := hw (n - 3) (by omega) (by omega)
      have e8 : w.getD ((n - 8) % 16) 0 = W.getD (n - 8) 0 := hw (n - 8) (by omega) (by omega)
      have e14 : w.getD ((n - 14) % 16) 0 = W.getD (n - 14) 0 :=
        hw (n - 14) (by omega) (by omega)
      have e16 : w.getD (n % 16) 0 = W.getD (n - 16) 0 := by
        have := hw (n - 16) (by omega) (by omega)
        rwa [show (n - 16) % 16 = n % 16 by omega] at this
      unfold sha1.round
      simp only [h16, if_false, hf, hk, sha1.and_15, e3, e8, e14, e16, sha1.rotateLeft32_eq,
        ← hW h16', sha1.getD_set_eq w (n % 16) (W.getD n 0) (by rw [hlen]; omega)]
    rw [e]
    refine ⟨?_, by simp [hlen], ?_, Nat.mod_lt _ (by decide), hb.1⟩
    · unfold sha1.fips.step
      simp only [Nat.add_right_comm _ (W.getD n 0) (sha1.fips.K n)]
    · intro s hs1 hs2
      by_cases hsn : s = n
      · subst hsn
        exact sha1.getD_set_eq w (s % 16) _ (by rw [hlen]; omega)
      · rw [sha1.getD_set_ne w (n % 16) (s % 16) _ (by omega)]
        exact hw s (by omega) (by omega)

/-- The rounds of the Go code, started on the first 16 words of the schedule,
are the rounds of the standard. -/
theorem sha1.rounds_eq (block : List Nat) (h : sha1.Words)
    (hb : h.h0 < 4294967296 ∧ h.h1 < 4294967296) :
    ∀ n, n ≤ 80 →
      ((List.range n).foldl sha1.round ((List.range 16).map (sha1.fips.word block), h)).2 =
          (List.range n).foldl (sha1.fips.step (sha1.fips.schedule block)) h ∧
        ((List.range n).foldl sha1.round
          ((List.range 16).map (sha1.fips.word block), h)).1.length = 16 ∧
        (∀ s, s < max n 16 → max n 16 ≤ s + 16 →
          ((List.range n).foldl sha1.round
            ((List.range 16).map (sha1.fips.word block), h)).1.getD (s % 16) 0 =
            (sha1.fips.schedule block).getD s 0) ∧
        (((List.range n).foldl sha1.round
            ((List.range 16).map (sha1.fips.word block), h)).2.h0 < 4294967296 ∧
          ((List.range n).foldl sha1.round
            ((List.range 16).map (sha1.fips.word block), h)).2.h1 < 4294967296) := by
  have hl16 : ((List.range 16).map (sha1.fips.word block)).length = 16 := by simp
  intro n
  induction n with
  | zero =>
    intro _
    refine ⟨rfl, hl16, ?_, hb⟩
    intro s hs1 _
    have hs : s < 16 := by simpa using hs1
    simp only [List.range_zero, List.foldl_nil]
    rw [Nat.mod_eq_of_lt hs]
    exact (sha1.fips.extend_getD_lt _ 64 s (by rw [hl16]; exact hs)).symm
  | succ n ih =>
    intro hn
    obtain ⟨h1, h2, h3, h4⟩ := ih (by omega)
    have hW : 16 ≤ n → (sha1.fips.schedule block).getD n 0 =
        sha1.fips.ROTL 1 ((sha1.fips.schedule block).getD (n - 3) 0 ^^^
          (sha1.fips.schedule block).getD (n - 8) 0 ^^^
          (sha1.fips.schedule block).getD (n - 14) 0 ^^^
          (sha1.fips.schedule block).getD (n - 16) 0) := by
      intro h16
      exact sha1.fips.extend_getD_ge _ 64 n (by rw [hl16]) (by rw [hl16]; exact h16)
        (by rw [hl16]; omega)
    have hstep := sha1.round_step (sha1.fips.schedule block)
      ((List.range n).foldl sha1.round ((List.range 16).map (sha1.fips.word block), h)).1
      ((List.range n).foldl sha1.round ((List.range 16).map (sha1.fips.word block), h)).2
      n h2 h3 hW h4
    simp only [List.range_succ, List.foldl_append, List.foldl_cons, List.foldl_nil]
    rw [← h1]
    exact hstep

theorem sha1.getD_take (p : List Nat) (n j : Nat) (h : j < n) :
    (p.take n).getD j 0 = p.getD j 0 := by
  simp [List.getD_eq_getElem?_getD, List.getElem?_take, h]

/-- The body of the block loop of the Go code is the compression of the
standard on the first 64 bytes. -/
theorem sha1.blockStep_eq (h : sha1.Words) (p : List Nat)
    (hb : h.h0 < 4294967296 ∧ h.h1 < 4294967296) :
    sha1.blockStep h p = sha1.fips.compress h (p.take 64) := by
  have hw : (List.range 16).map (fun i =>
      (p.getD (4 * i) 0 <<< 24) ||| (p.getD (4 * i + 1) 0 <<< 16) |||
        (p.getD (4 * i + 2) 0 <<< 8) ||| p.getD (4 * i + 3) 0) =
      (List.range 16).map (sha1.fips.word (p.take 64)) := by
    apply List.map_congr_left
    intro i hi
    have hi' : i < 16 := List.mem_range.1 hi
    unfold sha1.fips.word
    rw [sha1.getD_take p 64 (4 * i) (by omega), sha1.getD_take p 64 (4 * i + 1) (by omega),
      sha1.getD_take p 64 (4 * i + 2) (by omega), sha1.getD_take p 64 (4 * i + 3) (by omega)]
  unfold sha1.blockStep sha1.fips.compress
  simp only [hw]
  rw [(sha1.rounds_eq (p.take 64) h hb 80 (le_refl _)).1]
  simp only [Nat.add_comm]

theorem sha1.blockStep_bounded (h : sha1.Words) (p : List Nat) :
    (sha1.blockStep h p).h0 < 4294967296 ∧ (sha1.blockStep h p).h1 < 4294967296 :=
  ⟨Nat.mod_lt _ (by decide), Nat.mod_lt _ (by decide)⟩

theorem sha1.fips.compress_bounded (h : sha1.Words) (p : List Nat) :
    (sha1.fips.compress h p).h0 < 4294967296 ∧ (sha1.fips.compress h p).h1 < 4294967296 :=
  ⟨Nat.mod_lt _ (by decide), Nat.mod_lt _ (by decide)⟩

theorem sha1.fips.blocks_bounded :
    ∀ (k : Nat) (h : sha1.Words) (p : List Nat),
      (h.h0 < 4294967296 ∧ h.h1 < 4294967296) →
      (sha1.fips.blocks k h p).h0 < 4294967296 ∧ (sha1.fips.blocks k h p).h1 < 4294967296 := by
  intro k
  induction k with
  | zero => intro h p hb; exact hb
  | succ k ih =>
    intro h p _
    exact ih _ _ (sha1.fips.compress_bounded h (p.take 64))

/-- The block loop of the Go code folds the whole 64-byte blocks of its input
as the standard does. -/
theorem sha1.blockLoop_eq :
    ∀ (k fuel : Nat) (h : sha1.Words) (p : List Nat),
      (h.h0 < 4294967296 ∧ h.h1 < 4294967296) → 64 * k ≤ p.length → p.length < 64 * (k + 1) →
      p.length ≤ fuel → sha1.blockLoop fuel h p = sha1.fips.blocks k h p := by
  intro k
  induction k with
  | zero =>
    intro fuel h p _ _ h2 _
    cases fuel with
    | zero => rfl
    | succ fuel =>
      simp only [sha1.blockLoop, sha1.chunk]
      rw [if_neg (by omega)]
      rfl
  | succ k ih =>
    intro fuel h p hb h1 h2 h3
    cases fuel with
    | zero => omega
    | succ fuel =>
      simp only [sha1.blockLoop, sha1.chunk, sha1.fips.blocks]
      rw [if_pos (by omega), sha1.blockStep_eq h p hb]
      exact ih fuel _ _ (sha1.fips.compress_bounded h (p.take 64))
        (by simp only [List.length_drop]; omega) (by simp only [List.length_drop]; omega)
        (by simp only [List.length_drop]; omega)

theorem sha1.block_eq (h : sha1.Words) (p : List Nat) (k : Nat)
    (hb : h.h0 < 4294967296 ∧ h.h1 < 4294967296) (hk : p.length = 64 * k) :
    sha1.block h p = sha1.fips.blocks k h p :=
  sha1.blockLoop_eq k p.length h p hb (by omega) (by omega) (le_refl _)

theorem sha1.fips.blocks_append :
    ∀ (k m : Nat) (H : sha1.Words) (a b : List Nat), a.length = 64 * k →
      sha1.fips.blocks (k + m) H (a ++ b) = sha1.fips.blocks m (sha1.fips.blocks k H a) b := by
  intro k
  induction k with
  | zero =>
    intro m H a b ha
    have : a = [] := List.length_eq_zero.1 (by omega)
    subst this
    simp [sha1.fips.blocks]
  | succ k ih =>
    intro m H a b ha
    have e : k + 1 + m = (k + m) + 1 := by omega
    rw [e]
    simp only [sha1.fips.blocks]
    have ht : (a ++ b).take 64 = a.take 64 := by
      rw [List.take_append_of_le_length (by omega)]
    have hd : (a ++ b).drop 64 = a.drop 64 ++ b := by
      rw [List.drop_append_of_le_length (by omega)]
    rw [ht, hd]
    exact ih m _ _ b (by simp only [List.length_drop]; omega)

theorem sha1.absorbed_bounded (d : sha1.digest) (S : List Nat) (k : Nat)
    (h : sha1.absorbed d S k) : d.h.h0 < 4294967296 ∧ d.h.h1 < 4294967296 := by
  rw [h.2.1]
  exact sha1.fips.blocks_bounded k _ S ⟨by decide, by decide⟩

theorem sha1.fill_absorbed (d : sha1.digest) (S : List Nat) (k : Nat) (p : List Nat)
    (h : sha1.absorbed d S k) :
    ∃ S1 k1, S1.length = 64 * k1 ∧ (d.fill p).1 = sha1.fips.blocks k1 sha1.digest.Reset.h S1 ∧
      (d.fill p).2.1.length < 64 ∧
      S1 ++ (d.fill p).2.1 ++ (d.fill p).2.2 = S ++ d.x ++ p ∧
      (0 < (d.fill p).2.2.length → (d.fill p).2.1 = []) := by
  obtain ⟨hS, hh, hx⟩ := h
  have hb := sha1.absorbed_bounded d S k ⟨hS, hh, hx⟩
  unfold sha1.digest.fill sha1.chunk
  by_cases h0 : d.x.length > 0
  · simp only [h0, if_true]
    by_cases hfull : ((d.x ++ p.take (min (64 - d.x.length) p.length)).length == 64) = true
    · simp only [hfull, if_true]
      have hlen : (d.x ++ p.take (min (64 - d.x.length) p.length)).length = 64 * 1 := by
        simpa using hfull
      refine ⟨S ++ (d.x ++ p.take (min (64 - d.x.length) p.length)), k + 1, ?_, ?_, by simp, ?_,
        fun _ => trivial⟩
      · rw [List.length_append, hS, hlen]; omega
      · rw [sha1.block_eq d.h _ 1 hb hlen, hh, sha1.fips.blocks_append k 1 _ S _ hS]
      · simp only [List.append_nil, List.append_assoc, List.take_append_drop]
    · simp only [hfull, Bool.false_eq_true, if_false]
      have hlen : (d.x ++ p.take (min (64 - d.x.length) p.length)).length ≠ 64 := by
        simpa using hfull
      simp only [List.length_append, List.length_take] at hlen
      refine ⟨S, k, hS, hh, ?_, ?_, ?_⟩
      · simp only [List.length_append, List.length_take]; omega
      · simp only [List.append_assoc, List.take_append_drop]
      · intro hr
        simp only [List.length_drop] at hr
        omega
  · simp only [h0, if_false]
    have hx0 : d.x = [] := List.length_eq_zero.1 (by omega)
    exact ⟨S, k, hS, hh, hx, rfl, fun _ => hx0⟩

/-- `Write` keeps the digest in step with the standard: the blocks folded and
the bytes buffered make up everything written so far. -/
theorem sha1.Write_absorbed (d : sha1.digest) (S : List Nat) (k : Nat) (p : List Nat)
    (h : sha1.absorbed d S k) :
    ∃ S1 k1, sha1.absorbed (d.Write p) S1 k1 ∧ S1 ++ (d.Write p).x = S ++ d.x ++ p := by
  obtain ⟨S1, k1, hS1, hh1, hx1, hcat, hr⟩ := sha1.fill_absorbed d S k p h
  have hb1 : (d.fill p).1.h0 < 4294967296 ∧ (d.fill p).1.h1 < 4294967296 := by
    rw [hh1]
    exact sha1.fips.blocks_bounded k1 _ S1 ⟨by decide, by decide⟩
  unfold sha1.digest.Write sha1.chunk sha1.absorbed
  simp only
  by_cases hge : (d.fill p).2.2.length ≥ 64
  · simp only [hge, if_true]
    have hxb : (d.fill p).2.1 = [] := hr (by omega)
    have hn : ((d.fill p).2.2.take ((d.fill p).2.2.length - (d.fill p).2.2.length % 64)).length =
        64 * (((d.fill p).2.2.length - (d.fill p).2.2.length % 64) / 64) := by
      simp only [List.length_take]
      omega
    have hx2 : (if ((d.fill p).2.2.drop
          ((d.fill p).2.2.length - (d.fill p).2.2.length % 64)).length > 0 then
        (d.fill p).2.2.drop ((d.fill p).2.2.length - (d.fill p).2.2.length % 64)
        else (d.fill p).2.1) =
        (d.fill p).2.2.drop ((d.fill p).2.2.length - (d.fill p).2.2.length % 64) := by
      split_ifs with hpos
      · rfl
      · rw [hxb]
        exact (List.length_eq_zero.1 (by omega)).symm
    rw [hx2]
    refine ⟨S1 ++ (d.fill p).2.2.take ((d.fill p).2.2.length - (d.fill p).2.2.length % 64),
      k1 + ((d.fill p).2.2.length - (d.fill p).2.2.length % 64) / 64, ⟨?_, ?_, ?_⟩, ?_⟩
    · rw [List.length_append, hS1, hn]; omega
    · rw [sha1.block_eq _ _ _ hb1 hn, hh1, sha1.fips.blocks_append k1 _ _ S1 _ hS1]
    · simp only [List.length_drop]; omega
    · rw [List.append_assoc, List.take_append_drop, ← hcat, hxb, List.append_nil]
  · simp only [hge, if_false]
    by_cases hpos : (d.fill p).2.2.length > 0
    · simp only [hpos, if_true]
      refine ⟨S1, k1, ⟨hS1, hh1, by omega⟩, ?_⟩
      rw [← hcat, hr hpos, List.append_nil]
    · simp only [hpos, if_false]
      have hr0 : (d.fill p).2.2 = [] := List.length_eq_zero.1 (by omega)
      refine ⟨S1, k1, ⟨hS1, hh1, hx1⟩, ?_⟩
      rw [← hcat, hr0, List.append_nil]

theorem sha1.take_tmp (k : Nat) (h1 : 1 ≤ k) (h2 : k ≤ 72) :
    ((0x80 : Nat) :: List.replicate 71 0).take k = 0x80 :: List.replicate (k - 1) 0 := by
  obtain ⟨j, rfl⟩ : ∃ j, k = j + 1 := ⟨k - 1, by omega⟩
  simp only [List.take_succ_cons, List.take_replicate, Nat.add_sub_cancel]
  rw [Nat.min_eq_left (by omega)]

/-- The three writes of `Sum`, the data, the padding and the length, leave the
buffer empty and the words at the standard's hash of the padded message. -/
theorem sha1.three_writes (data : List Nat) (k L : Nat) (h1 : 1 ≤ k) (h2 : k ≤ 72)
    (h3 : (data.length + k) % 64 = 56) :
    (((sha1.digest.Reset.Write data).Write
        (((0x80 : Nat) :: List.replicate 71 0).take k)).Write (sha1.putUint64 L)).x = [] ∧
      (((sha1.digest.Reset.Write data).Write
        (((0x80 : Nat) :: List.replicate 71 0).take k)).Write (sha1.putUint64 L)).h =
        sha1.fips.blocks
          ((data ++ 0x80 :: (List.replicate (k - 1) 0 ++ sha1.putUint64 L)).length / 64)
          sha1.digest.Reset.h
          (data ++ 0x80 :: (List.replicate (k - 1) 0 ++ sha1.putUint64 L)) := by
  rw [sha1.take_tmp k h1 h2]
  have hinit : sha1.absorbed sha1.digest.Reset [] 0 := ⟨rfl, rfl, by decide⟩
  obtain ⟨S0, k0, ha0, hc0⟩ := sha1.Write_absorbed _ _ _ data hinit
  obtain ⟨S1, k1, ha1, hc1⟩ := sha1.Write_absorbed _ _ _
    ((0x80 : Nat) :: List.replicate (k - 1) 0) ha0
  obtain ⟨S2, k2, ha2, hc2⟩ := sha1.Write_absorbed _ _ _ (sha1.putUint64 L) ha1
  rw [hc1, hc0] at hc2
  have hr : (sha1.digest.Reset).x = [] := rfl
  rw [hr, List.nil_append, List.nil_append] at hc2
  have hlen := congrArg List.length hc2
  have hL : (sha1.putUint64 L).length = 8 := rfl
  simp only [List.length_append, List.length_cons, List.length_replicate, hL] at hlen
  obtain ⟨hS2, hh2, hx2⟩ := ha2
  have hx0 : (((sha1.digest.Reset.Write data).Write
      ((0x80 : Nat) :: List.replicate (k - 1) 0)).Write (sha1.putUint64 L)).x = [] := by
    apply List.length_eq_zero.1
    omega
  refine ⟨hx0, ?_⟩
  rw [hx0, List.append_nil] at hc2
  have e : data ++ 0x80 :: (List.replicate (k - 1) 0 ++ sha1.putUint64 L) = S2 := by
    rw [hc2]
    simp
  have hk2 : S2.length / 64 = k2 := by omega
  rw [e, hh2, hk2]

/-- The checksum of the Go code is the SHA-1 message digest of the standard:
streaming writes against one padded message, a 16-word window against the
80-word schedule, and the Go forms of `Ch` and `Maj` against the standard's. -/
theorem sha1.Sum_eq_fips (data : List Nat) : sha1.Sum data = some (sha1.fips.hash data) := by
  have hl0 : (sha1.digest.Reset.Write data).len = data.length % 18446744073709551616 := by
    rw [sha1.Write_len]
    simp [sha1.digest.Reset]
  have hshift : ((sha1.digest.Reset.Write data).len <<< 3) % 18446744073709551616 =
      (data.length * 8) % 18446744073709551616 := by
    rw [hl0, Nat.shiftLeft_eq]
    have : (2 : Nat) ^ 3 = 8 := by decide
    rw [this]
    omega
  unfold sha1.Sum sha1.digest.checkSum
  simp only [hshift]
  by_cases hpad : (sha1.digest.Reset.Write data).len % 64 < 56
  · simp only [hpad, if_true]
    have hk : 56 - (sha1.digest.Reset.Write data).len % 64 - 1 =
        (119 - data.length % 64) % 64 := by
      rw [hl0] at hpad ⊢
      omega
    obtain ⟨hx, hh⟩ := sha1.three_writes data (56 - (sha1.digest.Reset.Write data).len % 64)
      ((data.length * 8) % 18446744073709551616) (by omega) (by omega)
      (by rw [hl0] at hpad ⊢; omega)
    rw [hk] at hh
    simp only [hx, List.length_nil, bne_self_eq_false, Bool.false_eq_true, if_false, hh]
    rfl
  · simp only [hpad, if_false]
    have hk : 64 + 56 - (sha1.digest.Reset.Write data).len % 64 - 1 =
        (119 - data.length % 64) % 64 := by
      rw [hl0] at hpad ⊢
      omega
    obtain ⟨hx, hh⟩ := sha1.three_writes data
      (64 + 56 - (sha1.digest.Reset.Write data).len % 64)
      ((data.length * 8) % 18446744073709551616) (by omega) (by omega)
      (by rw [hl0] at hpad ⊢; omega)
    rw [hk] at hh
    simp only [hx, List.length_nil, bne_self_eq_false, Bool.false_eq_true, if_false, hh]
    rfl

set_option maxRecDepth 1000000 in
/-- The standard's definition on its own first example, the message `abc`. -/
theorem sha1.fips.hash_abc :
    sha1.fips.hash [0x61, 0x62, 0x63] =
      [0xa9, 0x99, 0x3e, 0x36, 0x47, 0x06, 0x81, 0x6a, 0xba, 0x3e, 0x25, 0x71, 0x78, 0x50,
        0xc2, 0x6c, 0x9c, 0xd0, 0xd8, 0x9d] := by
  decide

/-! ## Package `path`: `Split` and `Base` -/

theorem path.Split_not_mem (s : List Char) (h : '/' ∉ s) : path.Split s = ([], s) := by
  simp [path.Split, strings.LastIndexByte_not_mem s '/' h]

theorem path.Split_append (a s : List Char) (h : '/' ∉ s) :
    path.Split (a ++ '/' :: s) = (a ++ ['/'], s) := by
  have e : ((a.length : Int) + 1).toNat = a.length + 1 := by omega
  have e2 : a ++ '/' :: s = (a ++ ['/']) ++ s := by simp
  simp only [path.Split, strings.LastIndexByte_append a s '/' h, e]
  rw [e2]
  have l : (a ++ ['/']).length = a.length + 1 := by simp
  rw [← l, List.take_left, List.drop_left]

theorem path.stripTrailingSlashes_append (a s : List Char) (hs : s ≠ []) (h : '/' ∉ s) :
    path.stripTrailingSlashes (a ++ s) = a ++ s := by
  obtain ⟨i, l, rfl⟩ : ∃ i l, s = i ++ [l] := ⟨s.dropLast, s.getLast hs, (List.dropLast_append_getLast hs).symm⟩
  have hl : l ≠ '/' := by
    intro e
    apply h
    simp [e]
  have : (l == '/') = false := by simpa using hl
  simp [path.stripTrailingSlashes, List.dropWhile, this]

theorem path.Base_append (a s : List Char) (hs : s ≠ []) (h : '/' ∉ s) :
    path.Base (a ++ '/' :: s) = s := by
  have e : ((a.length : Int) + 1).toNat = a.length + 1 := by omega
  have e2 : a ++ '/' :: s = (a ++ ['/']) ++ s := by simp
  have l : (a ++ ['/']).length = a.length + 1 := by simp
  have hne : (a ++ '/' :: s).isEmpty = false := by cases a <;> rfl
  have hs2 : s.isEmpty = false := by
    cases s with
    | nil => exact absurd rfl hs
    | cons _ _ => rfl
  unfold path.Base
  rw [if_neg (by simp [hne])]
  simp only
  rw [e2, path.stripTrailingSlashes_append _ s hs h, ← e2,
    strings.LastIndexByte_append a s '/' h, if_pos (Int.natCast_nonneg _), e, e2, ← l,
    List.drop_left, if_neg (by simp [hs2])]

theorem path.Base_segment (s : List Char) (hs : s ≠ []) (h : '/' ∉ s) : path.Base s = s := by
  have hs2 : s.isEmpty = false := by
    cases s with
    | nil => exact absurd rfl hs
    | cons _ _ => rfl
  have := path.stripTrailingSlashes_append [] s hs h
  simp only [List.nil_append] at this
  unfold path.Base
  rw [if_neg (by simp [hs2])]
  simp only
  rw [this, strings.LastIndexByte_not_mem s '/' h]
  have hneg : ¬ ((-1 : Int) ≥ 0) := by decide
  rw [if_neg hneg, if_neg (by simp [hs2])]

/-! ## Package `path`: the loop of `Clean` -/

theorem path.length_dropWhile_le (p : Char → Bool) (l : List Char) :
    (l.dropWhile p).length ≤ l.length := by
  induction l with
  | nil => simp
  | cons x xs ih =>
    simp only [List.dropWhile]
    split
    · simp only [List.length_cons]; omega
    · simp

/-- The bound on the iterations of the loop of `Clean` is never reached: any
two bounds of at least the length of the remaining input give the same
result. -/
theorem path.cleanLoop_fuel (rooted : Bool) :
    ∀ (f1 f2 : Nat) (rest out : List Char) (dotdot : Nat),
      rest.length ≤ f1 → rest.length ≤ f2 →
      path.cleanLoop rooted f1 rest out dotdot = path.cleanLoop rooted f2 rest out dotdot := by
  intro f1
  induction f1 with
  | zero =>
    intro f2 rest out dotdot h1 _
    have : rest = [] := List.length_eq_zero.1 (Nat.le_zero.1 h1)
    subst this
    cases f2 <;> rfl
  | succ f1 ih =>
    intro f2 rest out dotdot h1 h2
    cases rest with
    | nil => cases f2 <;> rfl
    | cons c t =>
      cases f2 with
      | zero => simp at h2
      | succ f2 =>
        simp only [List.length_cons, Nat.add_le_add_iff_right] at h1 h2
        have ht : t.tail.length ≤ t.length := by simp
        simp only [path.cleanLoop]
        by_cases hc : (c == '/') = true
        · simp only [hc, if_true]
          exact ih _ _ _ _ h1 h2
        · have hd : ((c :: t).dropWhile (fun b => b != '/')).length ≤ t.length := by
            have hc' : (c != '/') = true := by simpa using hc
            simp only [List.dropWhile, hc']
            exact path.length_dropWhile_le _ _
          split_ifs <;>
            first
              | exact ih _ _ _ _ h1 h2
              | exact ih _ _ _ _ (ht.trans h1) (ht.trans h2)
              | exact ih _ _ _ _ (hd.trans h1) (hd.trans h2)

theorem path.takeWhile_segment (seg rest : List Char) (hseg : '/' ∉ seg)
    (hrest : rest = [] ∨ rest.head? = some '/') :
    (seg ++ rest).takeWhile (fun b => b != '/') = seg ∧
      (seg ++ rest).dropWhile (fun b => b != '/') = rest := by
  induction seg with
  | nil =>
    rcases hrest with rfl | h
    · simp
    · cases rest with
      | nil => simp
      | cons x xs =>
        simp only [List.head?_cons, Option.some.injEq] at h
        subst h
        simp [List.takeWhile, List.dropWhile]
  | cons c t ih =>
    simp only [List.mem_cons, not_or] at hseg
    have hc : (c != '/') = true := by
      simp only [bne_iff_ne, ne_eq]
      exact fun e => hseg.1 e.symm
    simp only [List.cons_append, List.takeWhile, List.dropWhile, hc]
    exact ⟨congrArg (c :: ·) (ih hseg.2).1, (ih hseg.2).2⟩

theorem path.isSegment_iff (s : List Char) :
    path.isSegment s = true ↔ s ≠ [] ∧ '/' ∉ s ∧ s ≠ ['.'] ∧ s ≠ ['.', '.'] := by
  simp [path.isSegment, and_assoc]

/-- One real path element: the loop copies it to the output, after a slash
when one is needed. -/
theorem path.cleanLoop_segment (rooted : Bool) (seg rest out : List Char) (dotdot fuel : Nat)
    (hseg : path.isSegment seg = true) (hrest : rest = [] ∨ rest.head? = some '/')
    (hf : (seg ++ rest).length ≤ fuel) :
    path.cleanLoop rooted fuel (seg ++ rest) out dotdot =
      path.cleanLoop rooted fuel rest (path.addSlash rooted out ++ seg) dotdot := by
  obtain ⟨hne, hsl, hdot, hdd⟩ := (path.isSegment_iff seg).1 hseg
  obtain ⟨htake, hdrop⟩ := path.takeWhile_segment seg rest hsl hrest
  cases seg with
  | nil => exact absurd rfl hne
  | cons c t =>
    cases fuel with
    | zero => simp at hf
    | succ fuel =>
      have hlen : rest.length ≤ fuel := by
        simp only [List.cons_append, List.length_cons, List.length_append] at hf
        omega
      simp only [List.mem_cons, not_or] at hsl
      have hc : (c == '/') = false := by
        simp only [beq_eq_false_iff_ne, ne_eq]
        exact fun e => hsl.1 e.symm
      have h2 : (c == '.' && ((t ++ rest).isEmpty || (t ++ rest).head? == some '/')) = false := by
        cases t with
        | nil =>
          have : (c == '.') = false := by
            simp only [beq_eq_false_iff_ne, ne_eq]
            intro e
            exact hdot (by rw [e])
          simp [this]
        | cons x t2 =>
          have hx : x ≠ '/' := fun e => hsl.2 (by simp [e])
          simp [hx]
      have h3 : (c == '.' && (t ++ rest).head? == some '.' &&
          ((t ++ rest).tail.isEmpty || (t ++ rest).tail.head? == some '/')) = false := by
        cases t with
        | nil =>
          have : (c == '.') = false := by
            simp only [beq_eq_false_iff_ne, ne_eq]
            intro e
            exact hdot (by rw [e])
          simp [this]
        | cons x t2 =>
          cases t2 with
          | nil =>
            by_cases hcx : c = '.' ∧ x = '.'
            · exact absurd (by rw [hcx.1, hcx.2]) hdd
            · have : (c == '.' && x == '.') = false := by
                simpa [Bool.and_eq_false_iff, not_and_or] using hcx
              simp only [List.cons_append, List.head?_cons]
              have e : (some x == some '.') = (x == '.') := by
                by_cases hx : x = '.' <;> simp [hx]
              rw [e, this]
              rfl
          | cons y t3 =>
            have hy : y ≠ '/' := fun e => hsl.2 (by simp [e])
            simp [hy]
      rw [List.cons_append] at htake hdrop ⊢
      simp only [path.cleanLoop, hc, h2, h3, htake, hdrop]
      exact path.cleanLoop_fuel rooted _ _ _ _ _ hlen (by omega)

theorem path.cleanLoop_slash (rooted : Bool) (rest out : List Char) (dotdot fuel : Nat)
    (hf : ('/' :: rest).length ≤ fuel) :
    path.cleanLoop rooted fuel ('/' :: rest) out dotdot =
      path.cleanLoop rooted fuel rest out dotdot := by
  cases fuel with
  | zero => simp at hf
  | succ fuel =>
    simp only [List.length_cons, Nat.add_le_add_iff_right] at hf
    simp only [path.cleanLoop, beq_self_eq_true, if_true]
    exact path.cleanLoop_fuel rooted _ _ _ _ _ hf (by omega)

theorem path.cleanLoop_dot (rooted : Bool) (rest out : List Char) (dotdot fuel : Nat)
    (hf : ('.' :: '/' :: rest).length ≤ fuel) :
    path.cleanLoop rooted fuel ('.' :: '/' :: rest) out dotdot =
      path.cleanLoop rooted fuel rest out dotdot := by
  cases fuel with
  | zero => simp at hf
  | succ fuel =>
    simp only [List.length_cons, Nat.add_le_add_iff_right] at hf
    have h1 : (('.' : Char) == '/') = false := by decide
    simp only [path.cleanLoop, h1, Bool.false_eq_true, if_false, beq_self_eq_true, List.head?_cons,
      Bool.or_true, Bool.and_true, if_true]
    rw [path.cleanLoop_slash rooted rest out dotdot fuel (by simpa using hf)]
    exact path.cleanLoop_fuel rooted _ _ _ _ _ (by omega) (by omega)

theorem path.backtrack_ge (buf : List Char) (dotdot : Nat) :
    ∀ w, dotdot ≤ w → dotdot ≤ path.backtrack buf dotdot w := by
  intro w
  induction w with
  | zero => intro h; simpa [path.backtrack] using h
  | succ w ih =>
    intro h
    simp only [path.backtrack]
    split_ifs with hc
    · simp only [Bool.and_eq_true, decide_eq_true_eq] at hc
      exact ih (by omega)
    · exact h

theorem path.head?_take (l : List Char) (n : Nat) (hn : 1 ≤ n) : (l.take n).head? = l.head? := by
  cases n with
  | zero => omega
  | succ n => cases l <;> rfl

theorem path.cleanLoop_dotdot (rooted : Bool) (out : List Char) (dotdot : Nat)
    (hinv : path.cleanInv rooted out dotdot) :
    ∃ out1 dotdot1, path.cleanInv rooted out1 dotdot1 ∧
      ∀ (rest : List Char) (fuel : Nat), ('.' :: '.' :: '/' :: rest).length ≤ fuel →
        path.cleanLoop rooted fuel ('.' :: '.' :: '/' :: rest) out dotdot =
          path.cleanLoop rooted fuel rest out1 dotdot1 := by
  have h1 : (('.' : Char) == '/') = false := by decide
  have key : ∀ (o : List Char) (d : Nat) (rest : List Char) (fuel : Nat),
      ('/' :: rest).length + 1 ≤ fuel →
      path.cleanLoop rooted fuel ('/' :: rest) o d = path.cleanLoop rooted (fuel + 1) rest o d := by
    intro o d rest fuel hf
    rw [path.cleanLoop_slash rooted rest o d fuel (by omega)]
    exact path.cleanLoop_fuel rooted _ _ _ _ _ (by simp at hf; omega) (by simp at hf; omega)
  by_cases hgt : out.length > dotdot
  · refine ⟨out.take (path.backtrack out dotdot (out.length - 1)), dotdot, ?_, ?_⟩
    · intro hr
      obtain ⟨hh, hd⟩ := hinv hr
      refine ⟨?_, hd⟩
      rw [path.head?_take _ _ (hd.trans (path.backtrack_ge out dotdot _ (by omega)))]
      exact hh
    · intro rest fuel hf
      cases fuel with
      | zero => simp at hf
      | succ fuel =>
        simp only [List.length_cons] at hf
        simp only [path.cleanLoop, h1, Bool.false_eq_true, if_false, beq_self_eq_true,
          List.head?_cons, List.tail_cons, Bool.or_true, Bool.and_true, if_true, List.isEmpty_cons,
          Bool.or_false, Bool.true_and, Bool.and_false, Option.some.injEq,
          show ((some '.' : Option Char) == some '/') = false from by decide, if_pos hgt]
        exact key _ _ rest fuel (by simp; omega)
  · by_cases hr : rooted = true
    · subst hr
      refine ⟨out, dotdot, hinv, ?_⟩
      intro rest fuel hf
      cases fuel with
      | zero => simp at hf
      | succ fuel =>
        simp only [List.length_cons] at hf
        simp only [path.cleanLoop, h1, Bool.false_eq_true, if_false, beq_self_eq_true,
          List.head?_cons, List.tail_cons, Bool.or_true, Bool.and_true, if_true, List.isEmpty_cons,
          Bool.or_false, Bool.true_and, Bool.and_false, Option.some.injEq,
          show ((some '.' : Option Char) == some '/') = false from by decide, if_neg hgt,
          Bool.not_true]
        exact key _ _ rest fuel (by simp; omega)
    · have hr' : rooted = false := by simpa using hr
      subst hr'
      refine ⟨(if out.length > 0 then out ++ ['/'] else out) ++ ['.', '.'],
        ((if out.length > 0 then out ++ ['/'] else out) ++ ['.', '.']).length, ?_, ?_⟩
      · intro h; exact absurd h (by decide)
      · intro rest fuel hf
        cases fuel with
        | zero => simp at hf
        | succ fuel =>
          simp only [List.length_cons] at hf
          simp only [path.cleanLoop, h1, Bool.false_eq_true, if_false, beq_self_eq_true,
            List.head?_cons, List.tail_cons, Bool.or_true, Bool.and_true, if_true,
            List.isEmpty_cons, Bool.or_false, Bool.true_and, Bool.and_false, Option.some.injEq,
            show ((some '.' : Option Char) == some '/') = false from by decide, if_neg hgt,
            Bool.not_false]
          exact key _ _ rest fuel (by simp; omega)

theorem path.cleanLoop_nil (rooted : Bool) (fuel : Nat) (out : List Char) (dotdot : Nat) :
    path.cleanLoop rooted fuel [] out dotdot = out := by
  cases fuel <;> rfl

theorem path.cleanInv_addSlash (rooted : Bool) (out e : List Char) (dotdot : Nat)
    (hinv : path.cleanInv rooted out dotdot) :
    path.cleanInv rooted (path.addSlash rooted out ++ e) dotdot := by
  intro hr
  obtain ⟨hh, hd⟩ := hinv hr
  refine ⟨?_, hd⟩
  cases out with
  | nil => simp at hh
  | cons x xs =>
    simp only [List.head?_cons, Option.some.injEq] at hh
    subst hh
    unfold path.addSlash
    split_ifs <;> rfl

/-- One path element and the slash after it, whatever the element is: the loop
moves on to what follows, in a state that keeps the invariant. -/
theorem path.cleanLoop_element (rooted : Bool) (e : List Char) (he : '/' ∉ e)
    (out : List Char) (dotdot : Nat) (hinv : path.cleanInv rooted out dotdot) :
    ∃ out1 dotdot1, path.cleanInv rooted out1 dotdot1 ∧
      ∀ (rest : List Char) (fuel : Nat), (e ++ '/' :: rest).length ≤ fuel →
        path.cleanLoop rooted fuel (e ++ '/' :: rest) out dotdot =
          path.cleanLoop rooted fuel rest out1 dotdot1 := by
  by_cases hseg : path.isSegment e = true
  · refine ⟨path.addSlash rooted out ++ e, dotdot, path.cleanInv_addSlash rooted out e dotdot hinv, ?_⟩
    intro rest fuel hf
    rw [path.cleanLoop_segment rooted e ('/' :: rest) out dotdot fuel hseg (Or.inr rfl) hf]
    exact path.cleanLoop_slash rooted rest _ dotdot fuel (by simp at hf ⊢; omega)
  · have hcases : e = [] ∨ e = ['.'] ∨ e = ['.', '.'] := by
      by_contra hcon
      simp only [not_or] at hcon
      exact hseg ((path.isSegment_iff e).2 ⟨hcon.1, he, hcon.2.1, hcon.2.2⟩)
    rcases hcases with rfl | rfl | rfl
    · exact ⟨out, dotdot, hinv, fun rest fuel hf =>
        path.cleanLoop_slash rooted rest out dotdot fuel (by simpa using hf)⟩
    · exact ⟨out, dotdot, hinv, fun rest fuel hf =>
        path.cleanLoop_dot rooted rest out dotdot fuel (by simpa using hf)⟩
    · exact path.cleanLoop_dotdot rooted out dotdot hinv

theorem path.closed_split (p : List Char) :
    ∃ e d, '/' ∉ e ∧ p ++ ['/'] = e ++ '/' :: d ∧ path.closed d ∧ d.length ≤ p.length := by
  induction p with
  | nil => exact ⟨[], [], by simp, rfl, Or.inl rfl, le_refl _⟩
  | cons c p ih =>
    by_cases hc : c = '/'
    · subst hc
      exact ⟨[], p ++ ['/'], by simp, rfl, Or.inr ⟨p, rfl⟩, by simp⟩
    · obtain ⟨e, d, he, hed, hd, hl⟩ := ih
      refine ⟨c :: e, d, ?_, ?_, hd, ?_⟩
      · simp only [List.mem_cons, not_or]
        exact ⟨fun h => hc h.symm, he⟩
      · simp [hed]
      · simp only [List.length_cons]; omega

/-- The loop of `Clean` over a prefix that ends at an element boundary: the
prefix is consumed and the loop goes on with what follows, in a state that
depends on the prefix alone. -/
theorem path.cleanLoop_closed (rooted : Bool) :
    ∀ (n : Nat) (d : List Char), d.length ≤ n → path.closed d →
      ∀ (out : List Char) (dotdot : Nat), path.cleanInv rooted out dotdot →
      ∃ out1 dotdot1, path.cleanInv rooted out1 dotdot1 ∧
        ∀ (rest : List Char) (fuel : Nat), (d ++ rest).length ≤ fuel →
          path.cleanLoop rooted fuel (d ++ rest) out dotdot =
            path.cleanLoop rooted fuel rest out1 dotdot1 := by
  intro n
  induction n with
  | zero =>
    intro d hn _ out dotdot hinv
    have : d = [] := List.length_eq_zero.1 (Nat.le_zero.1 hn)
    subst this
    exact ⟨out, dotdot, hinv, fun rest fuel _ => rfl⟩
  | succ n ih =>
    intro d hn hd out dotdot hinv
    rcases hd with rfl | ⟨p, rfl⟩
    · exact ⟨out, dotdot, hinv, fun rest fuel _ => rfl⟩
    · obtain ⟨e, d2, he, hed, hd2, hl⟩ := path.closed_split p
      obtain ⟨o1, dd1, hinv1, h1⟩ := path.cleanLoop_element rooted e he out dotdot hinv
      have hlen : d2.length ≤ n := by
        simp only [List.length_append, List.length_singleton] at hn
        omega
      obtain ⟨o2, dd2, hinv2, h2⟩ := ih d2 hlen hd2 o1 dd1 hinv1
      refine ⟨o2, dd2, hinv2, ?_⟩
      intro rest fuel hf
      have e1 : (p ++ ['/']) ++ rest = e ++ '/' :: (d2 ++ rest) := by
        rw [hed]; simp
      rw [e1] at hf ⊢
      rw [h1 (d2 ++ rest) fuel hf]
      exact h2 rest fuel (by simp at hf ⊢; omega)

theorem path.addSlash_of (rooted : Bool) (l : List Char)
    (h1 : rooted = true → l.length ≠ 1) (h0 : rooted = false → l.length ≠ 0) :
    path.addSlash rooted l = l ++ ['/'] := by
  unfold path.addSlash
  cases rooted
  · have := h0 rfl
    simp [this]
  · have := h1 rfl
    simp [this]

theorem path.addSlash_addSlash (rooted : Bool) (out s : List Char) (hs : s ≠ []) :
    path.addSlash rooted (path.addSlash rooted out ++ s) = path.addSlash rooted out ++ s ++ ['/'] := by
  have hpos : 0 < s.length := List.length_pos.2 hs
  apply path.addSlash_of
  · intro hr
    subst hr
    unfold path.addSlash
    split_ifs with hc
    · simp only [List.length_append, List.length_singleton]; omega
    · simp only [Bool.true_and, Bool.not_true, Bool.false_and, Bool.or_false, bne_iff_ne, ne_eq,
        not_not] at hc
      simp only [List.length_append]; omega
  · intro _
    simp only [List.length_append]; omega

theorem path.joinSegments_cons (s : List Char) (segs : List (List Char)) (h : segs ≠ []) :
    path.joinSegments (s :: segs) = s ++ '/' :: path.joinSegments segs := by
  cases segs with
  | nil => exact absurd rfl h
  | cons t ts => rfl

/-- A run of real path elements, with or without a slash at the end: the loop
writes them out joined by single slashes. -/
theorem path.cleanLoop_segments (rooted : Bool) :
    ∀ (segs : List (List Char)), segs ≠ [] → (∀ s ∈ segs, path.isSegment s = true) →
      ∀ (tail : List Char), tail = [] ∨ tail = ['/'] →
      ∀ (out : List Char) (dotdot fuel : Nat), (path.joinSegments segs ++ tail).length ≤ fuel →
        path.cleanLoop rooted fuel (path.joinSegments segs ++ tail) out dotdot =
          path.addSlash rooted out ++ path.joinSegments segs := by
  intro segs
  induction segs with
  | nil => intro h; exact absurd rfl h
  | cons s segs ih =>
    intro _ hall tail htail out dotdot fuel hf
    have hs : path.isSegment s = true := hall s (List.mem_cons_self _ _)
    have hsne : s ≠ [] := ((path.isSegment_iff s).1 hs).1
    by_cases hsegs : segs = []
    · subst hsegs
      simp only [path.joinSegments] at hf ⊢
      have hrest : tail = [] ∨ tail.head? = some '/' := by
        rcases htail with rfl | rfl
        · exact Or.inl rfl
        · exact Or.inr rfl
      rw [path.cleanLoop_segment rooted s tail out dotdot fuel hs hrest hf]
      rcases htail with rfl | rfl
      · exact path.cleanLoop_nil _ _ _ _
      · rw [path.cleanLoop_slash rooted [] _ dotdot fuel (by simp at hf ⊢; omega)]
        exact path.cleanLoop_nil _ _ _ _
    · rw [path.joinSegments_cons s segs hsegs] at hf ⊢
      rw [List.append_assoc] at hf ⊢
      rw [path.cleanLoop_segment rooted s ('/' :: path.joinSegments segs ++ tail) out dotdot fuel hs
        (Or.inr rfl) hf]
      simp only [List.cons_append] at hf ⊢
      rw [path.cleanLoop_slash rooted _ _ dotdot fuel (by simp at hf ⊢; omega)]
      rw [ih hsegs (fun t ht => hall t (List.mem_cons_of_mem _ ht)) tail htail _ dotdot fuel
        (by simp at hf ⊢; omega)]
      rw [path.addSlash_addSlash rooted out s hsne]
      simp

theorem path.joinSegments_head (segs : List (List Char)) (h : segs ≠ [])
    (hall : ∀ s ∈ segs, path.isSegment s = true) :
    ∃ c t, c ≠ '/' ∧ path.joinSegments segs = c :: t := by
  cases segs with
  | nil => exact absurd rfl h
  | cons s segs =>
    obtain ⟨hne, hsl, _, _⟩ := (path.isSegment_iff s).1 (hall s (List.mem_cons_self _ _))
    cases s with
    | nil => exact absurd rfl hne
    | cons c t =>
      simp only [List.mem_cons, not_or] at hsl
      have hc : c ≠ '/' := fun e => hsl.1 e.symm
      cases segs with
      | nil => exact ⟨c, t, hc, rfl⟩
      | cons u us => exact ⟨c, t ++ '/' :: path.joinSegments (u :: us), hc, rfl⟩

theorem path.closed_addSlash (rooted : Bool) (out : List Char) (dotdot : Nat)
    (hinv : path.cleanInv rooted out dotdot) : path.closed (path.addSlash rooted out) := by
  unfold path.addSlash
  split_ifs with hc
  · exact Or.inr ⟨out, rfl⟩
  · cases rooted with
    | false =>
      simp only [Bool.false_and, Bool.not_false, Bool.true_and, Bool.false_or, bne_iff_ne, ne_eq,
        not_not] at hc
      exact Or.inl (List.length_eq_zero.1 hc)
    | true =>
      simp only [Bool.true_and, Bool.not_true, Bool.false_and, Bool.or_false, bne_iff_ne, ne_eq,
        not_not] at hc
      obtain ⟨hh, _⟩ := hinv rfl
      cases out with
      | nil => simp at hc
      | cons x xs =>
        simp only [List.head?_cons, Option.some.injEq] at hh
        simp only [List.length_cons, Nat.add_left_eq_self, List.length_eq_zero] at hc
        subst hh hc
        exact Or.inr ⟨[], rfl⟩

theorem path.Clean_rooted (p out : List Char)
    (h : path.cleanLoop true (p.length + 1) p ['/'] 1 = out) (hne : out ≠ []) :
    path.Clean ('/' :: p) = out := by
  have hl : (out.length == 0) = false := by
    simpa using hne
  unfold path.Clean
  simp only [List.isEmpty_cons, Bool.false_eq_true, if_false, List.head?_cons, beq_self_eq_true,
    if_true, List.tail_cons, List.length_cons, h, hl]

theorem path.Clean_unrooted (c : Char) (p out : List Char) (hc : c ≠ '/')
    (h : path.cleanLoop false (p.length + 1) (c :: p) [] 0 = out) (hne : out ≠ []) :
    path.Clean (c :: p) = out := by
  have hl : (out.length == 0) = false := by
    simpa using hne
  have hcb : ((some c : Option Char) == some '/') = false := by simpa using hc
  unfold path.Clean
  simp only [List.isEmpty_cons, Bool.false_eq_true, if_false, List.head?_cons, hcb,
    List.length_cons, h, hl]

/-- `Clean` leaves a clean path as it is, and drops one slash after it. -/
theorem path.Clean_cleanPath (rooted : Bool) (segs : List (List Char)) (hne : segs ≠ [])
    (hall : ∀ s ∈ segs, path.isSegment s = true) (tail : List Char)
    (htail : tail = [] ∨ tail = ['/']) :
    path.Clean (path.cleanPath rooted segs ++ tail) = path.cleanPath rooted segs := by
  obtain ⟨c, t, hc, hct⟩ := path.joinSegments_head segs hne hall
  cases rooted with
  | false =>
    have h := path.cleanLoop_segments false segs hne hall tail htail [] 0
      (path.joinSegments segs ++ tail).length (le_refl _)
    simp only [path.cleanPath, Bool.false_eq_true, if_false, List.nil_append]
    rw [hct] at h ⊢
    exact path.Clean_unrooted c (t ++ tail) _ hc h (by simp [path.addSlash])
  | true =>
    have h := path.cleanLoop_segments true segs hne hall tail htail ['/'] 1
      ((path.joinSegments segs ++ tail).length + 1) (by simp)
    simp only [path.cleanPath, if_true, List.singleton_append, List.cons_append]
    exact path.Clean_rooted _ _ h (by simp [path.addSlash])

/-- `Clean` of any prefix that ends at an element boundary, followed by real
path elements: the elements come out unchanged at the end of the result, after a
cleaned prefix that depends on the prefix alone. -/
theorem path.Clean_closed (x : List Char) (hx : path.closed x) :
    ∃ y, path.closed y ∧
      ∀ (segs : List (List Char)) (tail : List Char), segs ≠ [] →
        (∀ s ∈ segs, path.isSegment s = true) → (tail = [] ∨ tail = ['/']) →
        path.Clean (x ++ path.joinSegments segs ++ tail) = y ++ path.joinSegments segs := by
  cases x with
  | nil =>
    refine ⟨[], Or.inl rfl, ?_⟩
    intro segs tail hne hall htail
    have := path.Clean_cleanPath false segs hne hall tail htail
    simpa [path.cleanPath] using this
  | cons c x =>
    by_cases hc : c = '/'
    · subst hc
      have hx2 : path.closed x := by
        rcases hx with h | ⟨p, hp⟩
        · exact absurd h (by simp)
        · cases p with
          | nil =>
            simp only [List.nil_append, List.cons.injEq, true_and] at hp
            exact Or.inl hp
          | cons a p =>
            simp only [List.cons_append, List.cons.injEq] at hp
            exact Or.inr ⟨p, hp.2⟩
      obtain ⟨o1, d1, hinv1, h1⟩ := path.cleanLoop_closed true x.length x (le_refl _) hx2 ['/'] 1
        (fun _ => ⟨rfl, le_refl _⟩)
      refine ⟨path.addSlash true o1, path.closed_addSlash true o1 d1 hinv1, ?_⟩
      intro segs tail hne hall htail
      obtain ⟨a, t, _, hat⟩ := path.joinSegments_head segs hne hall
      simp only [List.cons_append, List.append_assoc]
      apply path.Clean_rooted
      · rw [h1 _ _ (by simp),
          path.cleanLoop_segments true segs hne hall tail htail o1 d1 _ (by simp; omega)]
      · simp [hat]
    · obtain ⟨o1, d1, hinv1, h1⟩ := path.cleanLoop_closed false (c :: x).length (c :: x) (le_refl _)
        hx [] 0 (fun h => absurd h (by decide))
      refine ⟨path.addSlash false o1, path.closed_addSlash false o1 d1 hinv1, ?_⟩
      intro segs tail hne hall htail
      obtain ⟨a, t, _, hat⟩ := path.joinSegments_head segs hne hall
      simp only [List.cons_append, List.append_assoc]
      apply path.Clean_unrooted c _ _ hc
      · rw [← List.cons_append, h1 _ _ (by simp),
          path.cleanLoop_segments false segs hne hall tail htail o1 d1 _ (by simp; omega)]
      · simp [hat]

/-! ## Clean paths and their parts -/

theorem path.not_mem_of_isSegment (s : List Char) (h : path.isSegment s = true) : '/' ∉ s :=
  ((path.isSegment_iff s).1 h).2.1

theorem path.ne_nil_of_isSegment (s : List Char) (h : path.isSegment s = true) : s ≠ [] :=
  ((path.isSegment_iff s).1 h).1

theorem path.joinSegments_append (pre post : List (List Char)) (hpre : pre ≠ [])
    (hpost : post ≠ []) :
    path.joinSegments (pre ++ post) = path.joinSegments pre ++ '/' :: path.joinSegments post := by
  induction pre with
  | nil => exact absurd rfl hpre
  | cons s pre ih =>
    by_cases h : pre = []
    · subst h
      simp only [List.singleton_append, path.joinSegments_cons s post hpost]
      rfl
    · rw [List.cons_append, path.joinSegments_cons s (pre ++ post) (by simp [h]),
        path.joinSegments_cons s pre h, ih h]
      simp

theorem path.cleanPath_append (rooted : Bool) (pre post : List (List Char)) (hpost : post ≠ []) :
    path.cleanPath rooted (pre ++ post) = path.dirPrefix rooted pre ++ path.joinSegments post := by
  cases pre with
  | nil => rfl
  | cons s pre =>
    simp only [path.cleanPath, path.dirPrefix, List.isEmpty_cons, Bool.false_eq_true, if_false]
    rw [path.joinSegments_append (s :: pre) post (by simp) hpost]
    simp

theorem path.closed_dirPrefix (rooted : Bool) (pre : List (List Char)) :
    path.closed (path.dirPrefix rooted pre) := by
  unfold path.dirPrefix
  split_ifs
  · exact Or.inr ⟨[], rfl⟩
  · exact Or.inl rfl
  · exact Or.inr ⟨_, rfl⟩

theorem path.Base_closed_segment (y g : List Char) (hy : path.closed y) (hg : g ≠ [])
    (hsl : '/' ∉ g) : path.Base (y ++ g) = g := by
  rcases hy with rfl | ⟨q, rfl⟩
  · exact path.Base_segment g hg hsl
  · rw [List.append_assoc]
    exact path.Base_append q g hg hsl

theorem path.Split_closed (x leaf : List Char) (hx : path.closed x) (hl : '/' ∉ leaf) :
    path.Split (x ++ leaf) = (x, leaf) := by
  rcases hx with rfl | ⟨q, rfl⟩
  · exact path.Split_not_mem leaf hl
  · rw [List.append_assoc]
    exact path.Split_append q leaf hl

/-! ## The event filters -/

theorem registry.prefixName_closed (x g p leaf : List Char) (hx : path.closed x)
    (hg : path.isSegment g = true) (hp : '/' ∉ p) (hl : '/' ∉ leaf) :
    path.Split (x ++ g ++ '/' :: (p ++ '/' :: leaf)) = (x ++ g ++ '/' :: p ++ ['/'], leaf) ∧
      registry.prefixName (x ++ g ++ '/' :: (p ++ '/' :: leaf)) = g := by
  have e1 : x ++ g ++ '/' :: (p ++ '/' :: leaf) = (x ++ g ++ '/' :: p) ++ '/' :: leaf := by simp
  have hs1 : path.Split (x ++ g ++ '/' :: (p ++ '/' :: leaf)) = (x ++ g ++ '/' :: p ++ ['/'], leaf) := by
    rw [e1]
    exact path.Split_append _ leaf hl
  refine ⟨hs1, ?_⟩
  obtain ⟨y, hy, hclean⟩ := path.Clean_closed x hx
  have hc := hclean [g] ['/'] (by simp) (by simpa using hg) (Or.inr rfl)
  simp only [path.joinSegments] at hc
  unfold registry.prefixName path.Dir
  rw [hs1]
  simp only
  rw [strings.TrimSuffix_append, path.Split_append (x ++ g) p hp]
  simp only
  rw [hc]
  exact path.Base_closed_segment y g hy (path.ne_nil_of_isSegment g hg)
    (path.not_mem_of_isSegment g hg)

theorem registry.prefixName_short (key : List Char)
    (h : (path.Split key).1 = [] ∨ (path.Split key).1 = ['/']) :
    registry.prefixName key = ['.'] := by
  unfold registry.prefixName
  rcases h with h | h <;> rw [h] <;> rfl

theorem registry.prefixName_two (rooted : Bool) (p leaf : List Char) (hp : '/' ∉ p)
    (hl : '/' ∉ leaf) :
    registry.prefixName (path.cleanPath rooted [p, leaf]) ≠ registry.machinePrefix := by
  have hs : path.Split (path.cleanPath rooted [p, leaf]) =
      ((if rooted then ['/'] else []) ++ p ++ ['/'], leaf) := by
    have := path.Split_append ((if rooted then ['/'] else []) ++ p) leaf hl
    simpa [path.cleanPath, path.joinSegments] using this
  unfold registry.prefixName path.Dir
  rw [hs]
  simp only
  rw [strings.TrimSuffix_append]
  cases rooted with
  | false =>
    simp only [Bool.false_eq_true, if_false, List.nil_append]
    rw [path.Split_not_mem p hp]
    show path.Base (path.Clean []) ≠ registry.machinePrefix
    decide
  | true =>
    simp only [if_true]
    rw [show ['/'] ++ p = [] ++ '/' :: p from rfl, path.Split_append [] p hp]
    show path.Base (path.Clean ['/']) ≠ registry.machinePrefix
    decide

theorem registry.filterEventMachineCreated_none (cd : registry.Codec) (resp : etcd.Response)
    (h : (path.Split resp.Node.Key).2 ≠ "object".toList ∨
      registry.prefixName resp.Node.Key ≠ registry.machinePrefix) :
    registry.filterEventMachineCreated cd resp = none := by
  unfold registry.filterEventMachineCreated
  simp only [bne_iff_ne, ne_eq, ite_not]
  rcases h with h | h
  · rw [if_neg h]
  · split_ifs with h1 h2
    · exact absurd h2 h
    · rfl
    · rfl
    · rfl

theorem registry.filterEventMachineRemoved_none (resp : etcd.Response)
    (h : (path.Split resp.Node.Key).2 ≠ "object".toList ∨
      registry.prefixName resp.Node.Key ≠ registry.machinePrefix) :
    registry.filterEventMachineRemoved resp = none := by
  unfold registry.filterEventMachineRemoved
  simp only [bne_iff_ne, ne_eq, ite_not]
  rcases h with h | h
  · rw [if_neg h]
  · rw [if_neg (show ¬ (path.Base (path.Dir (strings.TrimSuffix (path.Split resp.Node.Key).1
      ['/'])) = registry.machinePrefix) from h)]
    split_ifs <;> rfl

theorem registry.filterEventMachineCreated_some (cd : registry.Codec) (resp : etcd.Response)
    (h1 : (path.Split resp.Node.Key).2 = "object".toList)
    (h2 : registry.prefixName resp.Node.Key = registry.machinePrefix)
    (h3 : resp.Action = "create".toList) :
    registry.filterEventMachineCreated cd resp =
      some ⟨"EventMachineCreated".toList,
        event.Payload.machineState (cd.unmarshal resp.Node.Value machine.MachineState.zero).1,
        none⟩ := by
  unfold registry.prefixName at h2
  unfold registry.filterEventMachineCreated
  simp only [bne_iff_ne, ne_eq, ite_not, h1, h2, h3, if_true]

theorem registry.filterEventMachineRemoved_some (resp : etcd.Response)
    (h1 : (path.Split resp.Node.Key).2 = "object".toList)
    (h2 : registry.prefixName resp.Node.Key = registry.machinePrefix)
    (h3 : resp.Action = "delete".toList ∨ resp.Action = "expire".toList) :
    registry.filterEventMachineRemoved resp =
      some ⟨"EventMachineRemoved".toList,
        event.Payload.machineID (path.Base (path.Dir resp.Node.Key)), none⟩ := by
  unfold registry.prefixName at h2
  unfold registry.filterEventMachineRemoved
  have h4 : (resp.Action != "expire".toList && resp.Action != "delete".toList) = false := by
    rcases h3 with h | h <;> rw [h] <;> decide
  rw [if_neg (by simp [h1]), if_neg (by simp [h2]), if_neg (by rw [h4]; decide)]

/-- The parts of a clean key with at least three segments that the filters
look at: the leaf, the segment two levels above it, and the base name of the
leaf's directory. -/
theorem registry.cleanKey_parts (rooted : Bool) (pre : List (List Char)) (g p leaf : List Char)
    (hg : path.isSegment g = true) (hp : path.isSegment p = true)
    (hl : path.isSegment leaf = true) :
    (path.Split (path.cleanPath rooted (pre ++ [g, p, leaf]))).2 = leaf ∧
      registry.prefixName (path.cleanPath rooted (pre ++ [g, p, leaf])) = g ∧
      path.Base (path.Dir (path.cleanPath rooted (pre ++ [g, p, leaf]))) = p := by
  have hx := path.closed_dirPrefix rooted pre
  have e : path.cleanPath rooted (pre ++ [g, p, leaf]) =
      path.dirPrefix rooted pre ++ g ++ '/' :: (p ++ '/' :: leaf) := by
    rw [path.cleanPath_append rooted pre [g, p, leaf] (by simp)]
    simp [path.joinSegments]
  obtain ⟨hs, hpn⟩ := registry.prefixName_closed (path.dirPrefix rooted pre) g p leaf hx hg
    (path.not_mem_of_isSegment p hp) (path.not_mem_of_isSegment leaf hl)
  rw [e]
  refine ⟨by rw [hs], hpn, ?_⟩
  unfold path.Dir
  rw [hs]
  simp only
  obtain ⟨y, hy, hclean⟩ := path.Clean_closed (path.dirPrefix rooted pre) hx
  have hc := hclean [g, p] ['/'] (by simp)
    (by intro s hs; simp only [List.mem_cons, List.mem_singleton, List.not_mem_nil, or_false] at hs
        rcases hs with rfl | rfl <;> assumption) (Or.inr rfl)
  simp only [path.joinSegments] at hc
  have e2 : path.dirPrefix rooted pre ++ g ++ '/' :: p ++ ['/'] =
      path.dirPrefix rooted pre ++ (g ++ '/' :: p) ++ ['/'] := by simp
  rw [e2, hc]
  have e3 : y ++ (g ++ '/' :: p) = (y ++ g ++ ['/']) ++ p := by simp
  rw [e3]
  exact path.Base_closed_segment _ p (Or.inr ⟨_, rfl⟩) (path.ne_nil_of_isSegment p hp)
    (path.not_mem_of_isSegment p hp)

theorem registry.cleanKey_outside (rooted : Bool) (segs : List (List Char))
    (hsegs : ∀ s ∈ segs, path.isSegment s = true)
    (h : segs.getLast? ≠ some "object".toList ∨
      segs.dropLast.dropLast.getLast? ≠ some "machines".toList) :
    (path.Split (path.cleanPath rooted segs)).2 ≠ "object".toList ∨
      registry.prefixName (path.cleanPath rooted segs) ≠ registry.machinePrefix := by
  rcases List.eq_nil_or_concat segs with rfl | ⟨s1, leaf, rfl⟩
  · left
    cases rooted <;> decide
  rw [List.concat_eq_append] at hsegs h ⊢
  have hleaf : path.isSegment leaf = true := hsegs leaf (by simp)
  rcases List.eq_nil_or_concat s1 with rfl | ⟨s2, p, rfl⟩
  · right
    have hs : path.Split (path.cleanPath rooted ([] ++ [leaf])) =
        (if rooted then ['/'] else [], leaf) := by
      have hc : path.closed (if rooted then ['/'] else []) := by
        cases rooted
        · exact Or.inl rfl
        · exact Or.inr ⟨[], rfl⟩
      exact path.Split_closed _ leaf hc (path.not_mem_of_isSegment leaf hleaf)
    rw [registry.prefixName_short _ (by rw [hs]; cases rooted <;> simp)]
    decide
  rw [List.concat_eq_append] at hsegs h ⊢
  have hp : path.isSegment p = true := hsegs p (by simp)
  rcases List.eq_nil_or_concat s2 with rfl | ⟨pre, g, rfl⟩
  · right
    exact registry.prefixName_two rooted p leaf (path.not_mem_of_isSegment p hp)
      (path.not_mem_of_isSegment leaf hleaf)
  rw [List.concat_eq_append] at hsegs h ⊢
  have hg : path.isSegment g = true := hsegs g (by simp)
  have e : pre ++ [g] ++ [p] ++ [leaf] = pre ++ [g, p, leaf] := by simp
  obtain ⟨h1, h2, _⟩ := registry.cleanKey_parts rooted pre g p leaf hg hp hleaf
  rw [e, h1, h2]
  simp only [List.getLast?_concat, List.dropLast_concat, ne_eq, Option.some.injEq] at h
  rcases h with h | h
  · exact Or.inl h
  · exact Or.inr h

/-! ## The key of a machine's record -/

theorem path.Join_object (pfx id : List Char) (hid : path.isSegment id = true) :
    ∃ y, path.closed y ∧
      path.Join [pfx, "machines".toList, id, "object".toList] =
        y ++ "machines".toList ++ '/' :: (id ++ '/' :: "object".toList) ∧
      path.Join [pfx, "machines".toList] = y ++ "machines".toList := by
  have hidne : id ≠ [] := path.ne_nil_of_isSegment id hid
  have hx : path.closed (if pfx.length > 0 then pfx ++ ['/'] else []) := by
    split_ifs
    · exact Or.inr ⟨pfx, rfl⟩
    · exact Or.inl rfl
  obtain ⟨y, hy, hclean⟩ := path.Clean_closed _ hx
  refine ⟨y, hy, ?_, ?_⟩
  · have h := hclean ["machines".toList, id, "object".toList] [] (by simp)
      (by
        intro s hs
        simp only [List.mem_cons, List.mem_singleton, List.not_mem_nil, or_false] at hs
        rcases hs with rfl | rfl | rfl
        · decide
        · exact hid
        · decide) (Or.inl rfl)
    simp only [path.joinSegments, List.append_nil] at h
    unfold path.Join
    rw [if_neg (by simp [List.sum_cons])]
    simp only [List.foldl_cons, List.foldl_nil, List.length_nil, gt_iff_lt, lt_self_iff_false,
      decide_False, Bool.false_or, if_false, List.nil_append]
    by_cases hp : pfx = []
    · subst hp
      simp only [List.length_nil, lt_self_iff_false, if_false, List.nil_append] at h
      rw [← List.append_assoc] at h
      rw [← h]
      simp
    · have hl : 0 < pfx.length := List.length_pos.2 hp
      simp only [gt_iff_lt, hl, if_true] at h
      rw [← List.append_assoc y] at h
      rw [← h]
      simp [hp, hl]
  · have h := hclean ["machines".toList] [] (by simp) (by simp; decide) (Or.inl rfl)
    simp only [path.joinSegments, List.append_nil] at h
    unfold path.Join
    rw [if_neg (by simp [List.sum_cons])]
    simp only [List.foldl_cons, List.foldl_nil, List.length_nil, gt_iff_lt, lt_self_iff_false,
      decide_False, Bool.false_or, if_false, List.nil_append]
    by_cases hp : pfx = []
    · subst hp
      simp only [List.length_nil, lt_self_iff_false, if_false, List.nil_append] at h
      rw [← h]
      simp
    · have hl : 0 < pfx.length := List.length_pos.2 hp
      simp only [gt_iff_lt, hl, if_true] at h
      rw [← h]
      simp [hp, hl]

theorem etcd.closed_nodeKey (y rest : List Char) (hy : path.closed y) :
    ∃ x, path.closed x ∧ etcd.nodeKey (y ++ rest) = x ++ rest := by
  unfold etcd.nodeKey
  split_ifs with h
  · exact ⟨y, hy, rfl⟩
  · refine ⟨'/' :: y, ?_, rfl⟩
    rcases hy with rfl | ⟨q, rfl⟩
    · exact Or.inr ⟨[], rfl⟩
    · exact Or.inr ⟨'/' :: q, rfl⟩

/-- The notification of a create of a machine's record, under the key that
`SetMachineState` writes, passes both guards of the filters. -/
theorem registry.objectKey_parts (pfx id : List Char) (hid : path.isSegment id = true) :
    (path.Split (etcd.nodeKey
        (path.Join [pfx, "machines".toList, id, "object".toList]))).2 = "object".toList ∧
      registry.prefixName (etcd.nodeKey
        (path.Join [pfx, "machines".toList, id, "object".toList])) = registry.machinePrefix := by
  obtain ⟨y, hy, hj, _⟩ := path.Join_object pfx id hid
  obtain ⟨x, hx, hn⟩ := etcd.closed_nodeKey y
    ("machines".toList ++ '/' :: (id ++ '/' :: "object".toList)) hy
  rw [List.append_assoc] at hj
  rw [hj, hn]
  obtain ⟨h1, h2⟩ := registry.prefixName_closed x "machines".toList id "object".toList hx
    (by decide) (path.not_mem_of_isSegment id hid) (by decide)
  rw [← List.append_assoc]
  exact ⟨by rw [h1], h2⟩

theorem path.cleanPath_ne_nil (rooted : Bool) (segs : List (List Char)) (hne : segs ≠ [])
    (hall : ∀ s ∈ segs, path.isSegment s = true) : path.cleanPath rooted segs ≠ [] := by
  obtain ⟨c, t, _, hct⟩ := path.joinSegments_head segs hne hall
  unfold path.cleanPath
  rw [hct]
  cases rooted <;> simp

/-- With a clean key prefix of at least one segment, the machines directory is
the prefix followed by `/machines`. -/
theorem path.Join_clean_machines (rooted : Bool) (segs : List (List Char)) (hne : segs ≠ [])
    (hall : ∀ s ∈ segs, path.isSegment s = true) :
    path.Join [path.cleanPath rooted segs, "machines".toList] =
      path.cleanPath rooted segs ++ "/machines".toList := by
  have hp : path.cleanPath rooted segs ≠ [] := path.cleanPath_ne_nil rooted segs hne hall
  have hl : 0 < (path.cleanPath rooted segs).length := List.length_pos.2 hp
  have hc := path.Clean_cleanPath rooted (segs ++ ["machines".toList]) (by simp)
    (by
      intro s hs
      rcases List.mem_append.1 hs with h | h
      · exact hall s h
      · simp only [List.mem_singleton] at h
        subst h
        decide) [] (Or.inl rfl)
  have e : path.cleanPath rooted (segs ++ ["machines".toList]) =
      path.cleanPath rooted segs ++ "/machines".toList := by
    unfold path.cleanPath
    rw [path.joinSegments_append segs ["machines".toList] hne (by simp)]
    simp [path.joinSegments]
  rw [List.append_nil, e] at hc
  unfold path.Join
  rw [if_neg (by simp [List.sum_cons])]
  simp only [List.foldl_cons, List.foldl_nil, List.length_nil, gt_iff_lt, lt_self_iff_false,
    decide_False, Bool.false_or, if_false, List.nil_append]
  have hb : (path.cleanPath rooted segs != []) = true := by simpa using hp
  simp only [hb, if_true, hl, decide_True, Bool.true_or]
  rw [List.append_assoc]
  exact hc

/-! ## `SetMachineState`, step by step -/

theorem registry.SetMachineState_update {σ : Type} (cd : registry.Codec)
    (r : registry.EtcdRegistry σ) (s s1 : σ) (tr : List etcd.Call) (ms : machine.MachineState)
    (ttl : Int) (resp : etcd.Response) (hm : (cd.marshal ms).2 = none)
    (hu : r.etcd.Update s (path.Join [r.keyPrefix, registry.machinePrefix, ms.ID, "object".toList])
      (cd.marshal ms).1 (registry.ttlSeconds ttl) = (.ok resp, s1)) :
    registry.SetMachineState cd r ⟨s, tr⟩ ms ttl =
      ((resp.Node.ModifiedIndex, none),
        ⟨s1, tr ++ [etcd.Call.update
          (path.Join [r.keyPrefix, registry.machinePrefix, ms.ID, "object".toList])
          (cd.marshal ms).1 (registry.ttlSeconds ttl)]⟩) := by
  unfold registry.SetMachineState
  simp only [hm, registry.EtcdRegistry.Update, hu]

theorem registry.SetMachineState_fallback {σ : Type} (cd : registry.Codec)
    (r : registry.EtcdRegistry σ) (s s1 : σ) (tr : List etcd.Call) (ms : machine.MachineState)
    (ttl : Int) (e : etcd.Error) (hm : (cd.marshal ms).2 = none)
    (hu : r.etcd.Update s (path.Join [r.keyPrefix, registry.machinePrefix, ms.ID, "object".toList])
      (cd.marshal ms).1 (registry.ttlSeconds ttl) = (.error e, s1)) :
    registry.SetMachineState cd r ⟨s, tr⟩ ms ttl =
      (match (r.etcd.Create s1
          (path.Join [r.keyPrefix, registry.machinePrefix, ms.ID, "object".toList])
          (cd.marshal ms).1 (registry.ttlSeconds ttl)).1 with
        | .error err => (0, some err)
        | .ok resp => (resp.Node.ModifiedIndex, none),
        ⟨(r.etcd.Create s1
          (path.Join [r.keyPrefix, registry.machinePrefix, ms.ID, "object".toList])
          (cd.marshal ms).1 (registry.ttlSeconds ttl)).2,
          tr ++ [etcd.Call.update
            (path.Join [r.keyPrefix, registry.machinePrefix, ms.ID, "object".toList])
            (cd.marshal ms).1 (registry.ttlSeconds ttl),
          etcd.Call.create
            (path.Join [r.keyPrefix, registry.machinePrefix, ms.ID, "object".toList])
            (cd.marshal ms).1 (registry.ttlSeconds ttl)]⟩) := by
  unfold registry.SetMachineState
  simp only [hm, registry.EtcdRegistry.Update, registry.EtcdRegistry.Create, hu]
  split <;> simp_all

/-! ## The in-memory store keeps the laws -/

theorem etcd.MemStore.lookup_map (leaves : List (List Char × List Char × Nat)) (k v : List Char)
    (i : Nat) (h : (leaves.find? (fun e => e.1 == k)).isSome = true) :
    ((leaves.map (fun e => if e.1 == k then (e.1, v, i) else e)).find?
      (fun e => e.1 == k)).isSome = true := by
  induction leaves with
  | nil => simp at h
  | cons e es ih =>
    by_cases he : (e.1 == k) = true
    · simp [List.find?, he]
    · have he2 : (e.1 == k) = false := by simpa using he
      simp only [List.find?, he2] at h
      simp only [List.map_cons, he2, Bool.false_eq_true, if_false, List.find?]
      exact ih h

theorem etcd.MemStore.lookup_append (leaves : List (List Char × List Char × Nat))
    (k v : List Char) (i : Nat) :
    ((leaves ++ [(k, v, i)]).find? (fun e => e.1 == k)).isSome = true := by
  induction leaves with
  | nil => simp [List.find?]
  | cons e es ih =>
    by_cases he : (e.1 == k) = true
    · simp [List.find?, he]
    · have he2 : (e.1 == k) = false := by simpa using he
      simp only [List.cons_append, List.find?, he2]
      exact ih

/-- The in-memory store is a store as the claims on `SetMachineState` assume
it. -/
theorem etcd.memClient_lawful :
    etcd.Lawful etcd.memClient (fun s key => (s.lookup key).isSome) (fun s => s.index) where
  update_present := by
    intro s key value ttl h
    obtain ⟨e, he⟩ := Option.isSome_iff_exists.1 h
    refine ⟨etcd.Node.mk (etcd.nodeKey key) value (s.index + 1) [],
      ⟨s.index + 1, s.leaves.map (fun e =>
        if e.1 == etcd.nodeKey key then (e.1, value, s.index + 1) else e)⟩,
      ?_, rfl, rfl, Nat.lt_succ_self _, rfl, ?_⟩
    · simp only [etcd.memClient, he]
    · exact etcd.MemStore.lookup_map s.leaves (etcd.nodeKey key) value (s.index + 1) h
  update_absent := by
    intro s key value ttl h
    have hn : s.lookup key = none := by
      cases hl : s.lookup key with
      | none => rfl
      | some e => simp [hl] at h
    refine ⟨"Key not found".toList, s, ?_, h, le_refl _⟩
    simp only [etcd.memClient, hn]
  create_absent := by
    intro s key value ttl h
    have hn : s.lookup key = none := by
      cases hl : s.lookup key with
      | none => rfl
      | some e => simp [hl] at h
    refine ⟨etcd.Node.mk (etcd.nodeKey key) value (s.index + 1) [],
      ⟨s.index + 1, s.leaves ++ [(etcd.nodeKey key, value, s.index + 1)]⟩,
      ?_, rfl, rfl, Nat.lt_succ_self _, rfl, ?_⟩
    · simp only [etcd.memClient, hn]
    · exact etcd.MemStore.lookup_append s.leaves (etcd.nodeKey key) value (s.index + 1)

theorem etcd.MemStore.lookup_filter (leaves : List (List Char × List Char × Nat)) (k : List Char) :
    (leaves.filter (fun e => e.1 != k)).find? (fun e => e.1 == k) = none := by
  induction leaves with
  | nil => rfl
  | cons e es ih =>
    by_cases he : e.1 = k
    · simp only [List.filter, he, bne_self_eq_false]
      exact ih
    · have h1 : (e.1 != k) = true := by simpa using he
      have h2 : (e.1 == k) = false := by simpa using he
      simp only [List.filter, h1, List.find?, h2]
      exact ih

/-- The in-memory store deletes as the claims on `RemoveMachineState` assume. -/
theorem etcd.memClient_lawfulDelete :
    etcd.LawfulDelete etcd.memClient (fun s key => (s.lookup key).isSome) where
  delete_present := by
    intro s key recursive h
    obtain ⟨e, he⟩ := Option.isSome_iff_exists.1 h
    refine ⟨⟨"delete".toList, etcd.Node.mk (etcd.nodeKey key) [] (s.index + 1) []⟩,
      ⟨s.index + 1, s.leaves.filter (fun e => e.1 != etcd.nodeKey key)⟩, ?_, ?_⟩
    · simp only [etcd.memClient, he]
    · show ((s.leaves.filter (fun e => e.1 != etcd.nodeKey key)).find?
        (fun e => e.1 == etcd.nodeKey key)).isSome = false
      rw [etcd.MemStore.lookup_filter]
      rfl
  delete_absent := by
    intro s key recursive h
    have hn : s.lookup key = none := by
      cases hl : s.lookup key with
      | none => rfl
      | some e => simp [hl] at h
    refine ⟨"Key not found".toList, s, ?_, h⟩
    simp only [etcd.memClient, hn]

theorem etcd.MemStore.lookup_map_value (leaves : List (List Char × List Char × Nat))
    (k v : List Char) (i : Nat) (x : List Char × List Char × Nat)
    (h : (leaves.map (fun e => if e.1 == k then (e.1, v, i) else e)).find?
      (fun e => e.1 == k) = some x) : x.2.1 = v := by
  induction leaves with
  | nil => simp at h
  | cons e es ih =>
    by_cases he : (e.1 == k) = true
    · simp only [List.map_cons, he, if_true, List.find?] at h
      simp only [Option.some.injEq] at h
      rw [← h]
    · have he2 : (e.1 == k) = false := by simpa using he
      simp only [List.map_cons, he2, Bool.false_eq_true, if_false, List.find?] at h
      exact ih h

/-- The in-memory store returns to a read what the last write wrote. -/
theorem etcd.memClient_readsOwnWrites : etcd.ReadsOwnWrites etcd.memClient where
  update_then_get := by
    intro s s1 key value ttl resp h
    simp only [etcd.memClient] at h
    cases hl : s.lookup key with
    | none => simp [hl] at h
    | some e =>
      simp only [hl, Prod.mk.injEq] at h
      obtain ⟨_, hs1⟩ := h
      have hsome := etcd.MemStore.lookup_map s.leaves (etcd.nodeKey key) value (s.index + 1)
        (by
          have : s.leaves.find? (fun e => e.1 == etcd.nodeKey key) = some e := hl
          rw [this]; rfl)
      obtain ⟨x, hx⟩ := Option.isSome_iff_exists.1 hsome
      have hv := etcd.MemStore.lookup_map_value s.leaves (etcd.nodeKey key) value (s.index + 1) x hx
      have hl1 : s1.lookup key = some x := by
        rw [← hs1]
        exact hx
      refine ⟨⟨"get".toList, etcd.Node.mk x.1 x.2.1 x.2.2 []⟩, s1, ?_, hv⟩
      simp only [etcd.memClient, hl1]
  create_then_get := by
    intro s s1 key value ttl resp h
    simp only [etcd.memClient] at h
    cases hl : s.lookup key with
    | some e => simp [hl] at h
    | none =>
      simp only [hl, Prod.mk.injEq] at h
      obtain ⟨_, hs1⟩ := h
      have hl1 : s1.lookup key = some (etcd.nodeKey key, value, s.index + 1) := by
        rw [← hs1]
        have : s.leaves.find? (fun e => e.1 == etcd.nodeKey key) = none := hl
        simp only [etcd.MemStore.lookup, List.find?_append, this, Option.none_or, List.find?,
          beq_self_eq_true]
      refine ⟨⟨"get".toList, etcd.Node.mk (etcd.nodeKey key) value (s.index + 1) []⟩, s1, ?_, rfl⟩
      simp only [etcd.memClient, hl1]

theorem registry.GetMachineState_found {σ : Type} (cd : registry.Codec)
    (r : registry.EtcdRegistry σ) (w : registry.World σ) (machID : List Char)
    (resp : etcd.Response) (m : machine.MachineState)
    (hget : (r.etcd.Get w.store
      (path.Join [r.keyPrefix, registry.machinePrefix, machID, "object".toList]) false true).1 =
      .ok resp)
    (hdec : cd.unmarshal resp.Node.Value machine.MachineState.zero = (m, none)) :
    (registry.GetMachineState cd r w machID).1 = (some m, none) := by
  unfold registry.GetMachineState registry.EtcdRegistry.Get
  simp only [hget, hdec]

/-! ## The claims -/

/-- C1. For every name, `RecognizedUnitType name` is true if and only if `name`
ends with `.` immediately followed by one of the seven words service, socket,
timer, path, device, mount, automount. -/
theorem unit.RecognizedUnitType_iff_suffix (name : List Char) :
    unit.RecognizedUnitType name = true ↔
      ∃ pre w, w ∈ unit.recognizedTypes ∧ name = pre ++ '.' :: w := by
  unfold unit.RecognizedUnitType unit.recognizedTypes
  simp only [List.any_cons, List.any_nil, Bool.or_false, Bool.or_eq_true, strings.HasSuffix_iff]
  constructor
  · intro h
    rcases h with ⟨p, h⟩ | ⟨p, h⟩ | ⟨p, h⟩ | ⟨p, h⟩ | ⟨p, h⟩ | ⟨p, h⟩ | ⟨p, h⟩ <;>
      exact ⟨p, _, by simp, h⟩
  · rintro ⟨p, w, hw, rfl⟩
    simp only [List.mem_cons, List.mem_singleton, List.not_mem_nil, or_false] at hw
    rcases hw with rfl | rfl | rfl | rfl | rfl | rfl | rfl
    · exact Or.inl ⟨p, rfl⟩
    · exact Or.inr (Or.inl ⟨p, rfl⟩)
    · exact Or.inr (Or.inr (Or.inl ⟨p, rfl⟩))
    · exact Or.inr (Or.inr (Or.inr (Or.inl ⟨p, rfl⟩)))
    · exact Or.inr (Or.inr (Or.inr (Or.inr (Or.inl ⟨p, rfl⟩))))
    · exact Or.inr (Or.inr (Or.inr (Or.inr (Or.inr (Or.inl ⟨p, rfl⟩)))))
    · exact Or.inr (Or.inr (Or.inr (Or.inr (Or.inr (Or.inr ⟨p, rfl⟩)))))

/-- C2. For every notification whose key is a clean slash-separated path (all
segments non-empty and none of them `.` or `..`), whatever its action and value:
if the last segment of the key is not `object`, or the segment two levels above
the leaf is not `machines` (or does not exist), then `filterEventMachineCreated`
and `filterEventMachineRemoved` both return no event. -/
theorem registry.filters_drop_other_keys (cd : registry.Codec) (resp : etcd.Response)
    (rooted : Bool) (segs : List (List Char))
    (hkey : resp.Node.Key = path.cleanPath rooted segs)
    (hsegs : ∀ s ∈ segs, path.isSegment s = true)
    (h : segs.getLast? ≠ some "object".toList ∨
      segs.dropLast.dropLast.getLast? ≠ some "machines".toList) :
    registry.filterEventMachineCreated cd resp = none ∧
      registry.filterEventMachineRemoved resp = none := by
  have hout := registry.cleanKey_outside rooted segs hsegs h
  rw [← hkey] at hout
  exact ⟨registry.filterEventMachineCreated_none cd resp hout,
    registry.filterEventMachineRemoved_none resp hout⟩

/-- A create notification for a job object, outside the `machines` family, is
dropped by both filters. -/
theorem registry.filters_drop_other_keys_witness :
    (∀ s ∈ ["fleet".toList, "jobs".toList, "j1".toList, "object".toList],
        path.isSegment s = true) ∧
      (["fleet".toList, "jobs".toList, "j1".toList, "object".toList].getLast? ≠
          some "object".toList ∨
        ["fleet".toList, "jobs".toList, "j1".toList, "object".toList].dropLast.dropLast.getLast? ≠
          some "machines".toList) ∧
      registry.filterEventMachineCreated registry.lineCodec
          ⟨"create".toList, etcd.Node.mk "/fleet/jobs/j1/object".toList "a,b,c".toList 4 []⟩ =
        none ∧
      registry.filterEventMachineRemoved
          ⟨"create".toList, etcd.Node.mk "/fleet/jobs/j1/object".toList "a,b,c".toList 4 []⟩ =
        none :=
  ⟨by decide, by decide,
    registry.filters_drop_other_keys registry.lineCodec
      ⟨"create".toList, etcd.Node.mk "/fleet/jobs/j1/object".toList "a,b,c".toList 4 []⟩ true
      ["fleet".toList, "jobs".toList, "j1".toList, "object".toList] (by rfl) (by decide)
      (by decide)⟩

/-- C3. For every notification with action `create` whose key is a clean path
of the form `<dir>/machines/<id>/object` and whose value decodes to a machine
state `m`, `filterEventMachineCreated` returns an event of type
`EventMachineCreated` whose payload is `m`. -/
theorem registry.filterEventMachineCreated_create (cd : registry.Codec) (resp : etcd.Response)
    (rooted : Bool) (dir : List (List Char)) (id : List Char) (m : machine.MachineState)
    (hkey : resp.Node.Key =
      path.cleanPath rooted (dir ++ ["machines".toList, id, "object".toList]))
    (hsegs : ∀ s ∈ dir ++ ["machines".toList, id, "object".toList], path.isSegment s = true)
    (haction : resp.Action = "create".toList)
    (hdecode : cd.unmarshal resp.Node.Value machine.MachineState.zero = (m, none)) :
    registry.filterEventMachineCreated cd resp =
      some ⟨"EventMachineCreated".toList, event.Payload.machineState m, none⟩ := by
  obtain ⟨h1, h2, _⟩ := registry.cleanKey_parts rooted dir "machines".toList id "object".toList
    (by decide) (hsegs id (by simp)) (by decide)
  rw [← hkey] at h1 h2
  rw [registry.filterEventMachineCreated_some cd resp h1 h2 haction, hdecode]

/-- A create notification for machine `m1` below `/fleet/machines` becomes the
created event that carries the decoded state. -/
theorem registry.filterEventMachineCreated_create_witness :
    (∀ s ∈ ["fleet".toList] ++ ["machines".toList, "m1".toList, "object".toList],
        path.isSegment s = true) ∧
      registry.lineCodec.unmarshal "m1,10.0.0.1,1.0".toList machine.MachineState.zero =
        (⟨"m1".toList, "10.0.0.1".toList, [], "1.0".toList⟩, none) ∧
      registry.filterEventMachineCreated registry.lineCodec
          ⟨"create".toList,
            etcd.Node.mk "/fleet/machines/m1/object".toList "m1,10.0.0.1,1.0".toList 4 []⟩ =
        some ⟨"EventMachineCreated".toList,
          event.Payload.machineState ⟨"m1".toList, "10.0.0.1".toList, [], "1.0".toList⟩, none⟩ :=
  ⟨by decide, by decide,
    registry.filterEventMachineCreated_create registry.lineCodec
      ⟨"create".toList,
        etcd.Node.mk "/fleet/machines/m1/object".toList "m1,10.0.0.1,1.0".toList 4 []⟩
      true ["fleet".toList] "m1".toList ⟨"m1".toList, "10.0.0.1".toList, [], "1.0".toList⟩
      (by rfl) (by decide) (by rfl) (by decide)⟩

/-- C4. For every notification with action `delete` or `expire` whose key is a
clean path of the form `<dir>/machines/<id>/object`, `filterEventMachineRemoved`
returns an event of type `EventMachineRemoved` whose payload is exactly the
segment `<id>`, whatever the node's value; `delete` and `expire` give the same
event. -/
theorem registry.filterEventMachineRemoved_remove (resp : etcd.Response)
    (rooted : Bool) (dir : List (List Char)) (id : List Char)
    (hkey : resp.Node.Key =
      path.cleanPath rooted (dir ++ ["machines".toList, id, "object".toList]))
    (hsegs : ∀ s ∈ dir ++ ["machines".toList, id, "object".toList], path.isSegment s = true)
    (haction : resp.Action = "delete".toList ∨ resp.Action = "expire".toList) :
    registry.filterEventMachineRemoved resp =
      some ⟨"EventMachineRemoved".toList, event.Payload.machineID id, none⟩ := by
  obtain ⟨h1, h2, h3⟩ := registry.cleanKey_parts rooted dir "machines".toList id "object".toList
    (by decide) (hsegs id (by simp)) (by decide)
  rw [← hkey] at h1 h2 h3
  rw [registry.filterEventMachineRemoved_some resp h1 h2 haction, h3]

/-- An expire notification for machine `m1` becomes the removed event that
carries `m1`. -/
theorem registry.filterEventMachineRemoved_remove_witness :
    (∀ s ∈ ["fleet".toList] ++ ["machines".toList, "m1".toList, "object".toList],
        path.isSegment s = true) ∧
      registry.filterEventMachineRemoved
          ⟨"expire".toList, etcd.Node.mk "/fleet/machines/m1/object".toList [] 9 []⟩ =
        some ⟨"EventMachineRemoved".toList, event.Payload.machineID "m1".toList, none⟩ :=
  ⟨by decide,
    registry.filterEventMachineRemoved_remove
      ⟨"expire".toList, etcd.Node.mk "/fleet/machines/m1/object".toList [] 9 []⟩
      true ["fleet".toList] "m1".toList (by rfl) (by decide) (Or.inr (by rfl))⟩

/-- C7 (the code at the failing input). A `create` notification under
`/fleet/machines/m1/object` whose value does not decode is not dropped:
`filterEventMachineCreated` ignores the error of `unmarshal` and returns a
created event that carries the zero machine state. -/
theorem registry.filterEventMachineCreated_decode_error_not_dropped :
    (registry.lineCodec.unmarshal "not json".toList machine.MachineState.zero).2 =
        some (etcd.Error.other "Unable to JSON-deserialize object".toList) ∧
      registry.filterEventMachineCreated registry.lineCodec
          ⟨"create".toList, etcd.Node.mk "/fleet/machines/m1/object".toList "not json".toList 4 []⟩ =
        some ⟨"EventMachineCreated".toList,
          event.Payload.machineState machine.MachineState.zero, none⟩ := by
  constructor
  · decide
  · rfl

/-! ## More on the in-memory store -/

theorem etcd.memClient_update_ok (s s1 : etcd.MemStore) (key value : List Char) (ttl : Nat)
    (resp : etcd.Response) (h : etcd.memClient.Update s key value ttl = (.ok resp, s1)) :
    s.index < resp.Node.ModifiedIndex ∧ s1.index = resp.Node.ModifiedIndex ∧
      (s1.lookup key).isSome = true := by
  cases hl : s.lookup key with
  | none =>
    simp only [etcd.memClient, hl] at h
    cases h
  | some e =>
    simp only [etcd.memClient, hl] at h
    obtain ⟨h1, h2⟩ := Prod.mk.inj h
    have h3 := Except.ok.inj h1
    subst h3
    subst h2
    refine ⟨Nat.lt_succ_self _, rfl, ?_⟩
    refine etcd.MemStore.lookup_map s.leaves (etcd.nodeKey key) value (s.index + 1) ?_
    unfold etcd.MemStore.lookup at hl
    rw [hl]
    rfl

theorem etcd.memClient_create_ok (s s1 : etcd.MemStore) (key value : List Char) (ttl : Nat)
    (resp : etcd.Response) (h : etcd.memClient.Create s key value ttl = (.ok resp, s1)) :
    (s.lookup key).isSome = false ∧ s.index < resp.Node.ModifiedIndex ∧
      s1.index = resp.Node.ModifiedIndex ∧ (s1.lookup key).isSome = true := by
  cases hl : s.lookup key with
  | some e =>
    simp only [etcd.memClient, hl] at h
    cases h
  | none =>
    simp only [etcd.memClient, hl] at h
    obtain ⟨h1, h2⟩ := Prod.mk.inj h
    have h3 := Except.ok.inj h1
    subst h3
    subst h2
    exact ⟨rfl, Nat.lt_succ_self _, rfl,
      etcd.MemStore.lookup_append s.leaves (etcd.nodeKey key) value (s.index + 1)⟩

theorem etcd.memClient_create_error (s s1 : etcd.MemStore) (key value : List Char) (ttl : Nat)
    (e : etcd.Error) (h : etcd.memClient.Create s key value ttl = (.error e, s1)) : s1 = s := by
  cases hl : s.lookup key with
  | some e1 =>
    simp only [etcd.memClient, hl] at h
    exact (Prod.mk.inj h).2.symm
  | none =>
    simp only [etcd.memClient, hl] at h
    cases h

/-- The in-memory store is a store as the claim on refreshing a record assumes
it. -/
theorem etcd.memClient_refreshes :
    etcd.Refreshes etcd.memClient (fun s key => (s.lookup key).isSome) (fun s => s.index) where
  update_ok := fun s s1 key value ttl resp h => etcd.memClient_update_ok s s1 key value ttl resp h
  create_ok := fun s s1 key value ttl resp h =>
    (etcd.memClient_create_ok s s1 key value ttl resp h).2
  update_present := by
    intro s key value ttl h
    obtain ⟨n, s1, hu, _⟩ := etcd.memClient_lawful.update_present s key value ttl h
    exact ⟨_, s1, hu⟩

/-- The in-memory store is a store as the claim on creating a record assumes
it. -/
theorem etcd.memClient_createsAbsent :
    etcd.CreatesAbsent etcd.memClient (fun s key => (s.lookup key).isSome) where
  update_absent := by
    intro s key value ttl h
    obtain ⟨msg, s1, hu, hp, _⟩ := etcd.memClient_lawful.update_absent s key value ttl h
    exact ⟨_, s1, hu, hp⟩
  create_absent := by
    intro s key value ttl h
    obtain ⟨n, s1, hc, hk, hv, _⟩ := etcd.memClient_lawful.create_absent s key value ttl h
    exact ⟨n, s1, hc, hk, hv⟩

/-- The in-memory store creates atomically. -/
theorem etcd.memClient_atomicCreate :
    etcd.AtomicCreate etcd.memClient (fun s key => (s.lookup key).isSome) where
  create_ok := fun s s1 key value ttl resp h =>
    ⟨(etcd.memClient_create_ok s s1 key value ttl resp h).1,
      (etcd.memClient_create_ok s s1 key value ttl resp h).2.2.2⟩
  create_error := by
    intro s s1 key value ttl e h
    rw [etcd.memClient_create_error s s1 key value ttl e h]

/-! ## The store behind a failing connection -/

theorem etcd.faulty_ok {α : Type} (op : etcd.MemStore → Except etcd.Error α × etcd.MemStore)
    (s s1 : List Bool × etcd.MemStore) (a : α) (h : etcd.faulty op s = (.ok a, s1)) :
    op s.2 = (.ok a, s1.2) := by
  obtain ⟨fs, m⟩ := s
  cases fs with
  | nil =>
    simp only [etcd.faulty] at h
    obtain ⟨h1, h2⟩ := Prod.mk.inj h
    rw [← h2]
    exact Prod.ext h1 rfl
  | cons b rest =>
    cases b with
    | true =>
      simp only [etcd.faulty] at h
      cases h
    | false =>
      simp only [etcd.faulty] at h
      obtain ⟨h1, h2⟩ := Prod.mk.inj h
      rw [← h2]
      exact Prod.ext h1 rfl

/-- Behind the failing connection too, every write that succeeds is given a
modified index strictly larger than the last one given out. -/
theorem etcd.faultyClient_write_index (s s1 : List Bool × etcd.MemStore) (key value : List Char)
    (ttl : Nat) (resp : etcd.Response) :
    (etcd.faultyClient.Update s key value ttl = (.ok resp, s1) →
      s.2.index < resp.Node.ModifiedIndex ∧ s1.2.index = resp.Node.ModifiedIndex) ∧
    (etcd.faultyClient.Create s key value ttl = (.ok resp, s1) →
      s.2.index < resp.Node.ModifiedIndex ∧ s1.2.index = resp.Node.ModifiedIndex) := by
  constructor
  · intro h
    have := etcd.memClient_update_ok s.2 s1.2 key value ttl resp
      (etcd.faulty_ok (fun m => etcd.memClient.Update m key value ttl) s s1 resp h)
    exact ⟨this.1, this.2.1⟩
  · intro h
    have := etcd.memClient_create_ok s.2 s1.2 key value ttl resp
      (etcd.faulty_ok (fun m => etcd.memClient.Create m key value ttl) s s1 resp h)
    exact ⟨this.2.1, this.2.2.1⟩

/-! ## `LockMachine`, step by step -/

theorem registry.LockMachine_ok {σ : Type} (lease : Nat) (r : registry.EtcdRegistry σ)
    (w : registry.World σ) (machID context : List Char) (resp : etcd.Response) (s1 : σ)
    (hc : r.etcd.Create w.store
      (path.Join [r.keyPrefix, "locks".toList, "machine".toList, machID]) context lease =
        (.ok resp, s1)) :
    registry.LockMachine lease r w machID context =
      (some ⟨"machine".toList, machID, context, lease, resp.Node.ModifiedIndex⟩,
        ⟨s1, w.trace ++ [etcd.Call.create
          (path.Join [r.keyPrefix, "locks".toList, "machine".toList, machID]) context lease]⟩) := by
  unfold registry.LockMachine registry.lockResource
  simp only [registry.EtcdRegistry.Create, hc]

theorem registry.LockMachine_error {σ : Type} (lease : Nat) (r : registry.EtcdRegistry σ)
    (w : registry.World σ) (machID context : List Char) (e : etcd.Error) (s1 : σ)
    (hc : r.etcd.Create w.store
      (path.Join [r.keyPrefix, "locks".toList, "machine".toList, machID]) context lease =
        (.error e, s1)) :
    registry.LockMachine lease r w machID context =
      (none,
        ⟨s1, w.trace ++ [etcd.Call.create
          (path.Join [r.keyPrefix, "locks".toList, "machine".toList, machID]) context lease]⟩) := by
  unfold registry.LockMachine registry.lockResource
  simp only [registry.EtcdRegistry.Create, hc]

/-- While the store holds the lock key, no call gets a handle. -/
theorem registry.LockMachine.each_held {σ : Type} (r : registry.EtcdRegistry σ)
    (present : σ → List Char → Bool) (hlaw : etcd.AtomicCreate r.etcd present) (lease : Nat)
    (machID : List Char) (contexts : List (List Char)) :
    ∀ (w : registry.World σ),
      present w.store (path.Join [r.keyPrefix, "locks".toList, "machine".toList, machID]) = true →
      ∀ h ∈ (registry.LockMachine.each lease r machID contexts w).1, h = none := by
  induction contexts with
  | nil =>
    intro w _ h hh
    simp [registry.LockMachine.each] at hh
  | cons c cs ih =>
    intro w hp h hh
    cases hc : r.etcd.Create w.store
        (path.Join [r.keyPrefix, "locks".toList, "machine".toList, machID]) c lease with
    | mk res s1 =>
      cases res with
      | ok resp =>
        have := (hlaw.create_ok _ _ _ _ _ _ hc).1
        rw [hp] at this
        cases this
      | error e =>
        have hstep := registry.LockMachine_error lease r w machID c e s1 hc
        have hkeep := hlaw.create_error _ _ _ _ _ _ hc
        rw [hp] at hkeep
        simp only [registry.LockMachine.each, hstep, List.mem_cons] at hh
        rcases hh with rfl | hh
        · rfl
        · exact ih ⟨s1, _⟩ hkeep h hh

theorem registry.filter_isSome_none (l : List (Option registry.TimedResourceMutex))
    (h : ∀ x ∈ l, x = none) : l.filter Option.isSome = [] := by
  induction l with
  | nil => rfl
  | cons x xs ih =>
    have hx : x = none := h x (List.mem_cons_self _ _)
    subst hx
    simp only [List.filter, Option.isSome]
    exact ih (fun y hy => h y (List.mem_cons_of_mem _ hy))

/-- C5 (as stated, refuted). The in-memory store behind a connection that can
fail gives every successful write a modified index strictly larger than the last
one given out.  The record of `m1` is present and the `Update` does not reach the
store: `SetMachineState` does not succeed by an `Update` alone, it sends a
`Create` as well and returns an error. -/
theorem registry.SetMachineState_present_not_refreshed :
    (∀ (s s1 : List Bool × etcd.MemStore) (key value : List Char) (ttl : Nat)
        (resp : etcd.Response),
        (registry.faultyRegistry.etcd.Update s key value ttl = (.ok resp, s1) →
          s.2.index < resp.Node.ModifiedIndex ∧ s1.2.index = resp.Node.ModifiedIndex) ∧
        (registry.faultyRegistry.etcd.Create s key value ttl = (.ok resp, s1) →
          s.2.index < resp.Node.ModifiedIndex ∧ s1.2.index = resp.Node.ModifiedIndex)) ∧
      (registry.storeM1.lookup
        (path.Join ["/fleet".toList, "machines".toList, registry.machineM1.ID,
          "object".toList])).isSome = true ∧
      (registry.lineCodec.marshal registry.machineM1).2 = none ∧
      registry.SetMachineState registry.lineCodec registry.faultyRegistry
          ⟨([true], registry.storeM1), []⟩ registry.machineM1 30000000000 =
        ((0, some (etcd.Error.etcdError etcd.EcodeNodeExist "Key already exists".toList)),
          ⟨([], registry.storeM1),
            [etcd.Call.update "/fleet/machines/m1/object".toList "m1,10.0.0.1,1.0".toList 30,
              etcd.Call.create "/fleet/machines/m1/object".toList "m1,10.0.0.1,1.0".toList 30]⟩) :=
  ⟨fun s s1 key value ttl resp => etcd.faultyClient_write_index s s1 key value ttl resp,
    by decide, rfl, rfl⟩

/-- C5 (amended). Over a store that gives every successful write a modified
index strictly larger than any it gave before, keeps a key present once a write
of it has succeeded, and answers the `Update` of a present key with success: if
the key `<prefix>/machines/<ms.ID>/object` is present when `SetMachineState ms
ttl` is called for an `ms` that encodes, the call succeeds by an `Update` alone
(the only request added to the trace), issues no `Create`, and returns the
updated node's modified index, which is above every index given out before; and
of two consecutive calls of which the first succeeds, the second succeeds by an
`Update` alone with an index strictly greater than the one the first call
returned. -/
theorem registry.SetMachineState_refresh {σ : Type} (cd : registry.Codec)
    (r : registry.EtcdRegistry σ) (present : σ → List Char → Bool) (index : σ → Nat)
    (hlaw : etcd.Refreshes r.etcd present index) (ms : machine.MachineState)
    (hm : (cd.marshal ms).2 = none) :
    (∀ (s : σ) (tr : List etcd.Call) (ttl : Int),
      present s (path.Join [r.keyPrefix, "machines".toList, ms.ID, "object".toList]) = true →
      ∃ resp s1 t,
        r.etcd.Update s (path.Join [r.keyPrefix, "machines".toList, ms.ID, "object".toList])
          (cd.marshal ms).1 t = (.ok resp, s1) ∧
        registry.SetMachineState cd r ⟨s, tr⟩ ms ttl =
          ((resp.Node.ModifiedIndex, none),
            ⟨s1, tr ++ [etcd.Call.update
              (path.Join [r.keyPrefix, "machines".toList, ms.ID, "object".toList])
              (cd.marshal ms).1 t]⟩) ∧
        index s < resp.Node.ModifiedIndex) ∧
    (∀ (s0 : σ) (ttl1 ttl2 : Int),
      (registry.SetMachineState cd r ⟨s0, []⟩ ms ttl1).1.2 = none →
      (registry.SetMachineState cd r
        ⟨(registry.SetMachineState cd r ⟨s0, []⟩ ms ttl1).2.store, []⟩ ms ttl2).1.2 = none ∧
      (∃ t, (registry.SetMachineState cd r
        ⟨(registry.SetMachineState cd r ⟨s0, []⟩ ms ttl1).2.store, []⟩ ms ttl2).2.trace =
          [etcd.Call.update
            (path.Join [r.keyPrefix, "machines".toList, ms.ID, "object".toList])
            (cd.marshal ms).1 t]) ∧
      (registry.SetMachineState cd r ⟨s0, []⟩ ms ttl1).1.1 <
        (registry.SetMachineState cd r
          ⟨(registry.SetMachineState cd r ⟨s0, []⟩ ms ttl1).2.store, []⟩ ms ttl2).1.1) := by
  have hA : ∀ (s : σ) (tr : List etcd.Call) (ttl : Int),
      present s (path.Join [r.keyPrefix, "machines".toList, ms.ID, "object".toList]) = true →
      ∃ resp s1,
        r.etcd.Update s (path.Join [r.keyPrefix, "machines".toList, ms.ID, "object".toList])
          (cd.marshal ms).1 (registry.ttlSeconds ttl) = (.ok resp, s1) ∧
        registry.SetMachineState cd r ⟨s, tr⟩ ms ttl =
          ((resp.Node.ModifiedIndex, none),
            ⟨s1, tr ++ [etcd.Call.update
              (path.Join [r.keyPrefix, "machines".toList, ms.ID, "object".toList])
              (cd.marshal ms).1 (registry.ttlSeconds ttl)]⟩) ∧
        index s < resp.Node.ModifiedIndex := by
    intro s tr ttl hp
    obtain ⟨resp, s1, hu⟩ :=
      hlaw.update_present s _ (cd.marshal ms).1 (registry.ttlSeconds ttl) hp
    exact ⟨resp, s1, hu, registry.SetMachineState_update cd r s s1 tr ms ttl _ hm hu,
      (hlaw.update_ok _ _ _ _ _ _ hu).1⟩
  refine ⟨fun s tr ttl hp => ?_, fun s0 ttl1 ttl2 hok => ?_⟩
  · obtain ⟨resp, s1, hu, hs, hlt⟩ := hA s tr ttl hp
    exact ⟨resp, s1, _, hu, hs, hlt⟩
  · have hfirst : ∃ i s1 tr1, registry.SetMachineState cd r ⟨s0, []⟩ ms ttl1 =
        ((i, none), ⟨s1, tr1⟩) ∧ index s1 = i ∧
        present s1 (path.Join [r.keyPrefix, "machines".toList, ms.ID, "object".toList]) = true := by
      cases hu : r.etcd.Update s0
          (path.Join [r.keyPrefix, "machines".toList, ms.ID, "object".toList])
          (cd.marshal ms).1 (registry.ttlSeconds ttl1) with
      | mk res s1 =>
        cases res with
        | ok resp =>
          obtain ⟨_, hidx, hp1⟩ := hlaw.update_ok _ _ _ _ _ _ hu
          exact ⟨_, _, _, registry.SetMachineState_update cd r s0 s1 [] ms ttl1 _ hm hu,
            hidx, hp1⟩
        | error e =>
          have hfb := registry.SetMachineState_fallback cd r s0 s1 [] ms ttl1 e hm hu
          cases hc : r.etcd.Create s1
              (path.Join [r.keyPrefix, "machines".toList, ms.ID, "object".toList])
              (cd.marshal ms).1 (registry.ttlSeconds ttl1) with
          | mk res2 s2 =>
            rw [show registry.machinePrefix = "machines".toList from rfl, hc] at hfb
            cases res2 with
            | error e2 =>
              rw [hfb] at hok
              cases hok
            | ok resp =>
              obtain ⟨_, hidx, hp2⟩ := hlaw.create_ok _ _ _ _ _ _ hc
              exact ⟨_, _, _, hfb, hidx, hp2⟩
    obtain ⟨i, s1, tr1, hf, hidx, hp1⟩ := hfirst
    obtain ⟨resp, s2, _, hs, hlt⟩ := hA s1 [] ttl2 hp1
    rw [hf]
    simp only
    rw [hs]
    refine ⟨rfl, ⟨_, rfl⟩, ?_⟩
    show i < resp.Node.ModifiedIndex
    omega

/-- On the in-memory store, starting empty, machine `m1` is published twice:
the first call returns index 1, the second is one `Update` and returns 2. -/
theorem registry.SetMachineState_refresh_witness :
    etcd.Refreshes registry.fleetRegistry.etcd (fun s key => (s.lookup key).isSome)
        (fun s => s.index) ∧
      (registry.lineCodec.marshal registry.machineM1).2 = none ∧
      (registry.SetMachineState registry.lineCodec registry.fleetRegistry
        ⟨registry.emptyStore, []⟩ registry.machineM1 30000000000).1 = (1, none) ∧
      (registry.SetMachineState registry.lineCodec registry.fleetRegistry
        ⟨(registry.SetMachineState registry.lineCodec registry.fleetRegistry
          ⟨registry.emptyStore, []⟩ registry.machineM1 30000000000).2.store, []⟩
        registry.machineM1 30000000000) =
        ((2, none),
          ⟨⟨2, [("/fleet/machines/m1/object".toList, "m1,10.0.0.1,1.0".toList, 2)]⟩,
            [etcd.Call.update "/fleet/machines/m1/object".toList
              "m1,10.0.0.1,1.0".toList 30]⟩) ∧
      (registry.SetMachineState registry.lineCodec registry.fleetRegistry
          ⟨registry.emptyStore, []⟩ registry.machineM1 30000000000).1.1 <
        (registry.SetMachineState registry.lineCodec registry.fleetRegistry
          ⟨(registry.SetMachineState registry.lineCodec registry.fleetRegistry
            ⟨registry.emptyStore, []⟩ registry.machineM1 30000000000).2.store, []⟩
          registry.machineM1 30000000000).1.1 :=
  ⟨etcd.memClient_refreshes, rfl, by decide, rfl,
    ((registry.SetMachineState_refresh registry.lineCodec registry.fleetRegistry
      (fun s key => (s.lookup key).isSome) (fun s => s.index) etcd.memClient_refreshes
      registry.machineM1 rfl).2 registry.emptyStore 30000000000 30000000000
        (by decide)).2.2⟩

/-- C6 (as stated, refuted). Machine state with an empty id, in-memory store,
key absent: `SetMachineState` succeeds through `Create` after the failed
`Update` and returns the created node's index, but the key it wrote is
`/fleet/machines/object`, and `filterEventMachineCreated` drops the `create`
notification of that write.  And with the key of `m1` absent and the store out
of reach for both requests, the call does not succeed at all. -/
theorem registry.SetMachineState_create_empty_id_no_event :
    (registry.emptyStore.lookup
        (path.Join ["/fleet".toList, "machines".toList, registry.machineNoID.ID,
          "object".toList])).isSome = false ∧
      registry.lineCodec.unmarshal (registry.lineCodec.marshal registry.machineNoID).1
        machine.MachineState.zero = (registry.machineNoID, none) ∧
      (registry.SetMachineState registry.lineCodec registry.fleetRegistry
        ⟨registry.emptyStore, []⟩ registry.machineNoID 30000000000).1 = (1, none) ∧
      (registry.SetMachineState registry.lineCodec registry.fleetRegistry
        ⟨registry.emptyStore, []⟩ registry.machineNoID 30000000000).2.trace =
        [etcd.Call.update "/fleet/machines/object".toList ",10.0.0.1,1.0".toList 30,
          etcd.Call.create "/fleet/machines/object".toList ",10.0.0.1,1.0".toList 30] ∧
      (∃ resp,
        (etcd.memClient.Create registry.emptyStore "/fleet/machines/object".toList
          ",10.0.0.1,1.0".toList 30).1 = .ok resp ∧
        resp.Action = "create".toList ∧
        registry.filterEventMachineCreated registry.lineCodec resp = none) ∧
      (registry.emptyStore.lookup
        (path.Join ["/fleet".toList, "machines".toList, registry.machineM1.ID,
          "object".toList])).isSome = false ∧
      registry.SetMachineState registry.lineCodec registry.faultyRegistry
          ⟨([true, true], registry.emptyStore), []⟩ registry.machineM1 30000000000 =
        ((0, some etcd.unreachable),
          ⟨([], registry.emptyStore),
            [etcd.Call.update "/fleet/machines/m1/object".toList "m1,10.0.0.1,1.0".toList 30,
              etcd.Call.create "/fleet/machines/m1/object".toList "m1,10.0.0.1,1.0".toList 30]⟩) :=
  ⟨by decide, by decide, by decide, by decide, ⟨_, rfl, rfl, by decide⟩, by decide, rfl⟩

/-- C6 (amended). Over a store in which the `Update` of an absent key fails and
leaves it absent, and the `Create` of an absent key succeeds and is notified as
a `create` of the key and value written: if the key
`<prefix>/machines/<ms.ID>/object` is absent when `SetMachineState ms ttl` is
called for an `ms` that encodes, then, whatever `ms.ID` is, the `Update` fails,
the `Create` that follows succeeds and the call returns the created node's
modified index; and if moreover `ms.ID` is a single clean path segment and the
codec decodes the text it encodes for `ms` back to `ms`,
`filterEventMachineCreated` turns the `create` notification of that write into
an `EventMachineCreated` event carrying `ms`. -/
theorem registry.SetMachineState_create_emits_created {σ : Type} (cd : registry.Codec)
    (r : registry.EtcdRegistry σ) (present : σ → List Char → Bool)
    (hlaw : etcd.CreatesAbsent r.etcd present) (ms : machine.MachineState)
    (hm : (cd.marshal ms).2 = none) (s : σ) (tr : List etcd.Call) (ttl : Int)
    (habsent :
      present s (path.Join [r.keyPrefix, "machines".toList, ms.ID, "object".toList]) = false) :
    ∃ e s1 n s2 t,
      r.etcd.Update s (path.Join [r.keyPrefix, "machines".toList, ms.ID, "object".toList])
        (cd.marshal ms).1 t = (.error e, s1) ∧
      r.etcd.Create s1 (path.Join [r.keyPrefix, "machines".toList, ms.ID, "object".toList])
        (cd.marshal ms).1 t = (.ok ⟨"create".toList, n⟩, s2) ∧
      registry.SetMachineState cd r ⟨s, tr⟩ ms ttl =
        ((n.ModifiedIndex, none),
          ⟨s2, tr ++ [etcd.Call.update
              (path.Join [r.keyPrefix, "machines".toList, ms.ID, "object".toList])
              (cd.marshal ms).1 t,
            etcd.Call.create
              (path.Join [r.keyPrefix, "machines".toList, ms.ID, "object".toList])
              (cd.marshal ms).1 t]⟩) ∧
      (path.isSegment ms.ID = true →
        cd.unmarshal (cd.marshal ms).1 machine.MachineState.zero = (ms, none) →
        registry.filterEventMachineCreated cd ⟨"create".toList, n⟩ =
          some ⟨"EventMachineCreated".toList, event.Payload.machineState ms, none⟩) := by
  obtain ⟨e, s1, hu, hp1⟩ :=
    hlaw.update_absent s _ (cd.marshal ms).1 (registry.ttlSeconds ttl) habsent
  obtain ⟨n, s2, hc, hkey, hval⟩ :=
    hlaw.create_absent s1 _ (cd.marshal ms).1 (registry.ttlSeconds ttl) hp1
  refine ⟨e, s1, n, s2, _, hu, hc, ?_, ?_⟩
  · have := registry.SetMachineState_fallback cd r s s1 tr ms ttl _ hm hu
    rw [show registry.machinePrefix = "machines".toList from rfl, hc] at this
    exact this
  · intro hid hround
    obtain ⟨h1, h2⟩ := registry.objectKey_parts r.keyPrefix ms.ID hid
    rw [← hkey] at h1 h2
    rw [registry.filterEventMachineCreated_some cd ⟨"create".toList, n⟩ h1 h2 rfl]
    show some (event.Event.mk _ (event.Payload.machineState
      (cd.unmarshal n.Value machine.MachineState.zero).1) none) = _
    rw [hval, hround]

/-- Machine `m1` published to the empty in-memory store: the record is created
at index 1 and the notification becomes the created event for `m1`. -/
theorem registry.SetMachineState_create_emits_created_witness :
    etcd.CreatesAbsent registry.fleetRegistry.etcd (fun s key => (s.lookup key).isSome) ∧
      (registry.lineCodec.marshal registry.machineM1).2 = none ∧
      (registry.emptyStore.lookup
        (path.Join [registry.fleetRegistry.keyPrefix, "machines".toList, registry.machineM1.ID,
          "object".toList])).isSome = false ∧
      path.isSegment registry.machineM1.ID = true ∧
      registry.lineCodec.unmarshal (registry.lineCodec.marshal registry.machineM1).1
        machine.MachineState.zero = (registry.machineM1, none) ∧
      registry.SetMachineState registry.lineCodec registry.fleetRegistry
          ⟨registry.emptyStore, []⟩ registry.machineM1 30000000000 =
        ((1, none),
          ⟨registry.storeM1,
            [etcd.Call.update "/fleet/machines/m1/object".toList "m1,10.0.0.1,1.0".toList 30,
              etcd.Call.create "/fleet/machines/m1/object".toList
                "m1,10.0.0.1,1.0".toList 30]⟩) ∧
      ∃ e s1 n s2 t,
        registry.fleetRegistry.etcd.Update registry.emptyStore
          (path.Join [registry.fleetRegistry.keyPrefix, "machines".toList,
            registry.machineM1.ID, "object".toList])
          (registry.lineCodec.marshal registry.machineM1).1 t = (.error e, s1) ∧
        registry.fleetRegistry.etcd.Create s1
          (path.Join [registry.fleetRegistry.keyPrefix, "machines".toList,
            registry.machineM1.ID, "object".toList])
          (registry.lineCodec.marshal registry.machineM1).1 t = (.ok ⟨"create".toList, n⟩, s2) ∧
        registry.SetMachineState registry.lineCodec registry.fleetRegistry
            ⟨registry.emptyStore, []⟩ registry.machineM1 30000000000 =
          ((n.ModifiedIndex, none),
            ⟨s2, [] ++ [etcd.Call.update
                (path.Join [registry.fleetRegistry.keyPrefix, "machines".toList,
                  registry.machineM1.ID, "object".toList])
                (registry.lineCodec.marshal registry.machineM1).1 t,
              etcd.Call.create
                (path.Join [registry.fleetRegistry.keyPrefix, "machines".toList,
                  registry.machineM1.ID, "object".toList])
                (registry.lineCodec.marshal registry.machineM1).1 t]⟩) ∧
        (path.isSegment registry.machineM1.ID = true →
          registry.lineCodec.unmarshal (registry.lineCodec.marshal registry.machineM1).1
            machine.MachineState.zero = (registry.machineM1, none) →
          registry.filterEventMachineCreated registry.lineCodec ⟨"create".toList, n⟩ =
            some ⟨"EventMachineCreated".toList,
              event.Payload.machineState registry.machineM1, none⟩) :=
  ⟨etcd.memClient_createsAbsent, rfl, by decide, by decide, by decide, rfl,
    registry.SetMachineState_create_emits_created registry.lineCodec registry.fleetRegistry
      (fun s key => (s.lookup key).isSome) etcd.memClient_createsAbsent
      registry.machineM1 rfl registry.emptyStore [] 30000000000 (by decide)⟩

/-- C8 (the code at the failing input). The record of `m1` is in the store and
the `Update` does not reach the store, an error that is not not-found:
`SetMachineState` goes on to `Create` all the same, and what the caller gets is
the error of the `Create` (key already exists), not the error of the `Update`.
With the record absent, the same failed `Update` is followed by a `Create` that
succeeds, and the caller gets no error at all. -/
theorem registry.SetMachineState_fallback_on_any_error :
    (registry.faultyRegistry.etcd.Update ([true], registry.storeM1)
        "/fleet/machines/m1/object".toList "m1,10.0.0.1,1.0".toList 30).1 =
        .error etcd.unreachable ∧
      registry.isKeyNotFound (some etcd.unreachable) = false ∧
      registry.SetMachineState registry.lineCodec registry.faultyRegistry
          ⟨([true], registry.storeM1), []⟩ registry.machineM1 30000000000 =
        ((0, some (etcd.Error.etcdError etcd.EcodeNodeExist "Key already exists".toList)),
          ⟨([], registry.storeM1),
            [etcd.Call.update "/fleet/machines/m1/object".toList "m1,10.0.0.1,1.0".toList 30,
              etcd.Call.create "/fleet/machines/m1/object".toList "m1,10.0.0.1,1.0".toList 30]⟩) ∧
      registry.SetMachineState registry.lineCodec registry.faultyRegistry
          ⟨([true], registry.emptyStore), []⟩ registry.machineM1 30000000000 =
        ((1, none),
          ⟨([], registry.storeM1),
            [etcd.Call.update "/fleet/machines/m1/object".toList "m1,10.0.0.1,1.0".toList 30,
              etcd.Call.create "/fleet/machines/m1/object".toList "m1,10.0.0.1,1.0".toList 30]⟩) :=
  ⟨rfl, rfl, rfl, rfl⟩

theorem path.exists_last_slash (p : List Char) :
    '/' ∉ p ∨ ∃ a s, p = a ++ '/' :: s ∧ '/' ∉ s := by
  induction p with
  | nil => exact Or.inl (by simp)
  | cons c p ih =>
    rcases ih with h | ⟨a, s, rfl, hs⟩
    · by_cases hc : c = '/'
      · exact Or.inr ⟨[], p, by rw [hc]; rfl, h⟩
      · left
        simp only [List.mem_cons, not_or]
        exact ⟨fun e => hc e.symm, h⟩
    · exact Or.inr ⟨c :: a, s, rfl, hs⟩

/-- The file part that `Split` gives is the last segment of the path. -/
theorem path.Split_lastSegment (p : List Char) : (path.Split p).2 = path.lastSegment p := by
  rcases path.exists_last_slash p with h | ⟨a, s, rfl, hs⟩
  · rw [path.Split_not_mem p h]
    have := (path.takeWhile_segment p.reverse [] (by simpa using h) (Or.inl rfl)).1
    simp only [List.append_nil] at this
    simp [path.lastSegment, this]
  · rw [path.Split_append a s hs]
    have := (path.takeWhile_segment s.reverse ('/' :: a.reverse) (by simpa using hs)
      (Or.inr rfl)).1
    simp only [path.lastSegment, List.reverse_append, List.reverse_cons, List.append_assoc,
      List.singleton_append, this, List.reverse_reverse]

theorem registry.GetMachineState_pure {σ : Type} (cd : registry.Codec)
    (r : registry.EtcdRegistry σ) (s : σ) (tr : List etcd.Call) (machID : List Char)
    (hpure : ∀ key, (r.etcd.Get s key false true).2 = s) :
    (registry.GetMachineState cd r ⟨s, tr⟩ machID).1.1 = registry.decodedLeaf cd r s machID ∧
      (registry.GetMachineState cd r ⟨s, tr⟩ machID).2.store = s := by
  unfold registry.GetMachineState registry.decodedLeaf registry.EtcdRegistry.Get
  simp only [show registry.machinePrefix = "machines".toList from rfl]
  cases hget : (r.etcd.Get s
      (path.Join [r.keyPrefix, "machines".toList, machID, "object".toList]) false true).1 with
  | error e =>
    simp only
    split_ifs <;> exact ⟨rfl, hpure _⟩
  | ok resp =>
    simp only
    cases hdec : cd.unmarshal resp.Node.Value machine.MachineState.zero with
    | mk m err =>
      cases err with
      | none => exact ⟨rfl, hpure _⟩
      | some e => exact ⟨rfl, hpure _⟩

theorem registry.GetActiveMachines_loop_pure {σ : Type} (cd : registry.Codec)
    (r : registry.EtcdRegistry σ) (s : σ)
    (hpure : ∀ key, (r.etcd.Get s key false true).2 = s) :
    ∀ (nodes : List etcd.Node) (machines : List machine.MachineState) (tr : List etcd.Call),
      (registry.GetActiveMachines.loop cd r nodes machines ⟨s, tr⟩).1 =
        machines ++ nodes.filterMap (fun kv =>
          registry.decodedLeaf cd r s (path.lastSegment kv.Key)) := by
  intro nodes
  induction nodes with
  | nil => intro machines tr; simp [registry.GetActiveMachines.loop]
  | cons kv rest ih =>
    intro machines tr
    obtain ⟨h1, h2⟩ := registry.GetMachineState_pure cd r s tr (path.Split kv.Key).2 hpure
    rw [path.Split_lastSegment] at h1 h2
    obtain ⟨t, hw⟩ : ∃ t, (registry.GetMachineState cd r ⟨s, tr⟩
        (path.lastSegment kv.Key)).2 = ⟨s, t⟩ := by
      cases hW : (registry.GetMachineState cd r ⟨s, tr⟩ (path.lastSegment kv.Key)).2 with
      | mk st t =>
        rw [hW] at h2
        exact ⟨t, by rw [show st = s from h2]⟩
    simp only [registry.GetActiveMachines.loop, path.Split_lastSegment, List.filterMap_cons]
    rw [h1, hw]
    cases registry.decodedLeaf cd r s (path.lastSegment kv.Key) with
    | none => exact ih machines _
    | some m =>
      simp only
      rw [ih]
      simp

theorem etcd.memClient_Get_pure (s : etcd.MemStore) (key : List Char) (a b : Bool) :
    (etcd.memClient.Get s key a b).2 = s := by
  simp only [etcd.memClient]
  split
  · rfl
  · split <;> rfl

theorem etcd.memClient_Get_error (s : etcd.MemStore) (key : List Char) (a b : Bool)
    (e : etcd.Error) (h : (etcd.memClient.Get s key a b).1 = .error e) :
    registry.isKeyNotFound (some e) = true := by
  simp only [etcd.memClient] at h
  split at h
  · simp at h
  · split at h
    · simp only [Except.error.injEq] at h
      subst h
      rfl
    · simp at h

/-- C9. For every store content in which reads leave the content as it is and
no read fails with an error other than not-found, `GetActiveMachines` returns,
with no error, exactly the decoded machine states of those children of
`<prefix>/machines` whose object leaf exists and decodes, in the order in which
the store lists the children; a child whose leaf is missing or does not decode
is left out without any effect on the others, and when `<prefix>/machines` is
absent the result is the empty list. -/
theorem registry.GetActiveMachines_lists_decoded {σ : Type} (cd : registry.Codec)
    (r : registry.EtcdRegistry σ) (s : σ) (tr : List etcd.Call)
    (hpure : ∀ key, (r.etcd.Get s key false true).2 = s)
    (hreads : ∀ key e, (r.etcd.Get s key false true).1 = .error e →
      registry.isKeyNotFound (some e) = true) :
    (registry.GetActiveMachines cd r ⟨s, tr⟩).1 =
      (match (r.etcd.Get s (path.Join [r.keyPrefix, "machines".toList]) false true).1 with
        | .error _ => []
        | .ok resp => resp.Node.Nodes.filterMap (fun kv =>
            registry.decodedLeaf cd r s (path.lastSegment kv.Key)),
        none) := by
  unfold registry.GetActiveMachines registry.EtcdRegistry.Get
  simp only [show registry.machinePrefix = "machines".toList from rfl]
  cases hget : (r.etcd.Get s (path.Join [r.keyPrefix, "machines".toList]) false true).1 with
  | error e =>
    simp only [hreads _ e hget, if_true]
  | ok resp =>
    simp only [hpure]
    rw [registry.GetActiveMachines_loop_pure cd r s hpure]
    simp

/-- Four children below `/fleet/machines`, one malformed and one without an
object leaf: the list is the two well-formed records, in the store's order. -/
theorem registry.GetActiveMachines_lists_decoded_witness :
    (∀ key, (registry.fleetRegistry.etcd.Get registry.storeFour key false true).2 =
        registry.storeFour) ∧
      (∀ key e, (registry.fleetRegistry.etcd.Get registry.storeFour key false true).1 =
        .error e → registry.isKeyNotFound (some e) = true) ∧
      (registry.GetActiveMachines registry.lineCodec registry.fleetRegistry
        ⟨registry.storeFour, []⟩).1 = ([registry.machineM1, registry.machineM3], none) :=
  ⟨fun key => etcd.memClient_Get_pure _ key _ _,
    fun key e h => etcd.memClient_Get_error _ key _ _ e h,
    (registry.GetActiveMachines_lists_decoded registry.lineCodec registry.fleetRegistry
      registry.storeFour [] (fun key => etcd.memClient_Get_pure _ key _ _)
      (fun key e h => etcd.memClient_Get_error _ key _ _ e h)).trans (by decide)⟩

/-- C10 (as stated, refuted). The read of `/fleet/machines` succeeds and lists
`m1`; the read of the object leaf of `m1` does not reach the store, an error
that is not not-found.  `GetActiveMachines` performs both reads and returns the
empty list with no error. -/
theorem registry.GetActiveMachines_leaf_error_not_returned :
    (registry.faultyRegistry.etcd.Get ([true], registry.storeM1)
        "/fleet/machines/m1/object".toList false true).1 = .error etcd.unreachable ∧
      registry.isKeyNotFound (some etcd.unreachable) = false ∧
      registry.GetActiveMachines registry.lineCodec registry.faultyRegistry
          ⟨([false, true], registry.storeM1), []⟩ =
        (([], none),
          ⟨([], registry.storeM1),
            [etcd.Call.get "/fleet/machines".toList false true,
              etcd.Call.get "/fleet/machines/m1/object".toList false true]⟩) :=
  ⟨rfl, rfl, rfl⟩

/-- C10 (amended). If the read of `<prefix>/machines` fails with a store error
other than not-found, `GetActiveMachines` returns that error to the caller, and
no machines. -/
theorem registry.GetActiveMachines_error {σ : Type} (cd : registry.Codec)
    (r : registry.EtcdRegistry σ) (w : registry.World σ) (e : etcd.Error)
    (hget : (r.etcd.Get w.store (path.Join [r.keyPrefix, "machines".toList]) false true).1 =
      .error e)
    (hother : registry.isKeyNotFound (some e) = false) :
    (registry.GetActiveMachines cd r w).1 = ([], some e) := by
  unfold registry.GetActiveMachines registry.EtcdRegistry.Get
  simp only [show registry.machinePrefix = "machines".toList from rfl, hget, hother,
    Bool.false_eq_true, if_false]

/-- The read of `/fleet/machines` does not reach the store: the caller gets
that error. -/
theorem registry.GetActiveMachines_error_witness :
    (registry.faultyRegistry.etcd.Get ([true], registry.storeM1)
        (path.Join [registry.faultyRegistry.keyPrefix, "machines".toList]) false true).1 =
        .error etcd.unreachable ∧
      registry.isKeyNotFound (some etcd.unreachable) = false ∧
      (registry.GetActiveMachines registry.lineCodec registry.faultyRegistry
        ⟨([true], registry.storeM1), []⟩).1 = ([], some etcd.unreachable) :=
  ⟨rfl, rfl,
    registry.GetActiveMachines_error registry.lineCodec registry.faultyRegistry
      ⟨([true], registry.storeM1), []⟩ etcd.unreachable rfl rfl⟩

/-- C11. For every notification whose action is none of `create`, `delete`,
`expire` (in particular `set`, `update` and `compareAndSwap`), neither
`filterEventMachineCreated` nor `filterEventMachineRemoved` returns an event,
whatever the key and value; so the response of the `Update` by which a lawful
store refreshes an existing machine record yields no event. -/
theorem registry.filters_drop_other_actions {σ : Type} (cd : registry.Codec) :
    (∀ (resp : etcd.Response), resp.Action ≠ "create".toList →
      resp.Action ≠ "delete".toList → resp.Action ≠ "expire".toList →
      registry.filterEventMachineCreated cd resp = none ∧
        registry.filterEventMachineRemoved resp = none) ∧
    (∀ (c : etcd.Client σ) (present : σ → List Char → Bool) (index : σ → Nat),
      etcd.Lawful c present index →
      ∀ (s : σ) (key value : List Char) (ttl : Nat), present s key = true →
      ∃ resp s1, c.Update s key value ttl = (.ok resp, s1) ∧
        registry.filterEventMachineCreated cd resp = none ∧
        registry.filterEventMachineRemoved resp = none) := by
  have hA : ∀ (resp : etcd.Response), resp.Action ≠ "create".toList →
      resp.Action ≠ "delete".toList → resp.Action ≠ "expire".toList →
      registry.filterEventMachineCreated cd resp = none ∧
        registry.filterEventMachineRemoved resp = none := by
    intro resp h1 h2 h3
    constructor
    · unfold registry.filterEventMachineCreated
      simp only [bne_iff_ne, ne_eq, ite_not]
      split_ifs <;> rfl
    · have h4 : (resp.Action != "expire".toList && resp.Action != "delete".toList) = true := by
        simp only [Bool.and_eq_true, bne_iff_ne, ne_eq]
        exact ⟨h3, h2⟩
      unfold registry.filterEventMachineRemoved
      simp only [h4, if_true]
      split_ifs <;> rfl
  refine ⟨hA, ?_⟩
  intro c present index hlaw s key value ttl hp
  obtain ⟨n, s1, hu, _⟩ := hlaw.update_present s key value ttl hp
  exact ⟨_, s1, hu, hA ⟨"update".toList, n⟩
    (show "update".toList ≠ "create".toList by decide)
    (show "update".toList ≠ "delete".toList by decide)
    (show "update".toList ≠ "expire".toList by decide)⟩

/-- A `set` notification on the record of `m1` gives no event, and neither does
the response of an `Update` of that record in the in-memory store. -/
theorem registry.filters_drop_other_actions_witness :
    ("set".toList ≠ "create".toList ∧ "set".toList ≠ "delete".toList ∧
        "set".toList ≠ "expire".toList) ∧
      (registry.filterEventMachineCreated registry.lineCodec
          ⟨"set".toList,
            etcd.Node.mk "/fleet/machines/m1/object".toList "m1,10.0.0.1,1.0".toList 4 []⟩ =
          none ∧
        registry.filterEventMachineRemoved
          ⟨"set".toList,
            etcd.Node.mk "/fleet/machines/m1/object".toList "m1,10.0.0.1,1.0".toList 4 []⟩ =
          none) ∧
      etcd.Lawful etcd.memClient (fun s key => (s.lookup key).isSome) (fun s => s.index) ∧
      (registry.storeM1.lookup "/fleet/machines/m1/object".toList).isSome = true ∧
      ∃ resp s1,
        etcd.memClient.Update registry.storeM1 "/fleet/machines/m1/object".toList
          "m1,10.0.0.2,1.0".toList 30 = (.ok resp, s1) ∧
        registry.filterEventMachineCreated registry.lineCodec resp = none ∧
        registry.filterEventMachineRemoved resp = none :=
  ⟨by decide,
    (@registry.filters_drop_other_actions etcd.MemStore registry.lineCodec).1
      ⟨"set".toList,
        etcd.Node.mk "/fleet/machines/m1/object".toList "m1,10.0.0.1,1.0".toList 4 []⟩
      (by decide) (by decide) (by decide),
    etcd.memClient_lawful, by decide,
    (@registry.filters_drop_other_actions etcd.MemStore registry.lineCodec).2
      etcd.memClient (fun s key => (s.lookup key).isSome) (fun s => s.index)
      etcd.memClient_lawful registry.storeM1 "/fleet/machines/m1/object".toList
      "m1,10.0.0.2,1.0".toList 30 (by decide)⟩

/-- C12. For every machine id, `GetMachineState id` returns: no record and no
error when the store reports not-found for `<prefix>/machines/<id>/object`; no
record and the store's error unchanged for any other store error; no record and
the decode error when the stored value does not decode; and otherwise the
decoded machine state with no error. -/
theorem registry.GetMachineState_cases {σ : Type} (cd : registry.Codec)
    (r : registry.EtcdRegistry σ) (w : registry.World σ) (machID : List Char) :
    (∀ e, (r.etcd.Get w.store
          (path.Join [r.keyPrefix, "machines".toList, machID, "object".toList]) false true).1 =
        .error e → registry.isKeyNotFound (some e) = true →
      (registry.GetMachineState cd r w machID).1 = (none, none)) ∧
    (∀ e, (r.etcd.Get w.store
          (path.Join [r.keyPrefix, "machines".toList, machID, "object".toList]) false true).1 =
        .error e → registry.isKeyNotFound (some e) = false →
      (registry.GetMachineState cd r w machID).1 = (none, some e)) ∧
    (∀ resp e, (r.etcd.Get w.store
          (path.Join [r.keyPrefix, "machines".toList, machID, "object".toList]) false true).1 =
        .ok resp → (cd.unmarshal resp.Node.Value machine.MachineState.zero).2 = some e →
      (registry.GetMachineState cd r w machID).1 = (none, some e)) ∧
    (∀ resp m, (r.etcd.Get w.store
          (path.Join [r.keyPrefix, "machines".toList, machID, "object".toList]) false true).1 =
        .ok resp → cd.unmarshal resp.Node.Value machine.MachineState.zero = (m, none) →
      (registry.GetMachineState cd r w machID).1 = (some m, none)) := by
  refine ⟨?_, ?_, ?_, ?_⟩
  · intro e hget hnf
    unfold registry.GetMachineState registry.EtcdRegistry.Get
    simp only [show registry.machinePrefix = "machines".toList from rfl, hget, hnf, if_true]
  · intro e hget hnf
    unfold registry.GetMachineState registry.EtcdRegistry.Get
    simp only [show registry.machinePrefix = "machines".toList from rfl, hget, hnf,
      Bool.false_eq_true, if_false]
  · intro resp e hget hdec
    unfold registry.GetMachineState registry.EtcdRegistry.Get
    simp only [show registry.machinePrefix = "machines".toList from rfl, hget, hdec]
  · intro resp m hget hdec
    unfold registry.GetMachineState registry.EtcdRegistry.Get
    simp only [show registry.machinePrefix = "machines".toList from rfl, hget, hdec]

/-- The four cases on the in-memory store: `m9` is absent, the read of `m1` does
not reach the store, `m2` holds a text that does not decode, `m1` holds a
well-formed record. -/
theorem registry.GetMachineState_cases_witness :
    (registry.GetMachineState registry.lineCodec registry.fleetRegistry
        ⟨registry.storeFour, []⟩ "m9".toList).1 = (none, none) ∧
      (registry.GetMachineState registry.lineCodec registry.faultyRegistry
        ⟨([true], registry.storeFour), []⟩ "m1".toList).1 = (none, some etcd.unreachable) ∧
      (registry.GetMachineState registry.lineCodec registry.fleetRegistry
        ⟨registry.storeFour, []⟩ "m2".toList).1 =
        (none, some (etcd.Error.other "Unable to JSON-deserialize object".toList)) ∧
      (registry.GetMachineState registry.lineCodec registry.fleetRegistry
        ⟨registry.storeFour, []⟩ "m1".toList).1 = (some registry.machineM1, none) :=
  ⟨(registry.GetMachineState_cases registry.lineCodec registry.fleetRegistry
      ⟨registry.storeFour, []⟩ "m9".toList).1
      (etcd.Error.etcdError etcd.EcodeKeyNotFound "Key not found".toList) rfl rfl,
    (registry.GetMachineState_cases registry.lineCodec registry.faultyRegistry
      ⟨([true], registry.storeFour), []⟩ "m1".toList).2.1 etcd.unreachable rfl rfl,
    (registry.GetMachineState_cases registry.lineCodec registry.fleetRegistry
      ⟨registry.storeFour, []⟩ "m2".toList).2.2.1
      ⟨"get".toList, etcd.Node.mk "/fleet/machines/m2/object".toList "garbage".toList 2 []⟩
      (etcd.Error.other "Unable to JSON-deserialize object".toList) rfl rfl,
    (registry.GetMachineState_cases registry.lineCodec registry.fleetRegistry
      ⟨registry.storeFour, []⟩ "m1".toList).2.2.2
      ⟨"get".toList,
        etcd.Node.mk "/fleet/machines/m1/object".toList "m1,10.0.0.1,1.0".toList 1 []⟩
      registry.machineM1 rfl rfl⟩

/-- C15. For every name, `DefaultUnitType name` is `name` followed by
`.service`, with no look at `name`: also when `name` already ends in a
recognized suffix (`foo.socket` gives `foo.socket.service`, `foo.service` gives
`foo.service.service`). -/
theorem unit.DefaultUnitType_appends (name : List Char) :
    unit.DefaultUnitType name = name ++ ".service".toList ∧
      unit.DefaultUnitType "foo.socket".toList = "foo.socket.service".toList ∧
      unit.DefaultUnitType "foo.service".toList = "foo.service.service".toList :=
  ⟨rfl, by decide, by decide⟩

/-- C19. For every name, `RecognizedUnitType (DefaultUnitType name)` is true:
defaulting a name always yields a name of a recognized unit type. -/
theorem unit.RecognizedUnitType_DefaultUnitType (name : List Char) :
    unit.RecognizedUnitType (unit.DefaultUnitType name) = true := by
  unfold unit.RecognizedUnitType unit.DefaultUnitType
  simp only [List.any_cons, Bool.or_eq_true]
  exact Or.inl ((strings.HasSuffix_iff _ _).2 ⟨name, rfl⟩)

/-- C13. `RemoveMachineState id` is an idempotent delete: it returns success
both when the store deletes `<prefix>/machines/<id>/object` and when the store
reports not-found for it, and returns the store's error unchanged for any other
failure; so over a store whose deletes are lawful, evicting the same id twice in
a row succeeds both times. -/
theorem registry.RemoveMachineState_idempotent {σ : Type} (r : registry.EtcdRegistry σ) :
    (∀ (w : registry.World σ) (machID : List Char),
      (∀ resp, (r.etcd.Delete w.store
            (path.Join [r.keyPrefix, "machines".toList, machID, "object".toList]) false).1 =
          .ok resp → (registry.RemoveMachineState r w machID).1 = none) ∧
      (∀ e, (r.etcd.Delete w.store
            (path.Join [r.keyPrefix, "machines".toList, machID, "object".toList]) false).1 =
          .error e → registry.isKeyNotFound (some e) = true →
        (registry.RemoveMachineState r w machID).1 = none) ∧
      (∀ e, (r.etcd.Delete w.store
            (path.Join [r.keyPrefix, "machines".toList, machID, "object".toList]) false).1 =
          .error e → registry.isKeyNotFound (some e) = false →
        (registry.RemoveMachineState r w machID).1 = some e)) ∧
    (∀ (present : σ → List Char → Bool), etcd.LawfulDelete r.etcd present →
      ∀ (s : σ) (machID : List Char),
        (registry.RemoveMachineState r ⟨s, []⟩ machID).1 = none ∧
        (registry.RemoveMachineState r
          ⟨(registry.RemoveMachineState r ⟨s, []⟩ machID).2.store, []⟩ machID).1 = none) := by
  have hA : ∀ (w : registry.World σ) (machID : List Char),
      (∀ resp, (r.etcd.Delete w.store
            (path.Join [r.keyPrefix, "machines".toList, machID, "object".toList]) false).1 =
          .ok resp → (registry.RemoveMachineState r w machID).1 = none) ∧
      (∀ e, (r.etcd.Delete w.store
            (path.Join [r.keyPrefix, "machines".toList, machID, "object".toList]) false).1 =
          .error e → registry.isKeyNotFound (some e) = true →
        (registry.RemoveMachineState r w machID).1 = none) ∧
      (∀ e, (r.etcd.Delete w.store
            (path.Join [r.keyPrefix, "machines".toList, machID, "object".toList]) false).1 =
          .error e → registry.isKeyNotFound (some e) = false →
        (registry.RemoveMachineState r w machID).1 = some e) := by
    intro w machID
    refine ⟨?_, ?_, ?_⟩
    · intro resp hd
      unfold registry.RemoveMachineState registry.EtcdRegistry.Delete
      simp only [show registry.machinePrefix = "machines".toList from rfl, hd]
    · intro e hd hnf
      unfold registry.RemoveMachineState registry.EtcdRegistry.Delete
      simp only [show registry.machinePrefix = "machines".toList from rfl, hd, hnf, if_true]
    · intro e hd hnf
      unfold registry.RemoveMachineState registry.EtcdRegistry.Delete
      simp only [show registry.machinePrefix = "machines".toList from rfl, hd, hnf,
        Bool.false_eq_true, if_false]
  have hB : ∀ (present : σ → List Char → Bool), etcd.LawfulDelete r.etcd present →
      ∀ (s : σ) (machID : List Char), (registry.RemoveMachineState r ⟨s, []⟩ machID).1 = none := by
    intro present hlaw s machID
    cases hp : present s
        (path.Join [r.keyPrefix, "machines".toList, machID, "object".toList]) with
    | true =>
      obtain ⟨resp, s1, hd, _⟩ := hlaw.delete_present s _ false hp
      exact (hA ⟨s, []⟩ machID).1 resp (by rw [hd])
    | false =>
      obtain ⟨msg, s1, hd, _⟩ := hlaw.delete_absent s _ false hp
      exact (hA ⟨s, []⟩ machID).2.1 (etcd.Error.etcdError etcd.EcodeKeyNotFound msg)
        (by rw [hd]) (by simp [registry.isKeyNotFound])
  exact ⟨hA, fun present hlaw s machID => ⟨hB present hlaw s machID, hB present hlaw _ machID⟩⟩

/-- The record of `m1` is evicted twice from the in-memory store: the first call
deletes it, the second meets not-found, both return no error. -/
theorem registry.RemoveMachineState_idempotent_witness :
    etcd.LawfulDelete registry.fleetRegistry.etcd (fun s key => (s.lookup key).isSome) ∧
      (registry.RemoveMachineState registry.fleetRegistry ⟨registry.storeM1, []⟩
        "m1".toList).1 = none ∧
      (registry.RemoveMachineState registry.fleetRegistry ⟨registry.storeM1, []⟩
        "m1".toList).2.store = ⟨2, []⟩ ∧
      (registry.RemoveMachineState registry.fleetRegistry
        ⟨(registry.RemoveMachineState registry.fleetRegistry ⟨registry.storeM1, []⟩
          "m1".toList).2.store, []⟩ "m1".toList).1 = none :=
  ⟨etcd.memClient_lawfulDelete,
    ((registry.RemoveMachineState_idempotent registry.fleetRegistry).2
      (fun s key => (s.lookup key).isSome) etcd.memClient_lawfulDelete registry.storeM1
      "m1".toList).1,
    by decide,
    ((registry.RemoveMachineState_idempotent registry.fleetRegistry).2
      (fun s key => (s.lookup key).isSome) etcd.memClient_lawfulDelete registry.storeM1
      "m1".toList).2⟩

/-- C16 (as stated, refuted). With key prefix `/fleet` and machine id
`../../etc`, the key that `SetMachineState` writes and that `GetMachineState`
and `RemoveMachineState` address is `/etc/object`, which is not under `/fleet/`,
let alone under `/fleet/machines/`. -/
theorem registry.machine_key_escapes_prefix :
    path.Join ["/fleet".toList, "machines".toList, "../../etc".toList, "object".toList] =
        "/etc/object".toList ∧
      "/fleet/".toList.isPrefixOf "/etc/object".toList = false ∧
      (registry.SetMachineState registry.lineCodec registry.fleetRegistry
        ⟨registry.emptyStore, []⟩ registry.machineDotDot 30000000000).2.trace =
        [etcd.Call.update "/etc/object".toList "../../etc,10.0.0.1,1.0".toList 30,
          etcd.Call.create "/etc/object".toList "../../etc,10.0.0.1,1.0".toList 30] ∧
      (registry.SetMachineState registry.lineCodec registry.fleetRegistry
        ⟨registry.emptyStore, []⟩ registry.machineDotDot 30000000000).2.store =
        ⟨1, [("/etc/object".toList, "../../etc,10.0.0.1,1.0".toList, 1)]⟩ ∧
      (registry.GetMachineState registry.lineCodec registry.fleetRegistry
        ⟨registry.emptyStore, []⟩ "../../etc".toList).2.trace =
        [etcd.Call.get "/etc/object".toList false true] ∧
      (registry.RemoveMachineState registry.fleetRegistry
        ⟨registry.emptyStore, []⟩ "../../etc".toList).2.trace =
        [etcd.Call.delete "/etc/object".toList false] :=
  ⟨by decide, by decide, by decide, by decide, by decide, by decide⟩

/-- C16 (amended). For every key prefix and every machine id that is a single
clean path segment, the key that `SetMachineState` writes and that
`GetMachineState` and `RemoveMachineState` address is the machines directory
`path.Join(prefix, "machines")` followed by `/<id>/object`; when the prefix is a
clean path of at least one segment this key is `<prefix>/machines/<id>/object`
to the letter. -/
theorem registry.machine_key_under_prefix {σ : Type} (cd : registry.Codec)
    (r : registry.EtcdRegistry σ) (w : registry.World σ) (machID : List Char)
    (hid : path.isSegment machID = true) :
    path.Join [r.keyPrefix, "machines".toList, machID, "object".toList] =
        path.Join [r.keyPrefix, "machines".toList] ++ '/' :: (machID ++ "/object".toList) ∧
      (∀ (rooted : Bool) (segs : List (List Char)), segs ≠ [] →
        (∀ s ∈ segs, path.isSegment s = true) → r.keyPrefix = path.cleanPath rooted segs →
        path.Join [r.keyPrefix, "machines".toList, machID, "object".toList] =
          r.keyPrefix ++ "/machines/".toList ++ machID ++ "/object".toList) ∧
      (∀ (ms : machine.MachineState) (ttl : Int), ms.ID = machID →
        ∀ c ∈ (registry.SetMachineState cd r w ms ttl).2.trace,
          c ∈ w.trace ∨
            c.key = path.Join [r.keyPrefix, "machines".toList, machID, "object".toList]) ∧
      (registry.GetMachineState cd r w machID).2.trace =
        w.trace ++ [etcd.Call.get
          (path.Join [r.keyPrefix, "machines".toList, machID, "object".toList]) false true] ∧
      (registry.RemoveMachineState r w machID).2.trace =
        w.trace ++ [etcd.Call.delete
          (path.Join [r.keyPrefix, "machines".toList, machID, "object".toList]) false] := by
  obtain ⟨y, _, hj, hm⟩ := path.Join_object r.keyPrefix machID hid
  have h1 : path.Join [r.keyPrefix, "machines".toList, machID, "object".toList] =
      path.Join [r.keyPrefix, "machines".toList] ++ '/' :: (machID ++ "/object".toList) := by
    rw [hj, hm]
    rfl
  refine ⟨h1, ?_, ?_, ?_, ?_⟩
  · intro rooted segs hne hall hpre
    rw [h1, hpre, path.Join_clean_machines rooted segs hne hall]
    simp
  · intro ms ttl hms c hc
    subst hms
    unfold registry.SetMachineState registry.EtcdRegistry.Update registry.EtcdRegistry.Create
      at hc
    simp only [show registry.machinePrefix = "machines".toList from rfl] at hc
    split at hc
    · exact Or.inl hc
    · split at hc
      · simp only [List.mem_append, List.mem_singleton] at hc
        rcases hc with h | h
        · exact Or.inl h
        · exact Or.inr (by rw [h]; rfl)
      · split at hc <;>
        · simp only [List.mem_append, List.mem_singleton] at hc
          rcases hc with (h | h) | h
          · exact Or.inl h
          · exact Or.inr (by rw [h]; rfl)
          · exact Or.inr (by rw [h]; rfl)
  · unfold registry.GetMachineState registry.EtcdRegistry.Get
    simp only [show registry.machinePrefix = "machines".toList from rfl]
    split
    · split_ifs <;> rfl
    · split <;> rfl
  · unfold registry.RemoveMachineState registry.EtcdRegistry.Delete
    simp only [show registry.machinePrefix = "machines".toList from rfl]
    split
    · split_ifs <;> rfl
    · rfl

/-- Prefix `/fleet` and id `m1`: the key is `/fleet/machines/m1/object`, and it
is the key of the requests of all three operations. -/
theorem registry.machine_key_under_prefix_witness :
    path.isSegment "m1".toList = true ∧
      path.Join [registry.fleetRegistry.keyPrefix, "machines".toList, "m1".toList,
        "object".toList] = "/fleet/machines/m1/object".toList ∧
      path.Join [registry.fleetRegistry.keyPrefix, "machines".toList, "m1".toList,
          "object".toList] =
        path.Join [registry.fleetRegistry.keyPrefix, "machines".toList] ++
          '/' :: ("m1".toList ++ "/object".toList) ∧
      (registry.GetMachineState registry.lineCodec registry.fleetRegistry
          ⟨registry.emptyStore, []⟩ "m1".toList).2.trace =
        [] ++ [etcd.Call.get
          (path.Join [registry.fleetRegistry.keyPrefix, "machines".toList, "m1".toList,
            "object".toList]) false true] :=
  ⟨by decide,
    (registry.machine_key_under_prefix registry.lineCodec registry.fleetRegistry
      ⟨registry.emptyStore, []⟩ "m1".toList (by decide)).2.1 true ["fleet".toList]
      (by decide) (by decide) (by decide),
    (registry.machine_key_under_prefix registry.lineCodec registry.fleetRegistry
      ⟨registry.emptyStore, []⟩ "m1".toList (by decide)).1,
    (registry.machine_key_under_prefix registry.lineCodec registry.fleetRegistry
      ⟨registry.emptyStore, []⟩ "m1".toList (by decide)).2.2.2.1⟩

/-- C17. Over a store whose `Create` is atomic, with no unlock and no lease
running out in between: of the calls `LockMachine machID context` for one
`machID`, taken in the order in which the store serves them, whatever their
number, their contexts and the state of the store before, at most one returns a
handle; and while the store holds the lock key none of them does. -/
theorem registry.LockMachine_at_most_one {σ : Type} (r : registry.EtcdRegistry σ)
    (present : σ → List Char → Bool) (hlaw : etcd.AtomicCreate r.etcd present) (lease : Nat)
    (machID : List Char) (contexts : List (List Char)) (w : registry.World σ) :
    ((registry.LockMachine.each lease r machID contexts w).1.filter Option.isSome).length ≤ 1 ∧
      (present w.store
          (path.Join [r.keyPrefix, "locks".toList, "machine".toList, machID]) = true →
        ∀ h ∈ (registry.LockMachine.each lease r machID contexts w).1, h = none) := by
  refine ⟨?_, registry.LockMachine.each_held r present hlaw lease machID contexts w⟩
  induction contexts generalizing w with
  | nil => simp [registry.LockMachine.each]
  | cons c cs ih =>
    cases hc : r.etcd.Create w.store
        (path.Join [r.keyPrefix, "locks".toList, "machine".toList, machID]) c lease with
    | mk res s1 =>
      cases res with
      | ok resp =>
        have hstep := registry.LockMachine_ok lease r w machID c resp s1 hc
        have hheld := (hlaw.create_ok _ _ _ _ _ _ hc).2
        have hrest := registry.filter_isSome_none _
          (registry.LockMachine.each_held r present hlaw lease machID cs
            ⟨s1, w.trace ++ [etcd.Call.create
              (path.Join [r.keyPrefix, "locks".toList, "machine".toList, machID]) c lease]⟩
            hheld)
        simp only [registry.LockMachine.each, hstep, List.filter, Option.isSome, hrest,
          List.length_cons, List.length_nil]
        exact le_refl _
      | error e =>
        have hstep := registry.LockMachine_error lease r w machID c e s1 hc
        simp only [registry.LockMachine.each, hstep, List.filter, Option.isSome]
        exact ih _

/-- Agents `X` and `Y` ask for the lock on machine `a1` of the empty in-memory
store: `X`, served first, gets the handle with index 1, `Y` gets none; served in
the other order, `Y` gets the handle. -/
theorem registry.LockMachine_at_most_one_witness :
    etcd.AtomicCreate registry.fleetRegistry.etcd (fun s key => (s.lookup key).isSome) ∧
      (registry.LockMachine.each 30 registry.fleetRegistry "a1".toList
        ["X".toList, "Y".toList] ⟨registry.emptyStore, []⟩) =
        ([some ⟨"machine".toList, "a1".toList, "X".toList, 30, 1⟩, none],
          ⟨⟨1, [("/fleet/locks/machine/a1".toList, "X".toList, 1)]⟩,
            [etcd.Call.create "/fleet/locks/machine/a1".toList "X".toList 30,
              etcd.Call.create "/fleet/locks/machine/a1".toList "Y".toList 30]⟩) ∧
      (registry.LockMachine.each 30 registry.fleetRegistry "a1".toList
        ["Y".toList, "X".toList] ⟨registry.emptyStore, []⟩).1 =
        [some ⟨"machine".toList, "a1".toList, "Y".toList, 30, 1⟩, none] ∧
      ((registry.LockMachine.each 30 registry.fleetRegistry "a1".toList
        ["X".toList, "Y".toList] ⟨registry.emptyStore, []⟩).1.filter
          Option.isSome).length ≤ 1 :=
  ⟨etcd.memClient_atomicCreate, rfl, by decide,
    (registry.LockMachine_at_most_one registry.fleetRegistry
      (fun s key => (s.lookup key).isSome) etcd.memClient_atomicCreate 30 "a1".toList
      ["X".toList, "Y".toList] ⟨registry.emptyStore, []⟩).1⟩

theorem registry.ttlSeconds_subsecond (ttl : Int) (h0 : 0 ≤ ttl) (h1 : ttl < 1000000000) :
    registry.ttlSeconds ttl = 0 := by
  unfold registry.ttlSeconds
  rw [Int.tdiv_eq_ediv h0 (by decide), Int.ediv_eq_zero_of_lt h0 h1]
  rfl

/-- C18 (as stated, refuted). With a ttl of half a second `SetMachineState`
returns no error: it sends the TTL 0 in its `Update` and its `Create`, the
record is written, and the call returns the index 1. -/
theorem registry.SetMachineState_subsecond_ttl_writes :
    (0 : Int) ≤ 500000000 ∧ (500000000 : Int) < 1000000000 ∧
      registry.SetMachineState registry.lineCodec registry.fleetRegistry
          ⟨registry.emptyStore, []⟩ registry.machineM1 500000000 =
        ((1, none),
          ⟨registry.storeM1,
            [etcd.Call.update "/fleet/machines/m1/object".toList "m1,10.0.0.1,1.0".toList 0,
              etcd.Call.create "/fleet/machines/m1/object".toList "m1,10.0.0.1,1.0".toList 0]⟩) :=
  ⟨by decide, by decide, rfl⟩

/-- C18 (amended). For every ttl with 0 <= ttl < 1 second, whose whole-second
value is zero, `SetMachineState ms ttl` raises no error of its own and does
exactly what it does for the ttl 0.  If `ms` does not encode, it returns the
encoder's error and sends nothing.  Otherwise it sends an `Update` of the record
with the TTL 0 and, if that succeeds, returns the updated node's modified index
and no error; if the `Update` fails, it sends a `Create` of the record with the
TTL 0 and returns the created node's modified index and no error, or the index 0
and the error of the `Create` if that fails too. -/
theorem registry.SetMachineState_subsecond_ttl {σ : Type} (cd : registry.Codec)
    (r : registry.EtcdRegistry σ) (w : registry.World σ) (ms : machine.MachineState)
    (ttl : Int) (h0 : 0 ≤ ttl) (h1 : ttl < 1000000000) :
    registry.ttlSeconds ttl = 0 ∧
      registry.SetMachineState cd r w ms ttl = registry.SetMachineState cd r w ms 0 ∧
      (∀ err, (cd.marshal ms).2 = some err →
        registry.SetMachineState cd r w ms ttl = ((0, some err), w)) ∧
      ((cd.marshal ms).2 = none →
        (∀ resp s1,
          r.etcd.Update w.store
            (path.Join [r.keyPrefix, "machines".toList, ms.ID, "object".toList])
            (cd.marshal ms).1 0 = (.ok resp, s1) →
          registry.SetMachineState cd r w ms ttl =
            ((resp.Node.ModifiedIndex, none),
              ⟨s1, w.trace ++ [etcd.Call.update
                (path.Join [r.keyPrefix, "machines".toList, ms.ID, "object".toList])
                (cd.marshal ms).1 0]⟩)) ∧
        (∀ e s1 resp s2,
          r.etcd.Update w.store
            (path.Join [r.keyPrefix, "machines".toList, ms.ID, "object".toList])
            (cd.marshal ms).1 0 = (.error e, s1) →
          r.etcd.Create s1
            (path.Join [r.keyPrefix, "machines".toList, ms.ID, "object".toList])
            (cd.marshal ms).1 0 = (.ok resp, s2) →
          registry.SetMachineState cd r w ms ttl =
            ((resp.Node.ModifiedIndex, none),
              ⟨s2, w.trace ++ [etcd.Call.update
                  (path.Join [r.keyPrefix, "machines".toList, ms.ID, "object".toList])
                  (cd.marshal ms).1 0,
                etcd.Call.create
                  (path.Join [r.keyPrefix, "machines".toList, ms.ID, "object".toList])
                  (cd.marshal ms).1 0]⟩)) ∧
        (∀ e s1 e2 s2,
          r.etcd.Update w.store
            (path.Join [r.keyPrefix, "machines".toList, ms.ID, "object".toList])
            (cd.marshal ms).1 0 = (.error e, s1) →
          r.etcd.Create s1
            (path.Join [r.keyPrefix, "machines".toList, ms.ID, "object".toList])
            (cd.marshal ms).1 0 = (.error e2, s2) →
          registry.SetMachineState cd r w ms ttl =
            ((0, some e2),
              ⟨s2, w.trace ++ [etcd.Call.update
                  (path.Join [r.keyPrefix, "machines".toList, ms.ID, "object".toList])
                  (cd.marshal ms).1 0,
                etcd.Call.create
                  (path.Join [r.keyPrefix, "machines".toList, ms.ID, "object".toList])
                  (cd.marshal ms).1 0]⟩))) := by
  have ht := registry.ttlSeconds_subsecond ttl h0 h1
  have hz : registry.ttlSeconds 0 = 0 := rfl
  cases w with
  | mk s tr =>
    refine ⟨ht, ?_, ?_, ?_⟩
    · unfold registry.SetMachineState
      rw [ht, hz]
    · intro err herr
      unfold registry.SetMachineState
      simp only [herr]
    · intro hm
      refine ⟨?_, ?_, ?_⟩
      · intro resp s1 hu
        rw [← ht] at hu
        have := registry.SetMachineState_update cd r s s1 tr ms ttl resp hm hu
        rw [show registry.machinePrefix = "machines".toList from rfl, ht] at this
        exact this
      · intro e s1 resp s2 hu hc
        rw [← ht] at hu hc
        have := registry.SetMachineState_fallback cd r s s1 tr ms ttl e hm hu
        rw [show registry.machinePrefix = "machines".toList from rfl, hc, ht] at this
        exact this
      · intro e s1 e2 s2 hu hc
        rw [← ht] at hu hc
        have := registry.SetMachineState_fallback cd r s s1 tr ms ttl e hm hu
        rw [show registry.machinePrefix = "machines".toList from rfl, hc, ht] at this
        exact this

/-- A ttl of 999 milliseconds on the in-memory store.  With the record of `m1`
present the call is one `Update` with the TTL 0 and returns index 2; on the
empty store the `Update` fails, the `Create` with the TTL 0 succeeds and the
call returns index 1; with the record present and the `Update` out of reach, the
call returns the error of the `Create`. -/
theorem registry.SetMachineState_subsecond_ttl_witness :
    (0 : Int) ≤ 999000000 ∧ (999000000 : Int) < 1000000000 ∧
      registry.ttlSeconds 999000000 = 0 ∧
      registry.SetMachineState registry.lineCodec registry.fleetRegistry
          ⟨registry.storeM1, []⟩ registry.machineM1 999000000 =
        ((2, none),
          ⟨⟨2, [("/fleet/machines/m1/object".toList, "m1,10.0.0.1,1.0".toList, 2)]⟩,
            [] ++ [etcd.Call.update "/fleet/machines/m1/object".toList
              "m1,10.0.0.1,1.0".toList 0]⟩) ∧
      registry.SetMachineState registry.lineCodec registry.fleetRegistry
          ⟨registry.emptyStore, []⟩ registry.machineM1 999000000 =
        ((1, none),
          ⟨registry.storeM1,
            [] ++ [etcd.Call.update "/fleet/machines/m1/object".toList
                "m1,10.0.0.1,1.0".toList 0,
              etcd.Call.create "/fleet/machines/m1/object".toList
                "m1,10.0.0.1,1.0".toList 0]⟩) ∧
      registry.SetMachineState registry.lineCodec registry.faultyRegistry
          ⟨([true], registry.storeM1), []⟩ registry.machineM1 999000000 =
        ((0, some (etcd.Error.etcdError etcd.EcodeNodeExist "Key already exists".toList)),
          ⟨([], registry.storeM1),
            [] ++ [etcd.Call.update "/fleet/machines/m1/object".toList
                "m1,10.0.0.1,1.0".toList 0,
              etcd.Call.create "/fleet/machines/m1/object".toList
                "m1,10.0.0.1,1.0".toList 0]⟩) :=
  ⟨by decide, by decide,
    (registry.SetMachineState_subsecond_ttl registry.lineCodec registry.fleetRegistry
      ⟨registry.storeM1, []⟩ registry.machineM1 999000000 (by decide) (by decide)).1,
    ((registry.SetMachineState_subsecond_ttl registry.lineCodec registry.fleetRegistry
      ⟨registry.storeM1, []⟩ registry.machineM1 999000000 (by decide)
      (by decide)).2.2.2 rfl).1
      ⟨"update".toList,
        etcd.Node.mk "/fleet/machines/m1/object".toList "m1,10.0.0.1,1.0".toList 2 []⟩
      ⟨2, [("/fleet/machines/m1/object".toList, "m1,10.0.0.1,1.0".toList, 2)]⟩ rfl,
    ((registry.SetMachineState_subsecond_ttl registry.lineCodec registry.fleetRegistry
      ⟨registry.emptyStore, []⟩ registry.machineM1 999000000 (by decide)
      (by decide)).2.2.2 rfl).2.1
      (etcd.Error.etcdError etcd.EcodeKeyNotFound "Key not found".toList) registry.emptyStore
      ⟨"create".toList,
        etcd.Node.mk "/fleet/machines/m1/object".toList "m1,10.0.0.1,1.0".toList 1 []⟩
      registry.storeM1 rfl rfl,
    ((registry.SetMachineState_subsecond_ttl registry.lineCodec registry.faultyRegistry
      ⟨([true], registry.storeM1), []⟩ registry.machineM1 999000000 (by decide)
      (by decide)).2.2.2 rfl).2.2
      etcd.unreachable ([], registry.storeM1)
      (etcd.Error.etcdError etcd.EcodeNodeExist "Key already exists".toList)
      ([], registry.storeM1) rfl rfl⟩

/-- C20. Publish then lookup is a round trip: over a store where a read right
after a successful write returns the value written, and with a codec that
decodes the text it encodes for `ms` back to `ms`, for every machine state `ms`
and key prefix, if `SetMachineState ms ttl` succeeds then the `GetMachineState
ms.ID` that follows it returns `ms` with no error, whether the write went
through the update path or the create path. -/
theorem registry.SetMachineState_then_GetMachineState {σ : Type} (cd : registry.Codec)
    (r : registry.EtcdRegistry σ) (hstore : etcd.ReadsOwnWrites r.etcd)
    (ms : machine.MachineState)
    (hround : cd.unmarshal (cd.marshal ms).1 machine.MachineState.zero = (ms, none))
    (w : registry.World σ) (ttl : Int)
    (hok : (registry.SetMachineState cd r w ms ttl).1.2 = none) :
    (registry.GetMachineState cd r (registry.SetMachineState cd r w ms ttl).2 ms.ID).1 =
      (some ms, none) := by
  cases w with
  | mk s tr =>
    cases hm : (cd.marshal ms).2 with
    | some err =>
      have hfail : registry.SetMachineState cd r ⟨s, tr⟩ ms ttl = ((0, some err), ⟨s, tr⟩) := by
        unfold registry.SetMachineState
        simp only [hm]
      rw [hfail] at hok
      exact absurd hok (by simp)
    | none =>
      cases hu : r.etcd.Update s
          (path.Join [r.keyPrefix, registry.machinePrefix, ms.ID, "object".toList])
          (cd.marshal ms).1 (registry.ttlSeconds ttl) with
      | mk res s1 =>
        cases res with
        | ok resp =>
          rw [registry.SetMachineState_update cd r s s1 tr ms ttl resp hm hu]
          obtain ⟨g, s2, hg, hv⟩ := hstore.update_then_get _ _ _ _ _ _ hu
          exact registry.GetMachineState_found cd r _ ms.ID g ms (by rw [hg])
            (by rw [hv, hround])
        | error e =>
          have hfb := registry.SetMachineState_fallback cd r s s1 tr ms ttl e hm hu
          cases hc : r.etcd.Create s1
              (path.Join [r.keyPrefix, registry.machinePrefix, ms.ID, "object".toList])
              (cd.marshal ms).1 (registry.ttlSeconds ttl) with
          | mk res2 s2 =>
            rw [hc] at hfb
            cases res2 with
            | error e2 =>
              rw [hfb] at hok
              exact absurd hok (by simp)
            | ok resp2 =>
              rw [hfb]
              obtain ⟨g, s3, hg, hv⟩ := hstore.create_then_get _ _ _ _ _ _ hc
              exact registry.GetMachineState_found cd r _ ms.ID g ms (by rw [hg])
                (by rw [hv, hround])

/-- Machine `m1` on the in-memory store, through the create path (empty store)
and through the update path (record present): the lookup returns `m1`. -/
theorem registry.SetMachineState_then_GetMachineState_witness :
    etcd.ReadsOwnWrites registry.fleetRegistry.etcd ∧
      registry.lineCodec.unmarshal (registry.lineCodec.marshal registry.machineM1).1
        machine.MachineState.zero = (registry.machineM1, none) ∧
      (registry.SetMachineState registry.lineCodec registry.fleetRegistry
        ⟨registry.emptyStore, []⟩ registry.machineM1 30000000000).1.2 = none ∧
      (registry.GetMachineState registry.lineCodec registry.fleetRegistry
        (registry.SetMachineState registry.lineCodec registry.fleetRegistry
          ⟨registry.emptyStore, []⟩ registry.machineM1 30000000000).2
        registry.machineM1.ID).1 = (some registry.machineM1, none) ∧
      (registry.SetMachineState registry.lineCodec registry.fleetRegistry
        ⟨registry.storeM1, []⟩ registry.machineM1 30000000000).1.2 = none ∧
      (registry.GetMachineState registry.lineCodec registry.fleetRegistry
        (registry.SetMachineState registry.lineCodec registry.fleetRegistry
          ⟨registry.storeM1, []⟩ registry.machineM1 30000000000).2
        registry.machineM1.ID).1 = (some registry.machineM1, none) :=
  ⟨etcd.memClient_readsOwnWrites, by decide, by decide,
    registry.SetMachineState_then_GetMachineState registry.lineCodec registry.fleetRegistry
      etcd.memClient_readsOwnWrites registry.machineM1 (by decide) ⟨registry.emptyStore, []⟩
      30000000000 (by decide),
    by decide,
    registry.SetMachineState_then_GetMachineState registry.lineCodec registry.fleetRegistry
      etcd.memClient_readsOwnWrites registry.machineM1 (by decide) ⟨registry.storeM1, []⟩
      30000000000 (by decide)⟩

/-- C14. For every unit `u`, `u.Hash` is the SHA-1 message digest, as the
standard defines it, of the bytes of `u.Raw`; it is always there (the checksum
never panics) and has 20 bytes; and it depends on `Raw` alone: two units with
the same `Raw` have the same hash whatever their `Contents`. -/
theorem unit.Unit.Hash_sha1 (u : unit.Unit) :
    u.Hash = some (sha1.fips.hash (u.Raw.map unit.byte)) ∧
      (sha1.fips.hash (u.Raw.map unit.byte)).length = sha1.Size ∧
      (∀ b ∈ sha1.fips.hash (u.Raw.map unit.byte), b < 256) ∧
      (∀ v : unit.Unit, v.Raw = u.Raw → v.Hash = u.Hash) := by
  refine ⟨sha1.Sum_eq_fips _, rfl, ?_, ?_⟩
  · intro b hb
    simp only [sha1.fips.hash, List.mem_append] at hb
    rcases hb with (((hb | hb) | hb) | hb) | hb <;> exact sha1.putUint32_byte _ b hb
  · intro v hv
    unfold unit.Unit.Hash
    rw [hv]

set_option maxRecDepth 1000000 in
/-- Two units with the raw text `abc` and different parsed contents: both have
the hash `a9993e36 4706816a ba3e2571 7850c26c 9cd0d89d`. -/
theorem unit.Unit.Hash_sha1_witness :
    (unit.Unit.mk [("Service".toList, [("ExecStart".toList, ["/bin/true".toList])])]
        "abc".toList).Raw = (unit.Unit.mk [] "abc".toList).Raw ∧
      (unit.Unit.mk [("Service".toList, [("ExecStart".toList, ["/bin/true".toList])])]
        "abc".toList).Hash = (unit.Unit.mk [] "abc".toList).Hash ∧
      (unit.Unit.mk [] "abc".toList).Hash =
        some [0xa9, 0x99, 0x3e, 0x36, 0x47, 0x06, 0x81, 0x6a, 0xba, 0x3e, 0x25, 0x71, 0x78, 0x50,
          0xc2, 0x6c, 0x9c, 0xd0, 0xd8, 0x9d] :=
  ⟨rfl,
    (unit.Unit.Hash_sha1 (unit.Unit.mk [] "abc".toList)).2.2.2
      (unit.Unit.mk [("Service".toList, [("ExecStart".toList, ["/bin/true".toList])])]
        "abc".toList) rfl,
    by decide⟩
